import Mathlib

/-!
# MiniVSFS image builder and file adder

A shallow embedding of `Mkfs_builder.c` and `Mkfs_adder.c`.

* A file (image or source file) is the list of its bytes, `List Nat`.
  `fseeko` followed by `fread` / `fwrite` is one positional read / write
  (`pread` / `pwrite`); a short `fread` is the only modelled stream failure.
* The packed C records are Lean structures with natural-number fields; `bytes`
  lays a record out little-endian at the offsets of the packed struct and
  `load` reads a record back from a byte buffer (the C code does both with
  `memcpy` or a pointer cast).
* Machine arithmetic is on `Nat`, with `% 2 ^ w` where the C type truncates.
-/

namespace MiniVSFS

/-! ## Constants -/

/-- Source: `#define BS 4096u`. -/
def BS : Nat := 4096

/-- Source: `#define INODE_SIZE 128u`. -/
def INODE_SIZE : Nat := 128

/-- Source: `#define DIRENT_SIZE 64u`. -/
def DIRENT_SIZE : Nat := 64

/-- Source: `#define ROOT_INO 1u`. -/
def ROOT_INO : Nat := 1

/-- Source: `#define MAX_NAME 58`. -/
def MAX_NAME : Nat := 58

/-! ## Bytes, buffers and files -/

/-- The `n` little-endian bytes of an unsigned integer stored in an `n`-byte field. -/
def le_bytes : Nat → Nat → List Nat
  | 0, _ => []
  | n + 1, x => x % 256 :: le_bytes n (x / 256)

/-- The unsigned integer held little-endian in a run of bytes. -/
def le_value : List Nat → Nat
  | [] => 0
  | b :: bs => b + 256 * le_value bs

/-- The `n` bytes of a buffer that start at offset `off`. -/
def slice (buf : List Nat) (off n : Nat) : List Nat :=
  (buf.drop off).take n

/-- A fixed-width array field: the first `n` cells, zero-filled when short. -/
def fixlen (n : Nat) (xs : List Nat) : List Nat :=
  xs.take n ++ List.replicate (n - xs.length) 0

/-- Positional read, `fseeko(f, off); fread(buf, 1, n, f)`: `none` is a short read. -/
def pread (f : List Nat) (off n : Nat) : Option (List Nat) :=
  if off + n ≤ f.length then some (slice f off n) else none

/-- Positional write, `fseeko(f, off); fwrite(src, 1, len, f)`, also `memcpy` into a buffer
at an offset: bytes `[off, off + len)` are replaced, a gap past the end reads as zeros. -/
def pwrite (f : List Nat) (off : Nat) (src : List Nat) : List Nat :=
  f.take off ++ List.replicate (off - f.length) 0 ++ src ++ f.drop (off + src.length)

/-- Source: `strncpy(dst, src, n)` for a C string `src` given by its characters before the
terminator: `n` bytes are written, the string's first `n` characters zero-padded. -/
def strncpy (src : List Nat) (n : Nat) : List Nat :=
  src.take n ++ List.replicate (n - src.length) 0

/-! ## On-disk records -/

/-- Source: `superblock_t` (packed, 116 bytes). -/
structure superblock_t where
  magic : Nat
  version : Nat
  block_size : Nat
  total_blocks : Nat
  inode_count : Nat
  inode_bitmap_start : Nat
  inode_bitmap_blocks : Nat
  data_bitmap_start : Nat
  data_bitmap_blocks : Nat
  inode_table_start : Nat
  inode_table_blocks : Nat
  data_region_start : Nat
  data_region_blocks : Nat
  root_inode : Nat
  mtime_epoch : Nat
  flags : Nat
  checksum : Nat
deriving DecidableEq

/-- The packed bytes of a superblock record. -/
def superblock_t.bytes (sb : superblock_t) : List Nat :=
  le_bytes 4 sb.magic ++ (le_bytes 4 sb.version ++ (le_bytes 4 sb.block_size ++
  (le_bytes 8 sb.total_blocks ++ (le_bytes 8 sb.inode_count ++
  (le_bytes 8 sb.inode_bitmap_start ++ (le_bytes 8 sb.inode_bitmap_blocks ++
  (le_bytes 8 sb.data_bitmap_start ++ (le_bytes 8 sb.data_bitmap_blocks ++
  (le_bytes 8 sb.inode_table_start ++ (le_bytes 8 sb.inode_table_blocks ++
  (le_bytes 8 sb.data_region_start ++ (le_bytes 8 sb.data_region_blocks ++
  (le_bytes 8 sb.root_inode ++ (le_bytes 8 sb.mtime_epoch ++
  (le_bytes 4 sb.flags ++ le_bytes 4 sb.checksum)))))))))))))))

/-- The superblock record at the front of a buffer (`memcpy(&sb, sb_block, sizeof(sb))`). -/
def superblock_t.load (b : List Nat) : superblock_t where
  magic := le_value (slice b 0 4)
  version := le_value (slice b 4 4)
  block_size := le_value (slice b 8 4)
  total_blocks := le_value (slice b 12 8)
  inode_count := le_value (slice b 20 8)
  inode_bitmap_start := le_value (slice b 28 8)
  inode_bitmap_blocks := le_value (slice b 36 8)
  data_bitmap_start := le_value (slice b 44 8)
  data_bitmap_blocks := le_value (slice b 52 8)
  inode_table_start := le_value (slice b 60 8)
  inode_table_blocks := le_value (slice b 68 8)
  data_region_start := le_value (slice b 76 8)
  data_region_blocks := le_value (slice b 84 8)
  root_inode := le_value (slice b 92 8)
  mtime_epoch := le_value (slice b 100 8)
  flags := le_value (slice b 108 4)
  checksum := le_value (slice b 112 4)

/-- The bytes of an array of `n` `uint32_t` cells. -/
def words_bytes : Nat → List Nat → List Nat
  | 0, _ => []
  | n + 1, ws => le_bytes 4 (ws.headD 0) ++ words_bytes n ws.tail

/-- The `n` `uint32_t` cells held in a run of bytes. -/
def words_load : Nat → List Nat → List Nat
  | 0, _ => []
  | n + 1, b => le_value (b.take 4) :: words_load n (b.drop 4)

/-- Source: `inode_t` (packed, 128 bytes); `direct` is the array `direct[12]`. -/
structure inode_t where
  mode : Nat
  links : Nat
  uid : Nat
  gid : Nat
  size_bytes : Nat
  atime : Nat
  mtime : Nat
  ctime : Nat
  direct : List Nat
  reserved_0 : Nat
  reserved_1 : Nat
  reserved_2 : Nat
  proj_id : Nat
  uid16_gid16 : Nat
  xattr_ptr : Nat
  inode_crc : Nat
deriving DecidableEq

/-- The packed bytes of an inode record. -/
def inode_t.bytes (ino : inode_t) : List Nat :=
  le_bytes 2 ino.mode ++ (le_bytes 2 ino.links ++ (le_bytes 4 ino.uid ++ (le_bytes 4 ino.gid ++
  (le_bytes 8 ino.size_bytes ++ (le_bytes 8 ino.atime ++ (le_bytes 8 ino.mtime ++
  (le_bytes 8 ino.ctime ++ (words_bytes 12 ino.direct ++ (le_bytes 4 ino.reserved_0 ++
  (le_bytes 4 ino.reserved_1 ++ (le_bytes 4 ino.reserved_2 ++ (le_bytes 4 ino.proj_id ++
  (le_bytes 4 ino.uid16_gid16 ++ (le_bytes 8 ino.xattr_ptr ++
  le_bytes 8 ino.inode_crc))))))))))))))

/-- The inode record at the front of a buffer (`fread(&rootino, 1, sizeof(rootino), f)`). -/
def inode_t.load (b : List Nat) : inode_t where
  mode := le_value (slice b 0 2)
  links := le_value (slice b 2 2)
  uid := le_value (slice b 4 4)
  gid := le_value (slice b 8 4)
  size_bytes := le_value (slice b 12 8)
  atime := le_value (slice b 20 8)
  mtime := le_value (slice b 28 8)
  ctime := le_value (slice b 36 8)
  direct := words_load 12 (slice b 44 48)
  reserved_0 := le_value (slice b 92 4)
  reserved_1 := le_value (slice b 96 4)
  reserved_2 := le_value (slice b 100 4)
  proj_id := le_value (slice b 104 4)
  uid16_gid16 := le_value (slice b 108 4)
  xattr_ptr := le_value (slice b 112 8)
  inode_crc := le_value (slice b 120 8)

/-- The all-zero inode, `memset(&ino, 0, sizeof(ino))`. -/
def inode_t.zero : inode_t where
  mode := 0
  links := 0
  uid := 0
  gid := 0
  size_bytes := 0
  atime := 0
  mtime := 0
  ctime := 0
  direct := List.replicate 12 0
  reserved_0 := 0
  reserved_1 := 0
  reserved_2 := 0
  proj_id := 0
  uid16_gid16 := 0
  xattr_ptr := 0
  inode_crc := 0

/-- Source: `dirent64_t` (packed, 64 bytes); `name` is the array `name[58]`. -/
structure dirent64_t where
  inode_no : Nat
  type : Nat
  name : List Nat
  checksum : Nat
deriving DecidableEq

/-- The packed bytes of a directory entry. -/
def dirent64_t.bytes (d : dirent64_t) : List Nat :=
  le_bytes 4 d.inode_no ++ (le_bytes 1 d.type ++ (fixlen 58 d.name ++ le_bytes 1 d.checksum))

/-- The directory entry at the front of a buffer (`(dirent64_t *)(root_block + ...)`). -/
def dirent64_t.load (b : List Nat) : dirent64_t where
  inode_no := le_value (slice b 0 4)
  type := le_value (slice b 4 1)
  name := slice b 5 58
  checksum := le_value (slice b 63 1)

/-! ## Checksum engine -/

/-- One round of the inner loop of `crc32_init`:
`c = (c & 1) ? (0xEDB88320u ^ (c >> 1)) : (c >> 1)`. -/
def crc32_round (c : Nat) : Nat :=
  if c &&& 1 ≠ 0 then 0xEDB88320 ^^^ (c >>> 1) else c >>> 1

/-- Source: `crc32_init` of `Mkfs_builder.c`, as the 256-entry table it leaves in
`CRC32_TAB`. -/
def crc32_init : List Nat :=
  (List.range 256).map (fun i => Nat.iterate crc32_round 8 i)

/-- Source: the global `CRC32_TAB`; both programs call `crc32_init()` first thing in `main`. -/
def CRC32_TAB : List Nat := crc32_init

/-- Source: `crc32(data, n)` of `Mkfs_builder.c` over the `n` bytes `data`. The adder's own
copy is `Mkfs_adder.crc32`, the same function (`crc32_copies_eq`); records are finalized
with this one in the model of either program. -/
def crc32 (data : List Nat) : Nat :=
  (data.foldl (fun c p => CRC32_TAB.getD ((c ^^^ p) &&& 0xFF) 0 ^^^ (c >>> 8)) 0xFFFFFFFF)
    ^^^ 0xFFFFFFFF

/-- Source: `superblock_crc_finalize` (`offsetof(superblock_t, checksum)` is 112). -/
def superblock_crc_finalize (sb : superblock_t) : superblock_t :=
  let sb0 := { sb with checksum := 0 }
  { sb0 with checksum := crc32 (sb0.bytes.take 112) }

/-- Source: `inode_crc_finalize`. -/
def inode_crc_finalize (ino : inode_t) : inode_t :=
  let tmp := pwrite ino.bytes 120 (List.replicate 8 0)
  { ino with inode_crc := crc32 (tmp.take 120) }

/-- Source: `dirent_checksum_finalize`; `x` is a `uint8_t`. -/
def dirent_checksum_finalize (d : dirent64_t) : dirent64_t :=
  { d with checksum := (d.bytes.take 63).foldl (fun x p => (x ^^^ p) % 256) 0 }

/-! ## Bitmap codec -/

/-- Source: `get_bit`. An index past the buffer is undefined in C (the callers keep it
inside, see `ValidImage`); the model reads a zero byte there. -/
def get_bit (bm : List Nat) (idx : Nat) : Nat :=
  (bm.getD (idx >>> 3) 0 >>> (idx &&& 7)) &&& 1

/-- Source: `set_bit`; the byte is a `uint8_t`. An index past the buffer is undefined in C;
the model leaves the buffer as it is. -/
def set_bit (bm : List Nat) (idx : Nat) : List Nat :=
  bm.set (idx >>> 3) ((bm.getD (idx >>> 3) 0 ||| (1 <<< (idx &&& 7))) % 256)

/-! ## The image builder (`Mkfs_builder.c`) -/

namespace Mkfs_builder

/-- The diagnostics with which the builder rejects its parameters. -/
inductive Failure where
  | invalid_parameters
  | size_not_multiple_of_4
  | too_small_for_inodes
  | no_space_for_data_blocks
deriving DecidableEq

/-- Source: `write_zeros_in_chunks`, writing at the stream position `pos`. -/
def write_zeros_in_chunks (f : List Nat) (pos count : Nat) : List Nat :=
  if h : count = 0 then f
  else
    let to_write := if count > 64 * 1024 then 64 * 1024 else count
    write_zeros_in_chunks (pwrite f pos (List.replicate to_write 0)) (pos + to_write)
      (count - to_write)
termination_by count
decreasing_by
  split <;> omega

/-- The superblock `main` fills in before finalizing it. -/
def superblock (total_blocks inodes inode_table_blocks data_region_blocks now : Nat) :
    superblock_t where
  magic := 0x4D565346
  version := 1
  block_size := BS
  total_blocks := total_blocks
  inode_count := inodes
  inode_bitmap_start := 1
  inode_bitmap_blocks := 1
  data_bitmap_start := 2
  data_bitmap_blocks := 1
  inode_table_start := 3
  inode_table_blocks := inode_table_blocks
  data_region_start := 3 + inode_table_blocks
  data_region_blocks := data_region_blocks
  root_inode := ROOT_INO
  mtime_epoch := now % 2 ^ 64
  flags := 0
  checksum := 0

/-- The root inode `itable[0]` before its checksum is finalized. -/
def root_inode (data_region_start now : Nat) : inode_t :=
  { inode_t.zero with
    mode := 0x4000
    links := 2
    size_bytes := 2 * DIRENT_SIZE
    atime := now % 2 ^ 64
    mtime := now % 2 ^ 64
    ctime := now % 2 ^ 64
    direct := inode_t.zero.direct.set 0 (data_region_start % 2 ^ 32)
    proj_id := 0 }

/-- The entry `entries[k]` before its checksum is finalized: inode 1, type 2, the given name. -/
def root_entry (name : List Nat) : dirent64_t where
  inode_no := 1
  type := 2
  name := strncpy name 57 ++ [0]
  checksum := 0

/-- Source: `main` of `Mkfs_builder.c`, from the parsed `--size-kib` and `--inodes` values
and the two readings of `time(NULL)`; the result is the image file written. -/
def main (size_kib inodes : Int) (t_sb t_ino : Nat) : Except Failure (List Nat) :=
  if size_kib < 180 ∨ size_kib > 4096 ∨ inodes < 128 ∨ inodes > 512 then
    .error .invalid_parameters
  else if size_kib.tmod 4 ≠ 0 then
    .error .size_not_multiple_of_4
  else
    let total_blocks := size_kib.toNat * 1024 % 2 ^ 64 / BS
    let inode_table_blocks := (inodes.toNat * INODE_SIZE + BS - 1) % 2 ^ 32 / BS
    let inode_table_bytes := inode_table_blocks * BS % 2 ^ 64
    let total_bytes := total_blocks * BS % 2 ^ 64
    if 3 + inode_table_blocks > total_blocks then
      .error .too_small_for_inodes
    else
      let data_region_blocks := total_blocks - 3 - inode_table_blocks
      if data_region_blocks < 1 then
        .error .no_space_for_data_blocks
      else
        let sb := superblock_crc_finalize
          (superblock total_blocks inodes.toNat inode_table_blocks data_region_blocks t_sb)
        let sb_block := pwrite (List.replicate BS 0) 0 sb.bytes
        let inode_b := (List.replicate BS 0).set 0 0x01
        let data_b := (List.replicate BS 0).set 0 0x01
        let itab := pwrite (List.replicate inode_table_bytes 0) 0
          (inode_crc_finalize (root_inode sb.data_region_start t_ino)).bytes
        let img := sb_block ++ inode_b ++ data_b ++ itab
        let entries := (dirent_checksum_finalize (root_entry [46])).bytes ++
          (dirent_checksum_finalize (root_entry [46, 46])).bytes
        let data_block_off := sb.data_region_start * BS
        let img := pwrite img data_block_off entries
        let used := (sb.data_region_start * BS + 128) % 2 ^ 64
        let img :=
          if total_bytes > used then write_zeros_in_chunks img used (total_bytes - used)
          else img
        .ok img

end Mkfs_builder

/-! ## The file adder (`Mkfs_adder.c`) -/

namespace Mkfs_adder

/-- How a run of the adder ends: `ok` is `return 0`, `io_error` is any of the `perror` exits
after a short read, the others are the diagnostics of the validation exits. -/
inductive Exit where
  | ok
  | io_error
  | no_free_inode
  | file_too_large
  | not_enough_data_blocks
  | root_has_no_data_block
  | no_free_dirent_slot
deriving DecidableEq

/-- The result of a run: how it ended and the output file as the run leaves it
(`none`: the run ended before the output file was opened). -/
structure Run where
  exit : Exit
  output : Option (List Nat)

/-- The copy loop `for (b = 0; b < sb.total_blocks; ++b)` with `n` iterations left, both
streams at block `b`: `false` is the exit on a short read of the input. -/
def copy_image (fin : List Nat) : Nat → Nat → List Nat → Bool × List Nat
  | 0, _, fout => (true, fout)
  | n + 1, b, fout =>
    match pread fin (b * BS) BS with
    | none => (false, fout)
    | some block => copy_image fin n (b + 1) (fout ++ block)

/-- The inode scan `for (i = 0; i < sb.inode_count; ++i)` with `n` iterations left at index
`i`: the index at which the loop breaks, `none` when it runs out (`chosen_inode == -1`).
The cast `(int)i` is the identity on the indices of a bitmap that fits the image. -/
def pick_inode (inode_bm : List Nat) : Nat → Nat → Option Nat
  | 0, _ => none
  | n + 1, i => if get_bit inode_bm i = 0 then some i else pick_inode inode_bm n (i + 1)

/-- The variables the data block loop updates: the in-memory data bitmap, the new inode,
`allocated`, `remaining`, the unread rest of the stream `fadd`, and the output file. -/
structure Alloc where
  data_bm : List Nat
  newino : inode_t
  allocated : Nat
  remaining : Nat
  fadd : List Nat
  fout : List Nat

/-- The body of the data block loop at a clear bit `i`: set the bit, record the block in the
next direct slot, read the next chunk (at most `BS` bytes) into a zeroed block buffer and
write the buffer to the block. The chunk `fread` cannot be short: the stream holds
`remaining` unread bytes. -/
def alloc_step (sb : superblock_t) (st : Alloc) (i : Nat) : Alloc :=
  let block_no := (sb.data_region_start + i) % 2 ^ 64
  let toread := if st.remaining > BS then BS else st.remaining
  let write_block := pwrite (List.replicate BS 0) 0 (st.fadd.take toread)
  { data_bm := set_bit st.data_bm i
    newino := { st.newino with
      direct := st.newino.direct.set st.allocated (block_no % 2 ^ 32) }
    allocated := st.allocated + 1
    remaining := st.remaining - toread
    fadd := st.fadd.drop toread
    fout := pwrite st.fout (block_no * BS) write_block }

/-- The data block loop
`for (i = 0; i < sb.data_region_blocks && allocated < (int)required_blocks; ++i)` with `n`
iterations left at index `i`. -/
def alloc_loop (sb : superblock_t) (required_blocks : Nat) : Nat → Nat → Alloc → Alloc
  | 0, _, st => st
  | n + 1, i, st =>
    if st.allocated < required_blocks then
      if get_bit st.data_bm i = 0 then
        alloc_loop sb required_blocks n (i + 1) (alloc_step sb st i)
      else alloc_loop sb required_blocks n (i + 1) st
    else st

/-- The slot scan `for (s = 0; s < nslots; ++s)` over the root directory block with `n`
iterations left at slot `s`: the slot at which the loop breaks, `none` when it runs out. -/
def find_slot (root_block : List Nat) : Nat → Nat → Option Nat
  | 0, _ => none
  | n + 1, s =>
    if (dirent64_t.load (slice root_block (s * DIRENT_SIZE) DIRENT_SIZE)).inode_no = 0 then
      some s
    else find_slot root_block n (s + 1)

/-- The inode `newino` as `main` sets it up before the data block loop. -/
def new_inode (file_sz now : Nat) : inode_t :=
  { inode_t.zero with
    mode := 0x8000
    links := 1
    size_bytes := file_sz % 2 ^ 64
    atime := now % 2 ^ 64
    mtime := now % 2 ^ 64
    ctime := now % 2 ^ 64 }

/-- The directory entry `newd` before its checksum is finalized. -/
def new_dirent (chosen_inode : Nat) (file_name : List Nat) : dirent64_t where
  inode_no := (chosen_inode + 1) % 2 ^ 32
  type := 1
  name := strncpy file_name (MAX_NAME - 1) ++ [0]
  checksum := 0

/-- Source: `main` of `Mkfs_adder.c`, from the bytes of the `--input` image, the `--file`
argument (its characters), the bytes of that file and the reading of `time(NULL)`. -/
def main (input file_name file : List Nat) (now : Nat) : Run :=
  match pread input 0 BS with
  | none => ⟨.io_error, none⟩
  | some sb_block =>
    let sb := superblock_t.load sb_block
    match copy_image input sb.total_blocks 0 [] with
    | (false, fout) => ⟨.io_error, some fout⟩
    | (true, fout) =>
      let ib_bytes := sb.inode_bitmap_blocks * BS % 2 ^ 64
      match pread fout (sb.inode_bitmap_start * BS) ib_bytes with
      | none => ⟨.io_error, some fout⟩
      | some inode_bm0 =>
        match pick_inode inode_bm0 sb.inode_count 0 with
        | none => ⟨.no_free_inode, some fout⟩
        | some chosen_inode =>
          let inode_bm := set_bit inode_bm0 chosen_inode
          let db_bytes := sb.data_bitmap_blocks * BS % 2 ^ 64
          match pread fout (sb.data_bitmap_start * BS) db_bytes with
          | none => ⟨.io_error, some fout⟩
          | some data_bm =>
            let file_sz := file.length
            let required_blocks := (file_sz + BS - 1) % 2 ^ 64 / BS
            if required_blocks > 12 then ⟨.file_too_large, some fout⟩
            else
              let st := alloc_loop sb required_blocks sb.data_region_blocks 0
                { data_bm := data_bm, newino := new_inode file_sz now, allocated := 0,
                  remaining := file_sz, fadd := file, fout := fout }
              if st.remaining > 0 then ⟨.not_enough_data_blocks, some st.fout⟩
              else
                let newino := inode_crc_finalize st.newino
                let inode_off := sb.inode_table_start * BS + chosen_inode * INODE_SIZE
                let fout := pwrite st.fout inode_off newino.bytes
                let root_inode_off := sb.inode_table_start * BS + (ROOT_INO - 1) * INODE_SIZE
                match pread fout root_inode_off INODE_SIZE with
                | none => ⟨.io_error, some fout⟩
                | some root_bytes =>
                  let rootino := inode_t.load root_bytes
                  if rootino.direct.getD 0 0 = 0 then ⟨.root_has_no_data_block, some fout⟩
                  else
                    let root_block_no := rootino.direct.getD 0 0
                    let root_block_off := root_block_no * BS
                    match pread fout root_block_off BS with
                    | none => ⟨.io_error, some fout⟩
                    | some root_block =>
                      match find_slot root_block (BS / DIRENT_SIZE) 0 with
                      | none => ⟨.no_free_dirent_slot, some fout⟩
                      | some slot =>
                        let newd := dirent_checksum_finalize (new_dirent chosen_inode file_name)
                        let root_block := pwrite root_block (slot * DIRENT_SIZE) newd.bytes
                        let fout := pwrite fout root_block_off root_block
                        let rootino := inode_crc_finalize { rootino with
                          links := (rootino.links + 1) % 2 ^ 16
                          size_bytes := (rootino.size_bytes + DIRENT_SIZE) % 2 ^ 64 }
                        let fout := pwrite fout root_inode_off rootino.bytes
                        let fout := pwrite fout (sb.inode_bitmap_start * BS) inode_bm
                        let fout := pwrite fout (sb.data_bitmap_start * BS) st.data_bm
                        ⟨.ok, some fout⟩

end Mkfs_adder

/-! ## Reading an image -/

/-- The superblock of an image. -/
def image_sb (img : List Nat) : superblock_t :=
  superblock_t.load img

/-- Block `n` of an image. -/
def image_block (img : List Nat) (n : Nat) : List Nat :=
  slice img (n * BS) BS

/-- The inode bitmap region of an image. -/
def inode_bitmap (img : List Nat) : List Nat :=
  slice img ((image_sb img).inode_bitmap_start * BS) ((image_sb img).inode_bitmap_blocks * BS)

/-- The data bitmap region of an image. -/
def data_bitmap (img : List Nat) : List Nat :=
  slice img ((image_sb img).data_bitmap_start * BS) ((image_sb img).data_bitmap_blocks * BS)

/-- The 128 bytes of inode table slot `i` (inode number `i + 1`). -/
def inode_slot (img : List Nat) (i : Nat) : List Nat :=
  slice img ((image_sb img).inode_table_start * BS + i * INODE_SIZE) INODE_SIZE

/-- The inode record in inode table slot `i`. -/
def image_inode (img : List Nat) (i : Nat) : inode_t :=
  inode_t.load (inode_slot img i)

/-- The 64 bytes of slot `s` of the root directory block, the block `direct[0]` of inode #1. -/
def root_slot (img : List Nat) (s : Nat) : List Nat :=
  slice (image_block img ((image_inode img 0).direct.getD 0 0)) (s * DIRENT_SIZE) DIRENT_SIZE

/-- The directory entry in slot `s` of the root directory block. -/
def root_dirent (img : List Nat) (s : Nat) : dirent64_t :=
  dirent64_t.load (root_slot img s)

/-- The number of root directory slots in use (inode number not 0). -/
def used_slots (img : List Nat) : Nat :=
  ((List.range (BS / DIRENT_SIZE)).filter (fun s => (root_dirent img s).inode_no ≠ 0)).length

/-- The number of clear bits of a bitmap among the indices below `n`. -/
def free_bits (bm : List Nat) (n : Nat) : Nat :=
  ((List.range n).filter (fun i => get_bit bm i = 0)).length

/-- A valid image (spec §3, §4.6 "an existing valid image"): the file is `total_blocks`
blocks long; the regions are laid out as the builder lays them out, each bitmap within its
one block; inode #1 and the first data block are marked allocated; inode #1 points at the
first data block and accounts for the entries of that block with `links` and
`size_bytes`. -/
structure ValidImage (img : List Nat) : Prop where
  length_eq : img.length = (image_sb img).total_blocks * BS
  inode_bitmap_start : (image_sb img).inode_bitmap_start = 1
  inode_bitmap_blocks : (image_sb img).inode_bitmap_blocks = 1
  data_bitmap_start : (image_sb img).data_bitmap_start = 2
  data_bitmap_blocks : (image_sb img).data_bitmap_blocks = 1
  inode_table_start : (image_sb img).inode_table_start = 3
  inode_table_blocks :
    (image_sb img).inode_table_blocks = ((image_sb img).inode_count * INODE_SIZE + BS - 1) / BS
  data_region_start : (image_sb img).data_region_start = 3 + (image_sb img).inode_table_blocks
  total_blocks :
    (image_sb img).total_blocks = (image_sb img).data_region_start + (image_sb img).data_region_blocks
  inode_count_pos : 1 ≤ (image_sb img).inode_count
  inode_count_le : (image_sb img).inode_count ≤ 8 * BS
  data_region_pos : 1 ≤ (image_sb img).data_region_blocks
  data_region_le : (image_sb img).data_region_blocks ≤ 8 * BS
  root_inode_used : get_bit (inode_bitmap img) 0 = 1
  root_block_used : get_bit (data_bitmap img) 0 = 1
  root_direct : (image_inode img 0).direct.getD 0 0 = (image_sb img).data_region_start
  root_links : (image_inode img 0).links = used_slots img
  root_size : (image_inode img 0).size_bytes = DIRENT_SIZE * used_slots img

/-- The image of `Mkfs_builder.main` written out region by region: superblock block, inode
bitmap block, data bitmap block, inode table, the two root entries, zero fill. -/
def built_image (size_kib inodes t_sb t_ino : Nat) : List Nat :=
  pwrite (List.replicate BS 0) 0
      (superblock_crc_finalize (Mkfs_builder.superblock (size_kib / 4) inodes
        ((inodes * 128 + 4095) / 4096) (size_kib / 4 - 3 - (inodes * 128 + 4095) / 4096)
        t_sb)).bytes ++
    ((List.replicate BS 0).set 0 1 ++
    ((List.replicate BS 0).set 0 1 ++
    (pwrite (List.replicate ((inodes * 128 + 4095) / 4096 * BS) 0) 0
        (inode_crc_finalize
          (Mkfs_builder.root_inode (3 + (inodes * 128 + 4095) / 4096) t_ino)).bytes ++
    ((dirent_checksum_finalize (Mkfs_builder.root_entry [46])).bytes ++
    ((dirent_checksum_finalize (Mkfs_builder.root_entry [46, 46])).bytes ++
    List.replicate (size_kib / 4 * BS - (3 + (inodes * 128 + 4095) / 4096) * BS - 128)
      0)))))

/-- Every field of a superblock record fits its C type. -/
structure superblock_t.Fits (sb : superblock_t) : Prop where
  magic : sb.magic < 2 ^ 32
  version : sb.version < 2 ^ 32
  block_size : sb.block_size < 2 ^ 32
  total_blocks : sb.total_blocks < 2 ^ 64
  inode_count : sb.inode_count < 2 ^ 64
  inode_bitmap_start : sb.inode_bitmap_start < 2 ^ 64
  inode_bitmap_blocks : sb.inode_bitmap_blocks < 2 ^ 64
  data_bitmap_start : sb.data_bitmap_start < 2 ^ 64
  data_bitmap_blocks : sb.data_bitmap_blocks < 2 ^ 64
  inode_table_start : sb.inode_table_start < 2 ^ 64
  inode_table_blocks : sb.inode_table_blocks < 2 ^ 64
  data_region_start : sb.data_region_start < 2 ^ 64
  data_region_blocks : sb.data_region_blocks < 2 ^ 64
  root_inode : sb.root_inode < 2 ^ 64
  mtime_epoch : sb.mtime_epoch < 2 ^ 64
  flags : sb.flags < 2 ^ 32
  checksum : sb.checksum < 2 ^ 32

/-- Every field of an inode record fits its C type. -/
structure inode_t.Fits (ino : inode_t) : Prop where
  mode : ino.mode < 2 ^ 16
  links : ino.links < 2 ^ 16
  uid : ino.uid < 2 ^ 32
  gid : ino.gid < 2 ^ 32
  size_bytes : ino.size_bytes < 2 ^ 64
  atime : ino.atime < 2 ^ 64
  mtime : ino.mtime < 2 ^ 64
  ctime : ino.ctime < 2 ^ 64
  direct_length : ino.direct.length = 12
  direct : ∀ w ∈ ino.direct, w < 2 ^ 32
  reserved_0 : ino.reserved_0 < 2 ^ 32
  reserved_1 : ino.reserved_1 < 2 ^ 32
  reserved_2 : ino.reserved_2 < 2 ^ 32
  proj_id : ino.proj_id < 2 ^ 32
  uid16_gid16 : ino.uid16_gid16 < 2 ^ 32
  xattr_ptr : ino.xattr_ptr < 2 ^ 64
  inode_crc : ino.inode_crc < 2 ^ 64

/-- Every field of a directory entry fits its C type. -/
structure dirent64_t.Fits (d : dirent64_t) : Prop where
  inode_no : d.inode_no < 2 ^ 32
  type : d.type < 2 ^ 8
  name_length : d.name.length = 58
  checksum : d.checksum < 2 ^ 8

/-- The XOR of a run of bytes. -/
def xor_bytes (bs : List Nat) : Nat :=
  bs.foldl (fun x p => x ^^^ p) 0

/-! ## The adder on a valid image, write by write -/

/-- A sequence of positional writes applied to a file, first to last. -/
def apply_writes (f : List Nat) (ws : List (Nat × List Nat)) : List Nat :=
  ws.foldl (fun f w => pwrite f w.1 w.2) f

/-- The indices at which the data block loop allocates: scanning `n` bits from index `i`
with `a` blocks allocated so far, the clear bits of `bm` until `required` is reached. -/
def picks (bm : List Nat) (required : Nat) : Nat → Nat → Nat → List Nat
  | 0, _, _ => []
  | n + 1, i, a =>
    if a < required then
      if get_bit bm i = 0 then i :: picks bm required n (i + 1) (a + 1)
      else picks bm required n (i + 1) a
    else []

/-- The block writes of the data block loop for the allocated indices, the source stream
at `fadd`: block `data_region_start + j` receives the next chunk, zero-padded. -/
def data_writes (sb : superblock_t) : List Nat → List Nat → List (Nat × List Nat)
  | _, [] => []
  | fadd, j :: js =>
    ((sb.data_region_start + j) % 2 ^ 64 * BS, pwrite (List.replicate BS 0) 0 (fadd.take BS)) ::
      data_writes sb (fadd.drop BS) js

/-- The array `direct` after the data block loop stored the blocks of the allocated indices
from cell `a` on. -/
def fill_direct (sb : superblock_t) : List Nat → Nat → List Nat → List Nat
  | d, _, [] => d
  | d, a, j :: js =>
    fill_direct sb (d.set a ((sb.data_region_start + j) % 2 ^ 64 % 2 ^ 32)) (a + 1) js

namespace Mkfs_adder

/-- The indices the data block loop allocates for a file of `file_sz` bytes. -/
def chosen_blocks (img : List Nat) (file_sz : Nat) : List Nat :=
  picks (data_bitmap img) ((file_sz + BS - 1) % 2 ^ 64 / BS)
    (image_sb img).data_region_blocks 0 0

/-- The new inode as written to the inode table. -/
def final_inode (img : List Nat) (file_sz now : Nat) : inode_t :=
  inode_crc_finalize { new_inode file_sz now with
    direct := fill_direct (image_sb img) (new_inode file_sz now).direct 0
      (chosen_blocks img file_sz) }

/-- The root inode as written back: one more link, 64 more bytes, checksum refreshed. -/
def final_root (img : List Nat) : inode_t :=
  inode_crc_finalize { image_inode img 0 with
    links := ((image_inode img 0).links + 1) % 2 ^ 16
    size_bytes := ((image_inode img 0).size_bytes + DIRENT_SIZE) % 2 ^ 64 }

/-- The write of the new inode into slot `c` of the inode table. -/
def inode_write (img : List Nat) (file_sz now c : Nat) : Nat × List Nat :=
  ((image_sb img).inode_table_start * BS + c * INODE_SIZE, (final_inode img file_sz now).bytes)

/-- The writes of the linking steps: root directory block, root inode, the two bitmaps. -/
def link_writes (img file_name : List Nat) (file_sz c slot : Nat) : List (Nat × List Nat) :=
  [ ((image_sb img).data_region_start * BS,
      pwrite (image_block img (image_sb img).data_region_start) (slot * DIRENT_SIZE)
        (dirent_checksum_finalize (new_dirent c file_name)).bytes),
    ((image_sb img).inode_table_start * BS + (ROOT_INO - 1) * INODE_SIZE,
      (final_root img).bytes),
    ((image_sb img).inode_bitmap_start * BS, set_bit (inode_bitmap img) c),
    ((image_sb img).data_bitmap_start * BS,
      (chosen_blocks img file_sz).foldl set_bit (data_bitmap img)) ]

/-- What `main` does on a valid image, with every read resolved against the input image. -/
def main_valid (img file_name file : List Nat) (now : Nat) : Run :=
  match pick_inode (inode_bitmap img) (image_sb img).inode_count 0 with
  | none => ⟨.no_free_inode, some img⟩
  | some c =>
    if (file.length + BS - 1) % 2 ^ 64 / BS > 12 then ⟨.file_too_large, some img⟩
    else if (chosen_blocks img file.length).length * BS < file.length then
      ⟨.not_enough_data_blocks,
        some (apply_writes img (data_writes (image_sb img) file (chosen_blocks img file.length)))⟩
    else
      match find_slot (image_block img (image_sb img).data_region_start) (BS / DIRENT_SIZE) 0 with
      | none =>
        ⟨.no_free_dirent_slot,
          some (apply_writes img
            (data_writes (image_sb img) file (chosen_blocks img file.length) ++
              [inode_write img file.length now c]))⟩
      | some slot =>
        ⟨.ok,
          some (apply_writes img
            (data_writes (image_sb img) file (chosen_blocks img file.length) ++
              (inode_write img file.length now c ::
                link_writes img file_name file.length c slot)))⟩

end Mkfs_adder

namespace Mkfs_adder

/-- All the writes of a successful run, in the order `main` issues them: the data blocks,
the new inode in slot `c`, then the linking steps with the entry in slot `slot`. -/
def all_writes (img file_name file : List Nat) (now c slot : Nat) : List (Nat × List Nat) :=
  data_writes (image_sb img) file (chosen_blocks img file.length) ++
    (inode_write img file.length now c :: link_writes img file_name file.length c slot)

/-- A successful run on a valid image `img`, with the inode index `c` and the root slot
`slot` the scans chose and the output image `out`. -/
structure Inserted (img file_name file : List Nat) (now c slot : Nat) (out : List Nat) :
    Prop where
  valid : ValidImage img
  pick : pick_inode (inode_bitmap img) (image_sb img).inode_count 0 = some c
  fits : (file.length + BS - 1) % 2 ^ 64 / BS ≤ 12
  enough : file.length ≤ (chosen_blocks img file.length).length * BS
  slot_eq :
    find_slot (image_block img (image_sb img).data_region_start) (BS / DIRENT_SIZE) 0 = some slot
  out_eq : out = apply_writes img (all_writes img file_name file now c slot)

end Mkfs_adder

namespace Mkfs_adder

/-- Successive runs of the adder, each applied to the output of the run before it, up to
the first run that does not succeed: the exits in order, and the image the last of these
runs was applied to (the final output when every run succeeded). A request is the file
name, the file's bytes and the time of the run; a successful run always leaves an output
file. -/
def add_seq : List Nat → List (List Nat × List Nat × Nat) → List Exit × List Nat
  | img, [] => ([], img)
  | img, (file_name, file, now) :: rest =>
    if (main img file_name file now).exit = .ok then
      (.ok :: (add_seq ((main img file_name file now).output.getD img) rest).1,
        (add_seq ((main img file_name file now).output.getD img) rest).2)
    else ([(main img file_name file now).exit], img)

/-- A valid image in which exactly the first `k + 1` inodes and data blocks are marked
allocated and exactly the first `k + 2` root directory slots are in use, as after `k`
insertions of one-block files into a fresh image. -/
structure Filled (img : List Nat) (k : Nat) : Prop where
  valid : ValidImage img
  inodes : ∀ i, i < (image_sb img).inode_count → (get_bit (inode_bitmap img) i = 0 ↔ k < i)
  blocks :
    ∀ j, j < (image_sb img).data_region_blocks → (get_bit (data_bitmap img) j = 0 ↔ k < j)
  slots : ∀ s, s < 64 → ((root_dirent img s).inode_no = 0 ↔ k + 2 ≤ s)

end Mkfs_adder

/-- The images the two programs produce: the output of a successful run of the builder, and
the output of a successful run of the adder on such an image. -/
inductive Reachable : List Nat → Prop where
  | built (size_kib inodes : Int) (t_sb t_ino : Nat) (img : List Nat) :
      Mkfs_builder.main size_kib inodes t_sb t_ino = .ok img → Reachable img
  | added (img file_name file : List Nat) (now : Nat) (out : List Nat) :
      Reachable img → Mkfs_adder.main img file_name file now = ⟨.ok, some out⟩ →
      Reachable out

/-! ## The checksum engine in the spec's words, and the adder's copy -/

/-- One bit step of the reflected CRC-32 with polynomial 0xEDB88320: the register moves one
bit to the right, and the polynomial is XORed in when the bit moved out is set. -/
def spec_crc32_bit (c : Nat) : Nat :=
  if c.testBit 0 then (c / 2) ^^^ 0xEDB88320 else c / 2

/-- The standard reflected CRC-32 of spec §4.1 computed bit by bit, without a table: the
register starts at 0xFFFFFFFF, each byte is XORed into its low byte and followed by eight bit
steps, and the result is the register XOR 0xFFFFFFFF. -/
def spec_crc32 (data : List Nat) : Nat :=
  (data.foldl (fun c p => Nat.iterate spec_crc32_bit 8 (c ^^^ p)) 0xFFFFFFFF) ^^^ 0xFFFFFFFF

namespace Mkfs_adder

/-- Source: `crc32_init` of `Mkfs_adder.c`, as the table it leaves in `CRC32_TAB`. -/
def crc32_init : List Nat :=
  (List.range 256).map (fun i =>
    Nat.iterate (fun c => if c &&& 1 ≠ 0 then 0xEDB88320 ^^^ (c >>> 1) else c >>> 1) 8 i)

/-- Source: the global `CRC32_TAB` of `Mkfs_adder.c`. -/
def CRC32_TAB : List Nat := crc32_init

/-- Source: `crc32(data, n)` of `Mkfs_adder.c`. -/
def crc32 (data : List Nat) : Nat :=
  (data.foldl (fun c p => CRC32_TAB.getD ((c ^^^ p) &&& 0xFF) 0 ^^^ (c >>> 8)) 0xFFFFFFFF)
    ^^^ 0xFFFFFFFF

end Mkfs_adder

namespace Mkfs_adder

/-- A run on a valid image `img` that ends with "No free dirent slot in root": the scans chose
the inode index `c`, the data blocks and the new inode were written, and the root directory
block had no empty slot; `out` is the output image as the run leaves it. -/
structure Unlinked (img file : List Nat) (now c : Nat) (out : List Nat) : Prop where
  valid : ValidImage img
  pick : pick_inode (inode_bitmap img) (image_sb img).inode_count 0 = some c
  fits : (file.length + BS - 1) % 2 ^ 64 / BS ≤ 12
  enough : file.length ≤ (chosen_blocks img file.length).length * BS
  no_slot :
    find_slot (image_block img (image_sb img).data_region_start) (BS / DIRENT_SIZE) 0 = none
  out_eq : out = apply_writes img
    (data_writes (image_sb img) file (chosen_blocks img file.length) ++
      [inode_write img file.length now c])

end Mkfs_adder

namespace Mkfs_adder

/-- The image successive runs of the adder end with, each run applied to the output of the
run before it, up to the first run that does not succeed: the second component of
`add_seq`. -/
def add_all : List Nat → List (List Nat × List Nat × Nat) → List Nat
  | img, [] => img
  | img, (file_name, file, now) :: rest =>
    if (main img file_name file now).exit = .ok then
      add_all ((main img file_name file now).output.getD img) rest
    else img

end Mkfs_adder

/-- The image reached from the fresh 284 KiB image with 128 inodes by 62 insertions of a
one-byte file: its root directory has no empty slot left, while inodes and data blocks are
still free. -/
def full_root_image : List Nat :=
  Mkfs_adder.add_all (built_image 284 128 0 0) (List.replicate 62 ([102], [7], 0))

/-- The bitmaps agree with the inode table and the root directory (spec §3, "Bitmap"):
an inode bit is set exactly for the inodes a root directory entry names, all of them inside
the inode table and with at least one link; inode #1 points at the first data block only; a
data bit is set exactly for the blocks some allocated inode points at, no block is pointed at
by two allocated inodes, and a free inode slot points at no data block. -/
structure Synced (img : List Nat) : Prop where
  inode_bits : ∀ i, get_bit (inode_bitmap img) i = 1 ↔
    ∃ s, s < 64 ∧ (root_dirent img s).inode_no = i + 1
  inode_range : ∀ i, get_bit (inode_bitmap img) i = 1 → i < (image_sb img).inode_count
  links : ∀ i, get_bit (inode_bitmap img) i = 1 → 1 ≤ (image_inode img i).links
  root_direct :
    (image_inode img 0).direct = (image_sb img).data_region_start :: List.replicate 11 0
  data_bits : ∀ j, get_bit (data_bitmap img) j = 1 ↔
    ∃ i, get_bit (inode_bitmap img) i = 1 ∧
      (image_sb img).data_region_start + j ∈ (image_inode img i).direct
  unique : ∀ i1 i2 j, get_bit (inode_bitmap img) i1 = 1 → get_bit (inode_bitmap img) i2 = 1 →
    (image_sb img).data_region_start + j ∈ (image_inode img i1).direct →
    (image_sb img).data_region_start + j ∈ (image_inode img i2).direct → i1 = i2
  free_inodes : ∀ i, i < (image_sb img).inode_count → get_bit (inode_bitmap img) i = 0 →
    ∀ j, (image_sb img).data_region_start + j ∉ (image_inode img i).direct

/-- The images obtained from a built image by `k` successful insertions: the output of a
successful run of the builder for `k = 0`, and the output of a successful run of the adder on
an image obtained by `k` insertions for `k + 1`. -/
inductive ReachableIn : Nat → List Nat → Prop where
  | built (size_kib inodes : Int) (t_sb t_ino : Nat) (img : List Nat) :
      Mkfs_builder.main size_kib inodes t_sb t_ino = .ok img → ReachableIn 0 img
  | added (k : Nat) (img file_name file : List Nat) (now : Nat) (out : List Nat) :
      ReachableIn k img → Mkfs_adder.main img file_name file now = ⟨.ok, some out⟩ →
      ReachableIn (k + 1) out

/-- A valid image holding `k` files in first-fit order: the inode bits set are those of the
indices `0..k`, the root directory slots in use are the slots `0..k+1`, slot `s ≥ 2` names
inode number `s`, and inode #1 counts `k + 2` links and `64 * (k + 2)` bytes. -/
structure Numbered (img : List Nat) (k : Nat) : Prop where
  valid : ValidImage img
  bound : k ≤ 62
  inodes : ∀ i, get_bit (inode_bitmap img) i = 1 ↔ i ≤ k
  slots : ∀ s, s < 64 → ((root_dirent img s).inode_no ≠ 0 ↔ s ≤ k + 1)
  numbers : ∀ s, 2 ≤ s → s ≤ k + 1 → (root_dirent img s).inode_no = s
  links : (image_inode img 0).links = k + 2
  size : (image_inode img 0).size_bytes = 64 * (k + 2)
/-! ## Buffers: slices, reads and writes -/

theorem BS_eq : BS = 4096 := rfl

theorem INODE_SIZE_eq : INODE_SIZE = 128 := rfl

theorem DIRENT_SIZE_eq : DIRENT_SIZE = 64 := rfl

theorem length_slice (b : List Nat) (off n : Nat) :
    (slice b off n).length = min n (b.length - off) := by
  simp [slice]

theorem length_slice_of_le {b : List Nat} {off n : Nat} (h : off + n ≤ b.length) :
    (slice b off n).length = n := by
  rw [length_slice]; omega

theorem getElem?_slice (b : List Nat) (off n i : Nat) :
    (slice b off n)[i]? = if i < n then b[off + i]? else none := by
  simp [slice, List.getElem?_take, List.getElem?_drop]

theorem slice_zero_length (b : List Nat) : slice b 0 b.length = b := by
  simp [slice]

theorem slice_slice {b : List Nat} {off n off' n' : Nat} (h : off' + n' ≤ n) :
    slice (slice b off n) off' n' = slice b (off + off') n' := by
  apply List.ext_getElem?
  intro i
  simp only [getElem?_slice]
  by_cases hi : i < n'
  · have : off' + i < n := by omega
    simp [hi, this, Nat.add_assoc]
  · simp [hi]

theorem slice_append_left {a b : List Nat} {off n : Nat} (h : off + n ≤ a.length) :
    slice (a ++ b) off n = slice a off n := by
  apply List.ext_getElem?
  intro i
  simp only [getElem?_slice]
  by_cases hi : i < n
  · have : off + i < a.length := by omega
    simp [hi, List.getElem?_append, this]
  · simp [hi]

theorem slice_append_right {a b : List Nat} {off n : Nat} (h : a.length ≤ off) :
    slice (a ++ b) off n = slice b (off - a.length) n := by
  apply List.ext_getElem?
  intro i
  simp only [getElem?_slice]
  by_cases hi : i < n
  · have h1 : ¬ off + i < a.length := by omega
    have h2 : off + i - a.length = off - a.length + i := by omega
    simp [hi, List.getElem?_append, h1, h2]
  · simp [hi]

theorem slice_append_exact {a b : List Nat} {n : Nat} (h : a.length = n) :
    slice (a ++ b) 0 n = a := by
  subst h
  simp [slice]

theorem slice_concat (b : List Nat) (off n m : Nat) :
    slice b off (n + m) = slice b off n ++ slice b (off + n) m := by
  apply List.ext_getElem?
  intro i
  simp only [getElem?_slice, List.getElem?_append, length_slice]
  by_cases h1 : i < n
  · by_cases h2 : off + i < b.length
    · have : i < min n (b.length - off) := by omega
      have h3 : i < n + m := by omega
      simp [h1, this, h3]
    · have : ¬ i < min n (b.length - off) := by omega
      have h3 : i < n + m := by omega
      have h4 : b.length ≤ off + i := by omega
      have h5 : (b[off + i]? : Option Nat) = none := List.getElem?_eq_none h4
      simp only [h3, if_true, this, if_false, h5]
      split
      · exact (List.getElem?_eq_none (by omega)).symm
      · rfl
  · by_cases h2 : off + n ≤ b.length
    · have e : min n (b.length - off) = n := by omega
      have : ¬ i < min n (b.length - off) := by omega
      simp only [this, if_false, e]
      by_cases h3 : i < n + m
      · have h4 : i - n < m := by omega
        have h5 : off + n + (i - n) = off + i := by omega
        simp [h1, h3, h4, h5]
      · have h4 : ¬ i - n < m := by omega
        simp [h1, h3, h4]
    · have : ¬ i < min n (b.length - off) := by omega
      simp only [this, if_false]
      have h5 : (b[off + i]? : Option Nat) = none := List.getElem?_eq_none (by omega)
      have h6 : (b[off + n + (i - min n (b.length - off))]? : Option Nat) = none :=
        List.getElem?_eq_none (by omega)
      simp [h5, h6]

theorem length_pwrite {f src : List Nat} {off : Nat} (h : off + src.length ≤ f.length) :
    (pwrite f off src).length = f.length := by
  simp [pwrite]
  omega

theorem pwrite_eq_of_le {f src : List Nat} {off : Nat} (h : off ≤ f.length) :
    pwrite f off src = f.take off ++ src ++ f.drop (off + src.length) := by
  have : off - f.length = 0 := by omega
  simp [pwrite, this]

theorem pwrite_at_end (f src : List Nat) : pwrite f f.length src = f ++ src := by
  simp [pwrite]

theorem pwrite_at_end_of_eq {f src : List Nat} {off : Nat} (h : off = f.length) :
    pwrite f off src = f ++ src := by
  subst h
  exact pwrite_at_end f src

theorem pwrite_zero_front (f src : List Nat) :
    pwrite f 0 src = src ++ f.drop src.length := by
  simp [pwrite]

theorem getElem?_pwrite {f src : List Nat} {off : Nat} (h : off + src.length ≤ f.length)
    (i : Nat) :
    (pwrite f off src)[i]? =
      if off ≤ i ∧ i < off + src.length then src[i - off]? else f[i]? := by
  rw [pwrite_eq_of_le (by omega)]
  simp only [List.getElem?_append, List.length_append, List.length_take, List.getElem?_take,
    List.getElem?_drop]
  have e : min off f.length = off := by omega
  rw [e]
  by_cases h1 : i < off
  · have h2 : i < off + src.length := by omega
    have h3 : ¬ off ≤ i := by omega
    simp [h1, h2, h3]
  · by_cases h2 : i < off + src.length
    · have h3 : off ≤ i ∧ i < off + src.length := by omega
      simp [h1, h2, h3]
    · have h3 : ¬ (off ≤ i ∧ i < off + src.length) := by omega
      have h4 : off + src.length + (i - (off + src.length)) = i := by omega
      simp [h1, h2, h3, h4]

theorem slice_pwrite_disjoint {f src : List Nat} {off off' n : Nat}
    (h : off + src.length ≤ f.length) (hd : off' + n ≤ off ∨ off + src.length ≤ off') :
    slice (pwrite f off src) off' n = slice f off' n := by
  apply List.ext_getElem?
  intro i
  simp only [getElem?_slice, getElem?_pwrite h]
  by_cases hi : i < n
  · have : ¬ (off ≤ off' + i ∧ off' + i < off + src.length) := by omega
    simp [hi, this]
  · simp [hi]

theorem slice_pwrite_inside {f src : List Nat} {off k n : Nat}
    (h : off + src.length ≤ f.length) (hk : k + n ≤ src.length) :
    slice (pwrite f off src) (off + k) n = slice src k n := by
  apply List.ext_getElem?
  intro i
  simp only [getElem?_slice, getElem?_pwrite h]
  by_cases hi : i < n
  · have h1 : off ≤ off + k + i ∧ off + k + i < off + src.length := by omega
    have h2 : off + k + i - off = k + i := by omega
    simp [hi, h1, h2]
  · simp [hi]

theorem slice_pwrite_self {f src : List Nat} {off : Nat} (h : off + src.length ≤ f.length) :
    slice (pwrite f off src) off src.length = src := by
  have := slice_pwrite_inside (k := 0) (n := src.length) h (by omega)
  simpa [slice_zero_length] using this

theorem slice_pwrite_self_of_eq {f src : List Nat} {off n : Nat}
    (h : off + src.length ≤ f.length) (hn : src.length = n) :
    slice (pwrite f off src) off n = src := by
  subst hn
  exact slice_pwrite_self h

theorem pread_eq_some {f : List Nat} {off n : Nat} (h : off + n ≤ f.length) :
    pread f off n = some (slice f off n) := by
  simp [pread, h]

/-! ## Record layouts -/

theorem length_le_bytes (n x : Nat) : (le_bytes n x).length = n := by
  induction n generalizing x with
  | zero => rfl
  | succ n ih => simp [le_bytes, ih]

theorem le_value_le_bytes (n x : Nat) : le_value (le_bytes n x) = x % 256 ^ n := by
  induction n generalizing x with
  | zero => simp [le_bytes, le_value, Nat.mod_one]
  | succ n ih =>
    simp only [le_bytes, le_value, ih]
    rw [Nat.pow_succ, Nat.mul_comm (256 ^ n) 256, Nat.mod_mul]

theorem length_words_bytes (n : Nat) (ws : List Nat) : (words_bytes n ws).length = 4 * n := by
  induction n generalizing ws with
  | zero => rfl
  | succ n ih => simp [words_bytes, ih, length_le_bytes]; omega

theorem length_fixlen (n : Nat) (xs : List Nat) : (fixlen n xs).length = n := by
  simp [fixlen]
  omega

theorem superblock_length_bytes (sb : superblock_t) : sb.bytes.length = 116 := by
  simp [superblock_t.bytes, length_le_bytes]

theorem inode_length_bytes (ino : inode_t) : ino.bytes.length = 128 := by
  simp [inode_t.bytes, length_le_bytes, length_words_bytes]

theorem dirent_length_bytes (d : dirent64_t) : d.bytes.length = 64 := by
  simp [dirent64_t.bytes, length_le_bytes, length_fixlen]

theorem superblock_load_bytes_append (sb : superblock_t) (rest : List Nat) :
    superblock_t.load (sb.bytes ++ rest) =
      { magic := sb.magic % 2 ^ 32
        version := sb.version % 2 ^ 32
        block_size := sb.block_size % 2 ^ 32
        total_blocks := sb.total_blocks % 2 ^ 64
        inode_count := sb.inode_count % 2 ^ 64
        inode_bitmap_start := sb.inode_bitmap_start % 2 ^ 64
        inode_bitmap_blocks := sb.inode_bitmap_blocks % 2 ^ 64
        data_bitmap_start := sb.data_bitmap_start % 2 ^ 64
        data_bitmap_blocks := sb.data_bitmap_blocks % 2 ^ 64
        inode_table_start := sb.inode_table_start % 2 ^ 64
        inode_table_blocks := sb.inode_table_blocks % 2 ^ 64
        data_region_start := sb.data_region_start % 2 ^ 64
        data_region_blocks := sb.data_region_blocks % 2 ^ 64
        root_inode := sb.root_inode % 2 ^ 64
        mtime_epoch := sb.mtime_epoch % 2 ^ 64
        flags := sb.flags % 2 ^ 32
        checksum := sb.checksum % 2 ^ 32 } := by
  simp [superblock_t.load, superblock_t.bytes, slice_append_right, slice_append_exact,
    length_le_bytes, le_value_le_bytes]

theorem words_load_words_bytes (n : Nat) (ws : List Nat) :
    words_load n (words_bytes n ws) = (fixlen n ws).map (fun w => w % 2 ^ 32) := by
  induction n generalizing ws with
  | zero => simp [words_load, words_bytes, fixlen]
  | succ n ih =>
    have h4 : (le_bytes 4 (ws.headD 0)).length = 4 := length_le_bytes _ _
    have e1 : (le_bytes 4 (ws.headD 0) ++ words_bytes n ws.tail).take 4 =
        le_bytes 4 (ws.headD 0) := by
      exact List.take_left' h4
    have e2 : (le_bytes 4 (ws.headD 0) ++ words_bytes n ws.tail).drop 4 =
        words_bytes n ws.tail := by
      exact List.drop_left' h4
    simp only [words_load, words_bytes, e1, e2, ih, le_value_le_bytes]
    cases ws with
    | nil => simp [fixlen, List.replicate_succ]
    | cons w ws => simp [fixlen]

theorem inode_load_bytes_append (ino : inode_t) (rest : List Nat) :
    inode_t.load (ino.bytes ++ rest) =
      { mode := ino.mode % 2 ^ 16
        links := ino.links % 2 ^ 16
        uid := ino.uid % 2 ^ 32
        gid := ino.gid % 2 ^ 32
        size_bytes := ino.size_bytes % 2 ^ 64
        atime := ino.atime % 2 ^ 64
        mtime := ino.mtime % 2 ^ 64
        ctime := ino.ctime % 2 ^ 64
        direct := (fixlen 12 ino.direct).map (fun w => w % 2 ^ 32)
        reserved_0 := ino.reserved_0 % 2 ^ 32
        reserved_1 := ino.reserved_1 % 2 ^ 32
        reserved_2 := ino.reserved_2 % 2 ^ 32
        proj_id := ino.proj_id % 2 ^ 32
        uid16_gid16 := ino.uid16_gid16 % 2 ^ 32
        xattr_ptr := ino.xattr_ptr % 2 ^ 64
        inode_crc := ino.inode_crc % 2 ^ 64 } := by
  simp [inode_t.load, inode_t.bytes, slice_append_right, slice_append_exact,
    length_le_bytes, le_value_le_bytes, length_words_bytes, words_load_words_bytes]

theorem dirent_load_bytes_append (d : dirent64_t) (rest : List Nat) :
    dirent64_t.load (d.bytes ++ rest) =
      { inode_no := d.inode_no % 2 ^ 32
        type := d.type % 2 ^ 8
        name := fixlen 58 d.name
        checksum := d.checksum % 2 ^ 8 } := by
  simp [dirent64_t.load, dirent64_t.bytes, slice_append_right, slice_append_exact,
    length_le_bytes, le_value_le_bytes, length_fixlen]

/-! ## Checksums -/

theorem crc32_round_lt {c : Nat} (h : c < 2 ^ 32) : crc32_round c < 2 ^ 32 := by
  have h1 : c >>> 1 < 2 ^ 32 := by
    rw [Nat.shiftRight_eq_div_pow]
    exact lt_of_le_of_lt (Nat.div_le_self _ _) h
  unfold crc32_round
  split
  · exact Nat.xor_lt_two_pow (by norm_num) h1
  · exact h1

theorem iterate_crc32_round_lt (k : Nat) {c : Nat} (h : c < 2 ^ 32) :
    Nat.iterate crc32_round k c < 2 ^ 32 := by
  induction k generalizing c with
  | zero => simpa using h
  | succ k ih =>
    rw [Function.iterate_succ_apply]
    exact ih (crc32_round_lt h)

theorem CRC32_TAB_getD_lt (i : Nat) : CRC32_TAB.getD i 0 < 2 ^ 32 := by
  unfold CRC32_TAB crc32_init
  rw [List.getD_eq_getElem?_getD, List.getElem?_map]
  by_cases h : i < 256
  · rw [List.getElem?_range h]
    exact iterate_crc32_round_lt 8 (by omega)
  · rw [List.getElem?_eq_none (by simpa using h)]
    simp

theorem crc32_fold_lt (data : List Nat) {c : Nat} (h : c < 2 ^ 32) :
    data.foldl (fun c p => CRC32_TAB.getD ((c ^^^ p) &&& 0xFF) 0 ^^^ (c >>> 8)) c < 2 ^ 32 := by
  induction data generalizing c with
  | nil => simpa using h
  | cons p ps ih =>
    rw [List.foldl_cons]
    apply ih
    apply Nat.xor_lt_two_pow (CRC32_TAB_getD_lt _)
    rw [Nat.shiftRight_eq_div_pow]
    exact lt_of_le_of_lt (Nat.div_le_self _ _) h

theorem crc32_lt (data : List Nat) : crc32 data < 2 ^ 32 := by
  unfold crc32
  exact Nat.xor_lt_two_pow (crc32_fold_lt data (by norm_num)) (by norm_num)

theorem inode_crc_finalize_crc (ino : inode_t) :
    (inode_crc_finalize ino).inode_crc = crc32 (ino.bytes.take 120) := by
  have h : (pwrite ino.bytes 120 (List.replicate 8 0)).take 120 = ino.bytes.take 120 := by
    rw [pwrite_eq_of_le (by rw [inode_length_bytes]; omega), List.append_assoc]
    exact List.take_left' (by simp [inode_length_bytes])
  unfold inode_crc_finalize
  simp only [h]

/-! ## The builder -/

namespace Mkfs_builder

theorem write_zeros_in_chunks_at_end (count : Nat) (f : List Nat) :
    write_zeros_in_chunks f f.length count = f ++ List.replicate count 0 := by
  induction count using Nat.strong_induction_on generalizing f with
  | _ count ih =>
    rw [write_zeros_in_chunks]
    by_cases h : count = 0
    · simp [h]
    · simp only [h, dite_false]
      by_cases hc : count > 64 * 1024
      · simp only [hc, if_true]
        rw [pwrite_at_end]
        have := ih (count - 64 * 1024) (by omega) (f ++ List.replicate (64 * 1024) 0)
        simp only [List.length_append, List.length_replicate] at this
        have e : 64 * 1024 + (count - 64 * 1024) = count := by omega
        rw [this, List.append_assoc, List.append_replicate_replicate, e]
      · simp only [hc, if_false]
        rw [pwrite_at_end]
        have := ih (count - count) (by omega) (f ++ List.replicate count 0)
        simp only [List.length_append, List.length_replicate] at this
        rw [this]
        simp

end Mkfs_builder

namespace Mkfs_builder

theorem main_eq_built (s n t_sb t_ino : Nat) (hs : 180 ≤ s) (hs' : s ≤ 4096)
    (h4 : s % 4 = 0) (hn : 128 ≤ n) (hn' : n ≤ 512) :
    main s n t_sb t_ino = .ok (built_image s n t_sb t_ino) := by
  have c1 : ¬ ((s : Int) < 180 ∨ (s : Int) > 4096 ∨ (n : Int) < 128 ∨ (n : Int) > 512) := by
    omega
  have c2 : ¬ ((s : Int).tmod 4 ≠ 0) := by
    rw [Int.tmod_eq_emod (by omega) (by norm_num)]
    omega
  have e1 : s * 1024 % 2 ^ 64 / BS = s / 4 := by
    rw [BS_eq]; omega
  have e2 : (n * INODE_SIZE + BS - 1) % 2 ^ 32 / BS = (n * 128 + 4095) / 4096 := by
    rw [BS_eq, INODE_SIZE_eq]; omega
  have c3 : ¬ (3 + (n * 128 + 4095) / 4096 > s / 4) := by omega
  have c4 : ¬ (s / 4 - 3 - (n * 128 + 4095) / 4096 < 1) := by omega
  unfold main
  simp only [c1, c2, if_false, Int.toNat_natCast, e1, e2, c3, c4]
  have d : ∀ sb : superblock_t,
      (superblock_crc_finalize sb).data_region_start = sb.data_region_start := fun _ => rfl
  have d' : (superblock (s / 4) n ((n * 128 + 4095) / 4096)
      (s / 4 - 3 - (n * 128 + 4095) / 4096) t_sb).data_region_start =
      3 + (n * 128 + 4095) / 4096 := rfl
  have e3 : (n * 128 + 4095) / 4096 * BS % 2 ^ 64 = (n * 128 + 4095) / 4096 * BS := by
    rw [BS_eq]; omega
  have e4 : s / 4 * BS % 2 ^ 64 = s / 4 * BS := by
    rw [BS_eq]; omega
  have e5 : ((3 + (n * 128 + 4095) / 4096) * BS + 128) % 2 ^ 64 =
      (3 + (n * 128 + 4095) / 4096) * BS + 128 := by
    rw [BS_eq]; omega
  have c5 : s / 4 * BS > (3 + (n * 128 + 4095) / 4096) * BS + 128 := by
    rw [BS_eq]; omega
  simp only [d, d', e3, e4, e5, c5, if_true]
  unfold built_image
  generalize hA : pwrite (List.replicate BS 0) 0 (superblock_crc_finalize (superblock (s / 4) n
    ((n * 128 + 4095) / 4096) (s / 4 - 3 - (n * 128 + 4095) / 4096) t_sb)).bytes = A
  generalize hB : (List.replicate BS 0).set 0 1 = B
  generalize hD : pwrite (List.replicate ((n * 128 + 4095) / 4096 * BS) 0) 0
    (inode_crc_finalize (root_inode (3 + (n * 128 + 4095) / 4096) t_ino)).bytes = D
  generalize hE : (dirent_checksum_finalize (root_entry [46])).bytes ++
    (dirent_checksum_finalize (root_entry [46, 46])).bytes = E
  have lA : A.length = BS := by
    rw [← hA, length_pwrite (by rw [superblock_length_bytes, List.length_replicate, BS_eq]; omega),
      List.length_replicate]
  have lB : B.length = BS := by
    rw [← hB, List.length_set, List.length_replicate]
  have lD : D.length = (n * 128 + 4095) / 4096 * BS := by
    rw [← hD, length_pwrite (by rw [inode_length_bytes, List.length_replicate, BS_eq]; omega),
      List.length_replicate]
  have lE : E.length = 128 := by
    rw [← hE, List.length_append, dirent_length_bytes, dirent_length_bytes]
  have l1 : (3 + (n * 128 + 4095) / 4096) * BS = (A ++ B ++ B ++ D).length := by
    simp only [List.length_append, lA, lB, lD]
    ring
  have l2 : (3 + (n * 128 + 4095) / 4096) * BS + 128 = (A ++ B ++ B ++ D ++ E).length := by
    rw [List.length_append, ← l1, lE]
  rw [pwrite_at_end_of_eq l1, l2, write_zeros_in_chunks_at_end, ← l2, ← hE]
  simp only [List.append_assoc, Nat.sub_sub]

end Mkfs_builder

/-! ## Records that fit their types are read back as written -/

theorem fixlen_of_length {n : Nat} {xs : List Nat} (h : xs.length = n) : fixlen n xs = xs := by
  subst h
  simp [fixlen]

theorem superblock_load_bytes_of_fits {sb : superblock_t} (h : sb.Fits) (rest : List Nat) :
    superblock_t.load (sb.bytes ++ rest) = sb := by
  rw [superblock_load_bytes_append]
  cases sb
  simp only [superblock_t.mk.injEq]
  exact ⟨Nat.mod_eq_of_lt h.magic, Nat.mod_eq_of_lt h.version, Nat.mod_eq_of_lt h.block_size,
    Nat.mod_eq_of_lt h.total_blocks, Nat.mod_eq_of_lt h.inode_count,
    Nat.mod_eq_of_lt h.inode_bitmap_start, Nat.mod_eq_of_lt h.inode_bitmap_blocks,
    Nat.mod_eq_of_lt h.data_bitmap_start, Nat.mod_eq_of_lt h.data_bitmap_blocks,
    Nat.mod_eq_of_lt h.inode_table_start, Nat.mod_eq_of_lt h.inode_table_blocks,
    Nat.mod_eq_of_lt h.data_region_start, Nat.mod_eq_of_lt h.data_region_blocks,
    Nat.mod_eq_of_lt h.root_inode, Nat.mod_eq_of_lt h.mtime_epoch, Nat.mod_eq_of_lt h.flags,
    Nat.mod_eq_of_lt h.checksum⟩

theorem map_mod_of_lt {ws : List Nat} {m : Nat} (h : ∀ w ∈ ws, w < m) :
    ws.map (fun w => w % m) = ws := by
  induction ws with
  | nil => rfl
  | cons w ws ih =>
    simp only [List.map_cons, List.cons.injEq]
    exact ⟨Nat.mod_eq_of_lt (h w (List.mem_cons_self _ _)),
      ih (fun x hx => h x (List.mem_cons_of_mem _ hx))⟩

theorem inode_load_bytes_of_fits {ino : inode_t} (h : ino.Fits) (rest : List Nat) :
    inode_t.load (ino.bytes ++ rest) = ino := by
  rw [inode_load_bytes_append, fixlen_of_length h.direct_length, map_mod_of_lt h.direct]
  cases ino
  simp only [inode_t.mk.injEq]
  exact ⟨Nat.mod_eq_of_lt h.mode, Nat.mod_eq_of_lt h.links, Nat.mod_eq_of_lt h.uid,
    Nat.mod_eq_of_lt h.gid, Nat.mod_eq_of_lt h.size_bytes, Nat.mod_eq_of_lt h.atime,
    Nat.mod_eq_of_lt h.mtime, Nat.mod_eq_of_lt h.ctime, trivial,
    Nat.mod_eq_of_lt h.reserved_0, Nat.mod_eq_of_lt h.reserved_1,
    Nat.mod_eq_of_lt h.reserved_2, Nat.mod_eq_of_lt h.proj_id,
    Nat.mod_eq_of_lt h.uid16_gid16, Nat.mod_eq_of_lt h.xattr_ptr,
    Nat.mod_eq_of_lt h.inode_crc⟩

theorem dirent_load_bytes_of_fits {d : dirent64_t} (h : d.Fits) (rest : List Nat) :
    dirent64_t.load (d.bytes ++ rest) = d := by
  rw [dirent_load_bytes_append, fixlen_of_length h.name_length]
  cases d
  simp only [dirent64_t.mk.injEq]
  exact ⟨Nat.mod_eq_of_lt h.inode_no, Nat.mod_eq_of_lt h.type, trivial,
    Nat.mod_eq_of_lt h.checksum⟩

theorem superblock_load_slice {b : List Nat} {n : Nat} (h : 116 ≤ n) :
    superblock_t.load (slice b 0 n) = superblock_t.load b := by
  unfold superblock_t.load
  simp only [slice_slice (show 0 + 4 ≤ n by omega), slice_slice (show 4 + 4 ≤ n by omega),
    slice_slice (show 8 + 4 ≤ n by omega), slice_slice (show 12 + 8 ≤ n by omega),
    slice_slice (show 20 + 8 ≤ n by omega), slice_slice (show 28 + 8 ≤ n by omega),
    slice_slice (show 36 + 8 ≤ n by omega), slice_slice (show 44 + 8 ≤ n by omega),
    slice_slice (show 52 + 8 ≤ n by omega), slice_slice (show 60 + 8 ≤ n by omega),
    slice_slice (show 68 + 8 ≤ n by omega), slice_slice (show 76 + 8 ≤ n by omega),
    slice_slice (show 84 + 8 ≤ n by omega), slice_slice (show 92 + 8 ≤ n by omega),
    slice_slice (show 100 + 8 ≤ n by omega), slice_slice (show 108 + 4 ≤ n by omega),
    slice_slice (show 112 + 4 ≤ n by omega), Nat.zero_add]

theorem slice_append_add (a b : List Nat) (k n : Nat) :
    slice (a ++ b) (a.length + k) n = slice b k n := by
  rw [slice_append_right (by omega)]
  congr 1
  omega

theorem slice_append_at {a b : List Nat} {off : Nat} (n : Nat) (h : off = a.length) :
    slice (a ++ b) off n = slice b 0 n := by
  subst h
  exact slice_append_add a b 0 n

theorem slice_all {a : List Nat} {n : Nat} (h : a.length = n) : slice a 0 n = a := by
  subst h
  exact slice_zero_length a

theorem pwrite_replicate_front (src : List Nat) (n : Nat) :
    pwrite (List.replicate n 0) 0 src = src ++ List.replicate (n - src.length) 0 := by
  rw [pwrite_zero_front, List.drop_replicate]

theorem set_zero_replicate (n : Nat) :
    (List.replicate (n + 1) 0).set 0 1 = 1 :: List.replicate n 0 := by
  rw [List.replicate_succ, List.set_cons_zero]

/-- The seven regions of a built image, with their lengths. -/
theorem built_image_regions (s n t_sb t_ino : Nat) (hn : 1 ≤ n) :
    ∃ A B D E Z : List Nat,
      built_image s n t_sb t_ino = A ++ (B ++ (B ++ (D ++ (E ++ Z)))) ∧
      A = (superblock_crc_finalize (Mkfs_builder.superblock (s / 4) n
        ((n * 128 + 4095) / 4096) (s / 4 - 3 - (n * 128 + 4095) / 4096) t_sb)).bytes ++
        List.replicate (BS - 116) 0 ∧
      B = 1 :: List.replicate (BS - 1) 0 ∧
      D = (inode_crc_finalize
          (Mkfs_builder.root_inode (3 + (n * 128 + 4095) / 4096) t_ino)).bytes ++
        List.replicate ((n * 128 + 4095) / 4096 * BS - 128) 0 ∧
      E = (dirent_checksum_finalize (Mkfs_builder.root_entry [46])).bytes ++
        (dirent_checksum_finalize (Mkfs_builder.root_entry [46, 46])).bytes ∧
      Z = List.replicate (s / 4 * BS - (3 + (n * 128 + 4095) / 4096) * BS - 128) 0 ∧
      A.length = BS ∧ B.length = BS ∧
      D.length = (n * 128 + 4095) / 4096 * BS ∧ E.length = 128 := by
  refine ⟨_, _, _, _, _, ?_, rfl, rfl, rfl, rfl, rfl, ?_, ?_, ?_, ?_⟩
  · unfold built_image
    rw [pwrite_replicate_front, superblock_length_bytes]
    have hb : (List.replicate BS 0).set 0 1 = 1 :: List.replicate (BS - 1) 0 :=
      set_zero_replicate 4095
    rw [hb]
    rw [pwrite_replicate_front, inode_length_bytes]
    simp only [List.append_assoc]
  · rw [List.length_append, superblock_length_bytes, List.length_replicate, BS_eq]
  · rw [List.length_cons, List.length_replicate, BS_eq]
  · rw [List.length_append, inode_length_bytes, List.length_replicate, BS_eq]
    omega
  · rw [List.length_append, dirent_length_bytes, dirent_length_bytes]

namespace Mkfs_builder

theorem superblock_fits {tb n itb drb now : Nat} (h1 : tb < 2 ^ 64) (h2 : n < 2 ^ 64)
    (h3 : itb < 2 ^ 63) (h4 : drb < 2 ^ 64) :
    (superblock_crc_finalize (superblock tb n itb drb now)).Fits := by
  constructor <;>
    simp only [superblock_crc_finalize, superblock, BS_eq, ROOT_INO] <;>
    first
      | exact crc32_lt _
      | exact Nat.mod_lt _ (by norm_num)
      | omega

theorem root_inode_fits (drs now : Nat) :
    (inode_crc_finalize (root_inode drs now)).Fits := by
  constructor <;>
    simp only [inode_crc_finalize, root_inode, inode_t.zero, DIRENT_SIZE_eq] <;>
    first
      | exact lt_of_lt_of_le (crc32_lt _) (by norm_num)
      | exact Nat.mod_lt _ (by norm_num)
      | omega
      | skip
  · simp
  · intro w hw
    rcases List.mem_or_eq_of_mem_set hw with h | h
    · rw [List.eq_of_mem_replicate h]
      norm_num
    · rw [h]
      exact Nat.mod_lt _ (by norm_num)

end Mkfs_builder

theorem image_sb_built (s n t_sb t_ino : Nat) (hs : s ≤ 4096) (hn : n ≤ 512) :
    image_sb (built_image s n t_sb t_ino) =
      superblock_crc_finalize (Mkfs_builder.superblock (s / 4) n ((n * 128 + 4095) / 4096)
        (s / 4 - 3 - (n * 128 + 4095) / 4096) t_sb) := by
  unfold image_sb built_image
  rw [pwrite_zero_front, List.append_assoc]
  exact superblock_load_bytes_of_fits
    (Mkfs_builder.superblock_fits (by omega) (by omega) (by omega) (by omega)) _

theorem length_built_image (s n t_sb t_ino : Nat) (hs : 180 ≤ s) (hn : 128 ≤ n)
    (hn' : n ≤ 512) :
    (built_image s n t_sb t_ino).length = s / 4 * BS := by
  obtain ⟨A, B, D, E, Z, h, -, -, -, -, hZ, lA, lB, lD, lE⟩ :=
    built_image_regions s n t_sb t_ino (by omega)
  rw [h]
  simp only [List.length_append, lA, lB, lD, lE, hZ, List.length_replicate]
  rw [BS_eq]
  omega

theorem inode_bitmap_built (s n t_sb t_ino : Nat) (hs : s ≤ 4096) (hn : 128 ≤ n)
    (hn' : n ≤ 512) :
    inode_bitmap (built_image s n t_sb t_ino) = 1 :: List.replicate (BS - 1) 0 := by
  obtain ⟨A, B, D, E, Z, h, -, hB, -, -, -, lA, lB, -, -⟩ :=
    built_image_regions s n t_sb t_ino (by omega)
  unfold inode_bitmap
  rw [image_sb_built s n t_sb t_ino hs hn']
  show slice _ (1 * BS) (1 * BS) = _
  rw [h, Nat.one_mul, slice_append_at BS lA.symm, slice_append_exact lB, hB]

theorem data_bitmap_built (s n t_sb t_ino : Nat) (hs : s ≤ 4096) (hn : 128 ≤ n)
    (hn' : n ≤ 512) :
    data_bitmap (built_image s n t_sb t_ino) = 1 :: List.replicate (BS - 1) 0 := by
  obtain ⟨A, B, D, E, Z, h, -, hB, -, -, -, lA, lB, -, -⟩ :=
    built_image_regions s n t_sb t_ino (by omega)
  unfold data_bitmap
  rw [image_sb_built s n t_sb t_ino hs hn']
  show slice _ (2 * BS) (1 * BS) = _
  have e : 2 * BS = A.length + B.length := by omega
  rw [h, Nat.one_mul, e, slice_append_add, slice_append_at BS rfl, slice_append_exact lB, hB]

theorem inode_slot_zero_built (s n t_sb t_ino : Nat) (hs : s ≤ 4096) (hn : 128 ≤ n)
    (hn' : n ≤ 512) :
    inode_slot (built_image s n t_sb t_ino) 0 =
      (inode_crc_finalize
        (Mkfs_builder.root_inode (3 + (n * 128 + 4095) / 4096) t_ino)).bytes := by
  obtain ⟨A, B, D, E, Z, h, -, -, hD, -, -, lA, lB, -, -⟩ :=
    built_image_regions s n t_sb t_ino (by omega)
  unfold inode_slot
  rw [image_sb_built s n t_sb t_ino hs hn']
  show slice _ (3 * BS + 0 * INODE_SIZE) INODE_SIZE = _
  have e : 3 * BS + 0 * INODE_SIZE = A.length + (B.length + B.length) := by omega
  rw [h, e, slice_append_add, slice_append_add, slice_append_at _ rfl, hD, List.append_assoc,
    slice_append_exact (by rw [inode_length_bytes, INODE_SIZE_eq])]

theorem image_inode_zero_built (s n t_sb t_ino : Nat) (hs : s ≤ 4096) (hn : 128 ≤ n)
    (hn' : n ≤ 512) :
    image_inode (built_image s n t_sb t_ino) 0 =
      inode_crc_finalize (Mkfs_builder.root_inode (3 + (n * 128 + 4095) / 4096) t_ino) := by
  unfold image_inode
  rw [inode_slot_zero_built s n t_sb t_ino hs hn hn']
  have := inode_load_bytes_of_fits
    (Mkfs_builder.root_inode_fits (3 + (n * 128 + 4095) / 4096) t_ino) []
  rwa [List.append_nil] at this

theorem root_block_built (s n t_sb t_ino : Nat) (hs : 180 ≤ s) (hs' : s ≤ 4096)
    (hn : 128 ≤ n) (hn' : n ≤ 512) :
    image_block (built_image s n t_sb t_ino) (3 + (n * 128 + 4095) / 4096) =
      (dirent_checksum_finalize (Mkfs_builder.root_entry [46])).bytes ++
      ((dirent_checksum_finalize (Mkfs_builder.root_entry [46, 46])).bytes ++
        List.replicate (BS - 128) 0) := by
  obtain ⟨A, B, D, E, Z, h, -, -, -, hE, hZ, lA, lB, lD, lE⟩ :=
    built_image_regions s n t_sb t_ino (by omega)
  unfold image_block
  have e : (3 + (n * 128 + 4095) / 4096) * BS = A.length + (B.length + (B.length + D.length)) := by
    rw [lA, lB, lD]; ring
  have e2 : BS = 128 + (BS - 128) := by rw [BS_eq]
  rw [h, e, slice_append_add, slice_append_add, slice_append_add, slice_append_at _ rfl]
  conv_lhs => rw [e2]
  have hz : slice (List.replicate (s / 4 * BS - (3 + (n * 128 + 4095) / 4096) * BS - 128) 0)
      0 (BS - 128) = List.replicate (BS - 128) 0 := by
    have e3 : min (BS - 128) (s / 4 * BS - (3 + (n * 128 + 4095) / 4096) * BS - 128) =
        BS - 128 := by
      rw [BS_eq]; omega
    unfold slice
    rw [List.drop_zero, List.take_replicate, e3]
  rw [slice_concat, slice_append_exact lE, Nat.zero_add, slice_append_at _ lE.symm, hZ, hE,
    List.append_assoc, hz]

/-! ## Bitmaps -/

theorem get_bit_eq (bm : List Nat) (idx : Nat) :
    get_bit bm idx = if (bm.getD (idx / 8) 0).testBit (idx % 8) then 1 else 0 := by
  unfold get_bit
  have e1 : idx >>> 3 = idx / 8 := by rw [Nat.shiftRight_eq_div_pow]
  have e2 : idx &&& 7 = idx % 8 := Nat.and_pow_two_sub_one_eq_mod idx 3
  rw [e1, e2, Nat.and_one_is_mod, Nat.shiftRight_eq_div_pow, Nat.testBit_to_div_mod]
  generalize bm.getD (idx / 8) 0 / 2 ^ (idx % 8) = q
  rcases Nat.mod_two_eq_zero_or_one q with h | h <;> simp [h]

theorem get_bit_zero_or_one (bm : List Nat) (idx : Nat) :
    get_bit bm idx = 0 ∨ get_bit bm idx = 1 := by
  rw [get_bit_eq]
  split <;> simp

theorem get_bit_ne_zero {bm : List Nat} {idx : Nat} : get_bit bm idx ≠ 0 ↔ get_bit bm idx = 1 := by
  rcases get_bit_zero_or_one bm idx with h | h <;> simp [h]

theorem length_set_bit (bm : List Nat) (idx : Nat) : (set_bit bm idx).length = bm.length := by
  simp [set_bit]

theorem getD_set_bit (bm : List Nat) (idx k : Nat) :
    (set_bit bm idx).getD k 0 =
      if k = idx / 8 ∧ k < bm.length then (bm.getD k 0 ||| 2 ^ (idx % 8)) % 256
      else bm.getD k 0 := by
  have e1 : idx >>> 3 = idx / 8 := by rw [Nat.shiftRight_eq_div_pow]
  have e2 : idx &&& 7 = idx % 8 := Nat.and_pow_two_sub_one_eq_mod idx 3
  unfold set_bit
  rw [e1, e2, Nat.one_shiftLeft]
  simp only [List.getD_eq_getElem?_getD, List.getElem?_set]
  by_cases h : idx / 8 = k
  · subst h
    by_cases h2 : idx / 8 < bm.length
    · simp [h2]
    · simp [h2, List.getElem?_eq_none (Nat.le_of_not_lt h2)]
  · have h' : ¬ (k = idx / 8 ∧ k < bm.length) := fun hh => h hh.1.symm
    simp [h, h']

theorem testBit_set_byte (b k m : Nat) (_hk : k < 8) (hm : m < 8) :
    ((b ||| 2 ^ k) % 256).testBit m = (b.testBit m || decide (k = m)) := by
  have : (256 : Nat) = 2 ^ 8 := by norm_num
  rw [this, Nat.testBit_mod_two_pow, Nat.testBit_or, Nat.testBit_two_pow]
  simp [hm]

theorem get_bit_set_bit_ne (bm : List Nat) {i j : Nat} (h : i ≠ j) :
    get_bit (set_bit bm i) j = get_bit bm j := by
  rw [get_bit_eq, get_bit_eq, getD_set_bit]
  by_cases hc : j / 8 = i / 8 ∧ j / 8 < bm.length
  · rw [if_pos hc, testBit_set_byte _ _ _ (Nat.mod_lt _ (by norm_num)) (Nat.mod_lt _ (by norm_num))]
    have : i % 8 ≠ j % 8 := by omega
    simp [this]
  · rw [if_neg hc]

theorem get_bit_set_bit_self (bm : List Nat) {i : Nat} (h : i / 8 < bm.length) :
    get_bit (set_bit bm i) i = 1 := by
  rw [get_bit_eq, getD_set_bit, if_pos (And.intro rfl h),
    testBit_set_byte _ _ _ (Nat.mod_lt _ (by norm_num)) (Nat.mod_lt _ (by norm_num))]
  simp

theorem get_bit_set_bit (bm : List Nat) {i : Nat} (h : i / 8 < bm.length) (j : Nat) :
    get_bit (set_bit bm i) j = if j = i then 1 else get_bit bm j := by
  by_cases hj : j = i
  · subst hj
    simp [get_bit_set_bit_self bm h]
  · rw [if_neg hj, get_bit_set_bit_ne bm (Ne.symm hj)]

theorem get_bit_cons_replicate (n j : Nat) :
    get_bit (1 :: List.replicate n 0) j = if j = 0 then 1 else 0 := by
  rw [get_bit_eq]
  by_cases h : j / 8 = 0
  · have hj : j < 8 := by omega
    have e : j % 8 = j := Nat.mod_eq_of_lt hj
    rw [h, e]
    simp only [List.getD_cons_zero]
    have t : Nat.testBit 1 j = decide (0 = j) := by
      simpa using (Nat.testBit_two_pow (n := 0) (m := j))
    by_cases h0 : j = 0
    · simp [h0]
    · have : ¬ 0 = j := fun hh => h0 hh.symm
      simp [h0, this, t]
  · have : (1 :: List.replicate n 0).getD (j / 8) 0 = 0 := by
      obtain ⟨k, hk⟩ : ∃ k, j / 8 = k + 1 := ⟨j / 8 - 1, by omega⟩
      rw [hk, List.getD_cons_succ, List.getD_eq_getElem?_getD, List.getElem?_replicate]
      split <;> rfl
    have hj : j ≠ 0 := by omega
    rw [this, if_neg hj]
    simp

theorem root_entry_dot :
    dirent_checksum_finalize (Mkfs_builder.root_entry [46]) =
      { inode_no := 1, type := 2, name := 46 :: List.replicate 57 0, checksum := 45 } := by
  decide

theorem root_entry_dotdot :
    dirent_checksum_finalize (Mkfs_builder.root_entry [46, 46]) =
      { inode_no := 1, type := 2, name := 46 :: 46 :: List.replicate 56 0, checksum := 3 } := by
  decide

theorem xor_fold_mod_eq (bs : List Nat) (h : ∀ b ∈ bs, b < 256) (x : Nat) (hx : x < 256) :
    bs.foldl (fun x p => (x ^^^ p) % 256) x = bs.foldl (fun x p => x ^^^ p) x ∧
      bs.foldl (fun x p => x ^^^ p) x < 256 := by
  induction bs generalizing x with
  | nil => exact ⟨rfl, hx⟩
  | cons b bs ih =>
    have hb : b < 256 := h b (List.mem_cons_self _ _)
    have hxb : x ^^^ b < 256 := Nat.xor_lt_two_pow (n := 8) hx hb
    simp only [List.foldl_cons, Nat.mod_eq_of_lt hxb]
    exact ih (fun c hc => h c (List.mem_cons_of_mem _ hc)) _ hxb

theorem xor_fold_mod_lt (bs : List Nat) (x : Nat) (hx : x < 256) :
    bs.foldl (fun x p => (x ^^^ p) % 256) x < 256 := by
  induction bs generalizing x with
  | nil => exact hx
  | cons b bs ih =>
    rw [List.foldl_cons]
    exact ih _ (Nat.mod_lt _ (by norm_num))

theorem dirent_checksum_lt (d : dirent64_t) : (dirent_checksum_finalize d).checksum < 256 :=
  xor_fold_mod_lt _ 0 (by norm_num)

theorem root_direct_built (s n t_sb t_ino : Nat) (hs : s ≤ 4096) (hn : 128 ≤ n)
    (hn' : n ≤ 512) :
    (image_inode (built_image s n t_sb t_ino) 0).direct.getD 0 0 =
      3 + (n * 128 + 4095) / 4096 := by
  rw [image_inode_zero_built s n t_sb t_ino hs hn hn']
  simp only [inode_crc_finalize, Mkfs_builder.root_inode, inode_t.zero]
  rw [show List.replicate 12 0 = 0 :: List.replicate 11 0 from rfl, List.set_cons_zero,
    List.getD_cons_zero]
  omega

theorem root_slot_built (s n t_sb t_ino : Nat) (hs : 180 ≤ s) (hs' : s ≤ 4096)
    (hn : 128 ≤ n) (hn' : n ≤ 512) (k : Nat) (hk : k < 64) :
    root_slot (built_image s n t_sb t_ino) k =
      if k = 0 then (dirent_checksum_finalize (Mkfs_builder.root_entry [46])).bytes
      else if k = 1 then (dirent_checksum_finalize (Mkfs_builder.root_entry [46, 46])).bytes
      else List.replicate 64 0 := by
  unfold root_slot
  rw [root_direct_built s n t_sb t_ino hs' hn hn', root_block_built s n t_sb t_ino hs hs' hn hn',
    DIRENT_SIZE_eq]
  have l0 := dirent_length_bytes (dirent_checksum_finalize (Mkfs_builder.root_entry [46]))
  have l1 := dirent_length_bytes (dirent_checksum_finalize (Mkfs_builder.root_entry [46, 46]))
  by_cases h0 : k = 0
  · subst h0
    rw [if_pos rfl, Nat.zero_mul, slice_append_exact l0]
  · rw [if_neg h0]
    by_cases h1 : k = 1
    · subst h1
      rw [if_pos rfl, slice_append_at _ (by rw [l0]), slice_append_exact l1]
    · rw [if_neg h1, slice_append_right (by omega), slice_append_right (by omega), l0, l1]
      unfold slice
      rw [List.drop_replicate, List.take_replicate]
      have e : min 64 (BS - 128 - (k * 64 - 64 - 64)) = 64 := by
        rw [BS_eq]; omega
      rw [e]

theorem root_dirent_inode_no_built (s n t_sb t_ino : Nat) (hs : 180 ≤ s) (hs' : s ≤ 4096)
    (hn : 128 ≤ n) (hn' : n ≤ 512) (k : Nat) (hk : k < 64) :
    (root_dirent (built_image s n t_sb t_ino) k).inode_no = if k < 2 then 1 else 0 := by
  unfold root_dirent
  rw [root_slot_built s n t_sb t_ino hs hs' hn hn' k hk]
  by_cases h0 : k = 0
  · subst h0
    decide
  · rw [if_neg h0]
    by_cases h1 : k = 1
    · subst h1
      decide
    · rw [if_neg h1, if_neg (by omega)]
      decide

theorem used_slots_built (s n t_sb t_ino : Nat) (hs : 180 ≤ s) (hs' : s ≤ 4096)
    (hn : 128 ≤ n) (hn' : n ≤ 512) :
    used_slots (built_image s n t_sb t_ino) = 2 := by
  unfold used_slots
  have e : (List.range (BS / DIRENT_SIZE)).filter
      (fun k => (root_dirent (built_image s n t_sb t_ino) k).inode_no ≠ 0) =
      (List.range (BS / DIRENT_SIZE)).filter (fun k => decide (k < 2)) := by
    apply List.filter_congr
    intro k hk
    have hk' : k < 64 := by simpa [BS_eq, DIRENT_SIZE_eq] using List.mem_range.mp hk
    rw [root_dirent_inode_no_built s n t_sb t_ino hs hs' hn hn' k hk']
    by_cases h : k < 2 <;> simp [h]
  rw [e]
  decide

theorem valid_built (s n t_sb t_ino : Nat) (hs : 180 ≤ s) (hs' : s ≤ 4096)
    (hn : 128 ≤ n) (hn' : n ≤ 512) : ValidImage (built_image s n t_sb t_ino) := by
  have hsb := image_sb_built s n t_sb t_ino hs' hn'
  have hib := inode_bitmap_built s n t_sb t_ino hs' hn hn'
  have hdb := data_bitmap_built s n t_sb t_ino hs' hn hn'
  have hino := image_inode_zero_built s n t_sb t_ino hs' hn hn'
  have hus := used_slots_built s n t_sb t_ino hs hs' hn hn'
  constructor
  · rw [length_built_image s n t_sb t_ino hs hn hn', hsb]
    rfl
  · rw [hsb]; rfl
  · rw [hsb]; rfl
  · rw [hsb]; rfl
  · rw [hsb]; rfl
  · rw [hsb]; rfl
  · rw [hsb]
    simp only [superblock_crc_finalize, Mkfs_builder.superblock, BS_eq, INODE_SIZE_eq]
    omega
  · rw [hsb]; rfl
  · rw [hsb]
    simp only [superblock_crc_finalize, Mkfs_builder.superblock]
    omega
  · rw [hsb]
    simp only [superblock_crc_finalize, Mkfs_builder.superblock]
    omega
  · rw [hsb]
    simp only [superblock_crc_finalize, Mkfs_builder.superblock, BS_eq]
    omega
  · rw [hsb]
    simp only [superblock_crc_finalize, Mkfs_builder.superblock]
    omega
  · rw [hsb]
    simp only [superblock_crc_finalize, Mkfs_builder.superblock, BS_eq]
    omega
  · rw [hib, get_bit_cons_replicate, if_pos rfl]
  · rw [hdb, get_bit_cons_replicate, if_pos rfl]
  · rw [root_direct_built s n t_sb t_ino hs' hn hn', hsb]
    rfl
  · rw [hino, hus]
    rfl
  · rw [hino, hus]
    rfl

theorem superblock_bytes_take (sb : superblock_t) (c : Nat) :
    ({ sb with checksum := c } : superblock_t).bytes.take 112 = sb.bytes.take 112 := by
  simp [superblock_t.bytes, List.take_append_eq_append_take, length_le_bytes]

theorem inode_bytes_take (ino : inode_t) (c : Nat) :
    ({ ino with inode_crc := c } : inode_t).bytes.take 120 = ino.bytes.take 120 := by
  simp [inode_t.bytes, List.take_append_eq_append_take, length_le_bytes, length_words_bytes]

theorem superblock_crc_finalize_checksum (sb : superblock_t) :
    (superblock_crc_finalize sb).checksum = crc32 ((superblock_crc_finalize sb).bytes.take 112) := by
  unfold superblock_crc_finalize
  simp only [superblock_bytes_take]

theorem inode_crc_finalize_checksum (ino : inode_t) :
    (inode_crc_finalize ino).inode_crc = crc32 ((inode_crc_finalize ino).bytes.take 120) := by
  rw [inode_crc_finalize_crc]
  unfold inode_crc_finalize
  simp only [inode_bytes_take]

theorem getElem?_append_replicate {p : List Nat} {m i : Nat} (h1 : p.length ≤ i)
    (h2 : i < p.length + m) : (p ++ List.replicate m 0)[i]? = some 0 := by
  rw [List.getElem?_append_right h1, List.getElem?_replicate, if_pos (by omega)]

theorem getElem?_built_image_zero (s n t_sb t_ino : Nat)
    (hn : 128 ≤ n) (hn' : n ≤ 512) (i : Nat) (hi : i < s / 4 * BS) (h0 : 116 ≤ i)
    (h1 : i ≠ BS) (h2 : i ≠ 2 * BS) (h3 : ¬ (3 * BS ≤ i ∧ i < 3 * BS + 128))
    (h4 : ¬ ((3 + (n * 128 + 4095) / 4096) * BS ≤ i ∧
      i < (3 + (n * 128 + 4095) / 4096) * BS + 128)) :
    (built_image s n t_sb t_ino)[i]? = some 0 := by
  obtain ⟨A, B, D, E, Z, h, hA, hB, hD, hE, hZ, lA, lB, lD, lE⟩ :=
    built_image_regions s n t_sb t_ino (by omega)
  rw [h]
  rw [BS_eq] at hi h1 h2 h3 h4 lA lB lD
  by_cases c1 : i < 4096
  · rw [List.getElem?_append_left (by omega), hA]
    exact getElem?_append_replicate (by rw [superblock_length_bytes]; exact h0)
      (by rw [superblock_length_bytes, BS_eq]; omega)
  rw [List.getElem?_append_right (by omega), lA]
  by_cases c2 : i < 2 * 4096
  · rw [List.getElem?_append_left (by omega), hB]
    exact getElem?_append_replicate (p := [1]) (by simp only [List.length_singleton]; omega)
      (by simp only [List.length_singleton]; rw [BS_eq]; omega)
  rw [List.getElem?_append_right (by omega), lB]
  by_cases c3 : i < 3 * 4096
  · rw [List.getElem?_append_left (by omega), hB]
    exact getElem?_append_replicate (p := [1]) (by simp only [List.length_singleton]; omega)
      (by simp only [List.length_singleton]; rw [BS_eq]; omega)
  rw [List.getElem?_append_right (by omega), lB]
  by_cases c4 : i < (3 + (n * 128 + 4095) / 4096) * 4096
  · rw [List.getElem?_append_left (by omega), hD]
    exact getElem?_append_replicate (by rw [inode_length_bytes]; omega)
      (by rw [inode_length_bytes, BS_eq]; omega)
  rw [List.getElem?_append_right (by omega), lD, hZ]
  exact getElem?_append_replicate (by omega) (by rw [lE, BS_eq]; omega)

set_option maxRecDepth 8192 in
theorem root_entry_dot_checks :
    (dirent64_t.load (dirent_checksum_finalize (Mkfs_builder.root_entry [46])).bytes).inode_no = 1 ∧
    (dirent_checksum_finalize (Mkfs_builder.root_entry [46])).bytes.length = 64 ∧
    (dirent_checksum_finalize (Mkfs_builder.root_entry [46])).bytes.getD 63 0 =
      xor_bytes ((dirent_checksum_finalize (Mkfs_builder.root_entry [46])).bytes.take 63) := by
  decide

set_option maxRecDepth 8192 in
theorem root_entry_dotdot_checks :
    (dirent64_t.load
      (dirent_checksum_finalize (Mkfs_builder.root_entry [46, 46])).bytes).inode_no = 1 ∧
    (dirent_checksum_finalize (Mkfs_builder.root_entry [46, 46])).bytes.length = 64 ∧
    (dirent_checksum_finalize (Mkfs_builder.root_entry [46, 46])).bytes.getD 63 0 =
      xor_bytes ((dirent_checksum_finalize (Mkfs_builder.root_entry [46, 46])).bytes.take 63) := by
  decide

set_option maxRecDepth 8192 in
theorem load_root_entry_dot :
    dirent64_t.load (dirent_checksum_finalize (Mkfs_builder.root_entry [46])).bytes =
      { inode_no := 1, type := 2, name := 46 :: List.replicate 57 0, checksum := 45 } := by
  decide

set_option maxRecDepth 8192 in
theorem load_root_entry_dotdot :
    dirent64_t.load (dirent_checksum_finalize (Mkfs_builder.root_entry [46, 46])).bytes =
      { inode_no := 1, type := 2, name := 46 :: 46 :: List.replicate 56 0, checksum := 3 } := by
  decide

/-! ## Sequences of writes -/

theorem apply_writes_nil (f : List Nat) : apply_writes f [] = f := rfl

theorem apply_writes_cons (f : List Nat) (w : Nat × List Nat) (ws : List (Nat × List Nat)) :
    apply_writes f (w :: ws) = apply_writes (pwrite f w.1 w.2) ws := rfl

theorem apply_writes_append (f : List Nat) (ws vs : List (Nat × List Nat)) :
    apply_writes f (ws ++ vs) = apply_writes (apply_writes f ws) vs := by
  simp [apply_writes, List.foldl_append]

theorem length_apply_writes {f : List Nat} {ws : List (Nat × List Nat)}
    (h : ∀ w ∈ ws, w.1 + w.2.length ≤ f.length) :
    (apply_writes f ws).length = f.length := by
  induction ws generalizing f with
  | nil => rfl
  | cons w ws ih =>
    have hw := h w (List.mem_cons_self _ _)
    rw [apply_writes_cons, ih, length_pwrite hw]
    intro v hv
    rw [length_pwrite hw]
    exact h v (List.mem_cons_of_mem _ hv)

theorem slice_apply_writes_disjoint {f : List Nat} {ws : List (Nat × List Nat)} {off n : Nat}
    (h : ∀ w ∈ ws, w.1 + w.2.length ≤ f.length)
    (hd : ∀ w ∈ ws, off + n ≤ w.1 ∨ w.1 + w.2.length ≤ off) :
    slice (apply_writes f ws) off n = slice f off n := by
  induction ws generalizing f with
  | nil => rfl
  | cons w ws ih =>
    have hw := h w (List.mem_cons_self _ _)
    rw [apply_writes_cons, ih, slice_pwrite_disjoint hw (hd w (List.mem_cons_self _ _))]
    · intro v hv
      rw [length_pwrite hw]
      exact h v (List.mem_cons_of_mem _ hv)
    · intro v hv
      exact hd v (List.mem_cons_of_mem _ hv)

theorem slice_apply_writes_mem {f : List Nat} {ws : List (Nat × List Nat)}
    (h : ∀ w ∈ ws, w.1 + w.2.length ≤ f.length)
    (hp : ws.Pairwise (fun w v => w.1 + w.2.length ≤ v.1 ∨ v.1 + v.2.length ≤ w.1))
    {w : Nat × List Nat} (hw : w ∈ ws) {k n : Nat} (hk : k + n ≤ w.2.length) :
    slice (apply_writes f ws) (w.1 + k) n = slice w.2 k n := by
  induction ws generalizing f with
  | nil => cases hw
  | cons v vs ih =>
    have hv := h v (List.mem_cons_self _ _)
    have hvs : ∀ u ∈ vs, u.1 + u.2.length ≤ (pwrite f v.1 v.2).length := by
      intro u hu
      rw [length_pwrite hv]
      exact h u (List.mem_cons_of_mem _ hu)
    rw [apply_writes_cons]
    rw [List.pairwise_cons] at hp
    rcases List.mem_cons.mp hw with e | hmem
    · subst e
      rw [slice_apply_writes_disjoint hvs, slice_pwrite_inside hv hk]
      intro u hu
      rcases hp.1 u hu with c | c
      · left; omega
      · right; omega
    · exact ih hvs hp.2 hmem

theorem slice_apply_writes_mem_self {f : List Nat} {ws : List (Nat × List Nat)}
    (h : ∀ w ∈ ws, w.1 + w.2.length ≤ f.length)
    (hp : ws.Pairwise (fun w v => w.1 + w.2.length ≤ v.1 ∨ v.1 + v.2.length ≤ w.1))
    {w : Nat × List Nat} (hw : w ∈ ws) {n : Nat} (hn : w.2.length = n) :
    slice (apply_writes f ws) w.1 n = w.2 := by
  have := slice_apply_writes_mem h hp hw (k := 0) (n := n) (by omega)
  rw [Nat.add_zero] at this
  rw [this, slice_all hn]

/-! ## The first-fit scans -/

theorem picks_eq_take_filter (bm : List Nat) (r n i a : Nat) :
    picks bm r n i a = ((List.range' i n).filter (fun j => get_bit bm j = 0)).take (r - a) := by
  induction n generalizing i a with
  | zero => simp [picks]
  | succ n ih =>
    rw [picks, List.range'_succ, List.filter_cons]
    by_cases ha : a < r
    · rw [if_pos ha]
      by_cases hb : get_bit bm i = 0
      · have e : r - a = (r - (a + 1)) + 1 := by omega
        rw [if_pos hb, ih, e]
        simp [hb]
      · rw [if_neg hb, ih]
        simp [hb]
    · rw [if_neg ha]
      have e : r - a = 0 := by omega
      rw [e, List.take_zero]

theorem mem_picks {bm : List Nat} {r n i a j : Nat} (h : j ∈ picks bm r n i a) :
    i ≤ j ∧ j < i + n ∧ get_bit bm j = 0 := by
  rw [picks_eq_take_filter] at h
  have h' := List.mem_of_mem_take h
  rw [List.mem_filter, List.mem_range'_1] at h'
  exact ⟨h'.1.1, h'.1.2, by simpa using h'.2⟩

theorem pairwise_picks (bm : List Nat) (r n i a : Nat) :
    (picks bm r n i a).Pairwise (· < ·) := by
  rw [picks_eq_take_filter]
  apply List.Pairwise.sublist (List.take_sublist _ _)
  apply List.Pairwise.sublist (List.filter_sublist _)
  exact List.pairwise_lt_range' i n

theorem length_picks_le (bm : List Nat) (r n i a : Nat) : (picks bm r n i a).length ≤ r - a := by
  rw [picks_eq_take_filter, List.length_take]
  omega

theorem length_picks_zero (bm : List Nat) (r n : Nat) :
    (picks bm r n 0 0).length = min r (free_bits bm n) := by
  rw [picks_eq_take_filter, List.length_take, free_bits, List.range_eq_range']
  rfl

theorem picks_congr {bm bm' : List Nat} (r n i a : Nat)
    (h : ∀ j, i ≤ j → get_bit bm j = get_bit bm' j) :
    picks bm r n i a = picks bm' r n i a := by
  rw [picks_eq_take_filter, picks_eq_take_filter]
  congr 1
  apply List.filter_congr
  intro j hj
  rw [List.mem_range'_1] at hj
  rw [h j hj.1]

namespace Mkfs_adder

theorem pick_inode_eq_some {bm : List Nat} {n i c : Nat} (h : pick_inode bm n i = some c) :
    i ≤ c ∧ c < i + n ∧ get_bit bm c = 0 ∧ ∀ j, i ≤ j → j < c → get_bit bm j ≠ 0 := by
  induction n generalizing i with
  | zero => simp [pick_inode] at h
  | succ n ih =>
    rw [pick_inode] at h
    by_cases hb : get_bit bm i = 0
    · rw [if_pos hb] at h
      cases h
      exact ⟨le_refl _, by omega, hb, fun j h1 h2 => by omega⟩
    · rw [if_neg hb] at h
      obtain ⟨h1, h2, h3, h4⟩ := ih h
      refine ⟨by omega, by omega, h3, ?_⟩
      intro j hj hjc
      by_cases e : j = i
      · rw [e]; exact hb
      · exact h4 j (by omega) hjc

theorem pick_inode_eq_none {bm : List Nat} {n i : Nat} (h : pick_inode bm n i = none) :
    ∀ j, i ≤ j → j < i + n → get_bit bm j ≠ 0 := by
  induction n generalizing i with
  | zero => intro j h1 h2; omega
  | succ n ih =>
    rw [pick_inode] at h
    by_cases hb : get_bit bm i = 0
    · rw [if_pos hb] at h
      cases h
    · rw [if_neg hb] at h
      intro j h1 h2
      by_cases e : j = i
      · rw [e]; exact hb
      · exact ih h j (by omega) (by omega)

theorem pick_inode_of_first {bm : List Nat} {n i c : Nat} (h1 : i ≤ c) (h2 : c < i + n)
    (h3 : get_bit bm c = 0) (h4 : ∀ j, i ≤ j → j < c → get_bit bm j ≠ 0) :
    pick_inode bm n i = some c := by
  induction n generalizing i with
  | zero => omega
  | succ n ih =>
    rw [pick_inode]
    by_cases e : c = i
    · subst e
      rw [if_pos h3]
    · rw [if_neg (h4 i (le_refl _) (by omega))]
      exact ih (by omega) (by omega) (fun j hj hjc => h4 j (by omega) hjc)

theorem pick_inode_isSome {bm : List Nat} {n i k : Nat} (h1 : i ≤ k) (h2 : k < i + n)
    (h3 : get_bit bm k = 0) : ∃ c, pick_inode bm n i = some c := by
  cases h : pick_inode bm n i with
  | none => exact absurd h3 (pick_inode_eq_none h k h1 h2)
  | some c => exact ⟨c, rfl⟩

theorem find_slot_eq_some {blk : List Nat} {n s c : Nat} (h : find_slot blk n s = some c) :
    s ≤ c ∧ c < s + n ∧
      (dirent64_t.load (slice blk (c * DIRENT_SIZE) DIRENT_SIZE)).inode_no = 0 ∧
      ∀ j, s ≤ j → j < c →
        (dirent64_t.load (slice blk (j * DIRENT_SIZE) DIRENT_SIZE)).inode_no ≠ 0 := by
  induction n generalizing s with
  | zero => simp [find_slot] at h
  | succ n ih =>
    rw [find_slot] at h
    by_cases hb : (dirent64_t.load (slice blk (s * DIRENT_SIZE) DIRENT_SIZE)).inode_no = 0
    · rw [if_pos hb] at h
      cases h
      exact ⟨le_refl _, by omega, hb, fun j h1 h2 => by omega⟩
    · rw [if_neg hb] at h
      obtain ⟨h1, h2, h3, h4⟩ := ih h
      refine ⟨by omega, by omega, h3, ?_⟩
      intro j hj hjc
      by_cases e : j = s
      · rw [e]; exact hb
      · exact h4 j (by omega) hjc

theorem find_slot_eq_none {blk : List Nat} {n s : Nat} (h : find_slot blk n s = none) :
    ∀ j, s ≤ j → j < s + n →
      (dirent64_t.load (slice blk (j * DIRENT_SIZE) DIRENT_SIZE)).inode_no ≠ 0 := by
  induction n generalizing s with
  | zero => intro j h1 h2; omega
  | succ n ih =>
    rw [find_slot] at h
    by_cases hb : (dirent64_t.load (slice blk (s * DIRENT_SIZE) DIRENT_SIZE)).inode_no = 0
    · rw [if_pos hb] at h
      cases h
    · rw [if_neg hb] at h
      intro j h1 h2
      by_cases e : j = s
      · rw [e]; exact hb
      · exact ih h j (by omega) (by omega)

theorem find_slot_of_first {blk : List Nat} {n s c : Nat} (h1 : s ≤ c) (h2 : c < s + n)
    (h3 : (dirent64_t.load (slice blk (c * DIRENT_SIZE) DIRENT_SIZE)).inode_no = 0)
    (h4 : ∀ j, s ≤ j → j < c →
      (dirent64_t.load (slice blk (j * DIRENT_SIZE) DIRENT_SIZE)).inode_no ≠ 0) :
    find_slot blk n s = some c := by
  induction n generalizing s with
  | zero => omega
  | succ n ih =>
    rw [find_slot]
    by_cases e : c = s
    · subst e
      rw [if_pos h3]
    · rw [if_neg (h4 s (le_refl _) (by omega))]
      exact ih (by omega) (by omega) (fun j hj hjc => h4 j (by omega) hjc)

theorem find_slot_isSome {blk : List Nat} {n s k : Nat} (h1 : s ≤ k) (h2 : k < s + n)
    (h3 : (dirent64_t.load (slice blk (k * DIRENT_SIZE) DIRENT_SIZE)).inode_no = 0) :
    ∃ c, find_slot blk n s = some c := by
  cases h : find_slot blk n s with
  | none => exact absurd h3 (find_slot_eq_none h k h1 h2)
  | some c => exact ⟨c, rfl⟩

theorem copy_image_eq (fin : List Nat) (n b : Nat) (fout : List Nat)
    (h : (b + n) * BS ≤ fin.length) :
    copy_image fin n b fout = (true, fout ++ slice fin (b * BS) (n * BS)) := by
  induction n generalizing b fout with
  | zero => simp [copy_image, slice]
  | succ n ih =>
    have h1 : b * BS + BS ≤ fin.length := by
      have : (b + (n + 1)) * BS = b * BS + BS + n * BS := by ring
      omega
    rw [copy_image, pread_eq_some h1]
    simp only
    rw [ih (b + 1) _ (by rw [show b + 1 + n = b + (n + 1) by omega]; exact h)]
    have e1 : (n + 1) * BS = BS + n * BS := by ring
    have e2 : (b + 1) * BS = b * BS + BS := by ring
    rw [e1, slice_concat, e2, List.append_assoc]

end Mkfs_adder

namespace Mkfs_adder

theorem alloc_loop_eq_foldl (sb : superblock_t) (r n i : Nat) (st : Alloc) :
    alloc_loop sb r n i st =
      (picks st.data_bm r n i st.allocated).foldl (alloc_step sb) st := by
  induction n generalizing i st with
  | zero => rfl
  | succ n ih =>
    rw [alloc_loop, picks]
    by_cases ha : st.allocated < r
    · rw [if_pos ha, if_pos ha]
      by_cases hb : get_bit st.data_bm i = 0
      · rw [if_pos hb, if_pos hb, ih, List.foldl_cons]
        have e : picks (alloc_step sb st i).data_bm r n (i + 1) (alloc_step sb st i).allocated =
            picks st.data_bm r n (i + 1) (st.allocated + 1) := by
          apply picks_congr
          intro j hj
          exact get_bit_set_bit_ne st.data_bm (by omega)
        rw [e]
      · rw [if_neg hb, if_neg hb, ih]
    · rw [if_neg ha, if_neg ha]
      rfl

theorem alloc_step_of_stream (sb : superblock_t) (st : Alloc) (i : Nat)
    (h : st.remaining = st.fadd.length) :
    alloc_step sb st i =
      { data_bm := set_bit st.data_bm i,
        newino := { st.newino with
          direct := st.newino.direct.set st.allocated
            ((sb.data_region_start + i) % 2 ^ 64 % 2 ^ 32) },
        allocated := st.allocated + 1,
        remaining := (st.fadd.drop BS).length,
        fadd := st.fadd.drop BS,
        fout := pwrite st.fout ((sb.data_region_start + i) % 2 ^ 64 * BS)
          (pwrite (List.replicate BS 0) 0 (st.fadd.take BS)) } := by
  have h1 : st.fadd.take (if st.remaining > BS then BS else st.remaining) = st.fadd.take BS := by
    split
    · rfl
    · rw [h, List.take_length, List.take_of_length_le (by omega)]
  have h2 : st.fadd.drop (if st.remaining > BS then BS else st.remaining) = st.fadd.drop BS := by
    split
    · rfl
    · rw [h, List.drop_length, List.drop_of_length_le (by omega)]
  have h3 : st.remaining - (if st.remaining > BS then BS else st.remaining) =
      (st.fadd.drop BS).length := by
    rw [List.length_drop]
    split <;> omega
  unfold alloc_step
  simp only [h1, h2, h3]

theorem foldl_alloc_step_data_bm (sb : superblock_t) (js : List Nat) (st : Alloc) :
    (js.foldl (alloc_step sb) st).data_bm = js.foldl set_bit st.data_bm := by
  induction js generalizing st with
  | nil => rfl
  | cons j js ih => rw [List.foldl_cons, ih, List.foldl_cons]; rfl

theorem foldl_alloc_step_allocated (sb : superblock_t) (js : List Nat) (st : Alloc) :
    (js.foldl (alloc_step sb) st).allocated = st.allocated + js.length := by
  induction js generalizing st with
  | nil => rfl
  | cons j js ih =>
    rw [List.foldl_cons, ih, List.length_cons]
    show st.allocated + 1 + js.length = _
    omega

theorem foldl_alloc_step_newino (sb : superblock_t) (js : List Nat) (st : Alloc) :
    (js.foldl (alloc_step sb) st).newino =
      { st.newino with direct := fill_direct sb st.newino.direct st.allocated js } := by
  induction js generalizing st with
  | nil => rfl
  | cons j js ih =>
    rw [List.foldl_cons, ih]
    rfl

theorem foldl_alloc_step_stream (sb : superblock_t) (js : List Nat) (st : Alloc)
    (h : st.remaining = st.fadd.length) :
    (js.foldl (alloc_step sb) st).remaining = st.fadd.length - js.length * BS ∧
      (js.foldl (alloc_step sb) st).fout =
        apply_writes st.fout (data_writes sb st.fadd js) := by
  induction js generalizing st with
  | nil => exact ⟨by simpa using h, rfl⟩
  | cons j js ih =>
    rw [List.foldl_cons, alloc_step_of_stream sb st j h]
    obtain ⟨h1, h2⟩ := ih _ (show (Alloc.mk (set_bit st.data_bm j)
        { st.newino with
          direct := st.newino.direct.set st.allocated
            ((sb.data_region_start + j) % 2 ^ 64 % 2 ^ 32) }
        (st.allocated + 1) (st.fadd.drop BS).length (st.fadd.drop BS)
        (pwrite st.fout ((sb.data_region_start + j) % 2 ^ 64 * BS)
          (pwrite (List.replicate BS 0) 0 (st.fadd.take BS)))).remaining =
        (st.fadd.drop BS).length from rfl)
    refine ⟨?_, ?_⟩
    · rw [h1]
      simp only [List.length_drop, List.length_cons]
      rw [Nat.add_mul, Nat.one_mul]
      omega
    · rw [h2]
      rfl

end Mkfs_adder

theorem length_write_block (chunk : List Nat) (h : chunk.length ≤ BS) :
    (pwrite (List.replicate BS 0) 0 chunk).length = BS := by
  rw [length_pwrite (by rw [List.length_replicate]; omega), List.length_replicate]

theorem length_data_writes (sb : superblock_t) (fadd js : List Nat) :
    (data_writes sb fadd js).length = js.length := by
  induction js generalizing fadd with
  | nil => rfl
  | cons j js ih => simp [data_writes, ih]

theorem getElem?_data_writes (sb : superblock_t) (fadd js : List Nat) (k : Nat) :
    (data_writes sb fadd js)[k]? =
      (js[k]?).map (fun j => ((sb.data_region_start + j) % 2 ^ 64 * BS,
        pwrite (List.replicate BS 0) 0 (slice fadd (k * BS) BS))) := by
  induction js generalizing fadd k with
  | nil => simp [data_writes]
  | cons j js ih =>
    cases k with
    | zero => simp [data_writes, slice]
    | succ k =>
      simp only [data_writes, List.getElem?_cons_succ, ih]
      have e : slice (fadd.drop BS) (k * BS) BS = slice fadd ((k + 1) * BS) BS := by
        unfold slice
        rw [List.drop_drop]
        congr 2
        ring
      rw [e]

theorem mem_data_writes {sb : superblock_t} {fadd js : List Nat} {w : Nat × List Nat}
    (h : w ∈ data_writes sb fadd js) :
    ∃ j ∈ js, w.1 = (sb.data_region_start + j) % 2 ^ 64 * BS ∧ w.2.length = BS := by
  induction js generalizing fadd with
  | nil => cases h
  | cons j js ih =>
    rw [data_writes] at h
    rcases List.mem_cons.mp h with e | h'
    · refine ⟨j, List.mem_cons_self _ _, ?_, ?_⟩
      · rw [e]
      · rw [e]
        exact length_write_block _ (by rw [List.length_take]; omega)
    · obtain ⟨i, hi, h1, h2⟩ := ih h'
      exact ⟨i, List.mem_cons_of_mem _ hi, h1, h2⟩

theorem pairwise_data_writes (sb : superblock_t) (fadd js : List Nat)
    (hp : js.Pairwise (· < ·)) (hb : ∀ j ∈ js, sb.data_region_start + j < 2 ^ 64) :
    (data_writes sb fadd js).Pairwise
      (fun w v => w.1 + w.2.length ≤ v.1 ∨ v.1 + v.2.length ≤ w.1) := by
  induction js generalizing fadd with
  | nil => exact List.Pairwise.nil
  | cons j js ih =>
    rw [data_writes, List.pairwise_cons]
    rw [List.pairwise_cons] at hp
    refine ⟨?_, ih _ hp.2 (fun i hi => hb i (List.mem_cons_of_mem _ hi))⟩
    intro v hv
    obtain ⟨i, hi, h1, h2⟩ := mem_data_writes hv
    left
    have hji := hp.1 i hi
    have hj := hb j (List.mem_cons_self _ _)
    have hi' := hb i (List.mem_cons_of_mem _ hi)
    rw [h1, Nat.mod_eq_of_lt hi']
    show (sb.data_region_start + j) % 2 ^ 64 * BS + (pwrite _ 0 _).length ≤ _
    rw [length_write_block _ (by rw [List.length_take]; omega), Nat.mod_eq_of_lt hj, BS_eq]
    omega

namespace Mkfs_adder

theorem mem_chosen_blocks {img : List Nat} (V : ValidImage img) {file_sz j : Nat}
    (h : j ∈ chosen_blocks img file_sz) :
    1 ≤ j ∧ j < (image_sb img).data_region_blocks ∧ get_bit (data_bitmap img) j = 0 := by
  obtain ⟨-, h2, h3⟩ := mem_picks h
  refine ⟨?_, by omega, h3⟩
  by_contra hc
  have : j = 0 := by omega
  rw [this, V.root_block_used] at h3
  exact absurd h3 (by decide)

theorem data_writes_bounds {img : List Nat} (V : ValidImage img) (file : List Nat)
    {file_sz : Nat} {w : Nat × List Nat}
    (h : w ∈ data_writes (image_sb img) file (chosen_blocks img file_sz)) :
    ((image_sb img).data_region_start + 1) * BS ≤ w.1 ∧ w.1 + w.2.length ≤ img.length := by
  obtain ⟨j, hj, h1, h2⟩ := mem_data_writes h
  obtain ⟨j1, j2, -⟩ := mem_chosen_blocks V hj
  have hlen := V.length_eq
  have htb := V.total_blocks
  have hdr := V.data_region_start
  have hit := V.inode_table_blocks
  have hic := V.inode_count_le
  have hdb := V.data_region_le
  rw [BS_eq] at hlen hit hic hdb ⊢
  rw [INODE_SIZE_eq] at hit
  have hm : ((image_sb img).data_region_start + j) % 2 ^ 64 =
      (image_sb img).data_region_start + j := Nat.mod_eq_of_lt (by omega)
  rw [h1, h2, hm, hlen, BS_eq]
  constructor <;> nlinarith

end Mkfs_adder

namespace Mkfs_adder

theorem main_eq_main_valid {img : List Nat} (V : ValidImage img) (file_name file : List Nat)
    (now : Nat) : main img file_name file now = main_valid img file_name file now := by
  have hlen := V.length_eq
  have htb := V.total_blocks
  have hdr := V.data_region_start
  have hit := V.inode_table_blocks
  have hic := V.inode_count_le
  have hic1 := V.inode_count_pos
  have hdb := V.data_region_le
  have hdb1 := V.data_region_pos
  have hibs := V.inode_bitmap_start
  have hibb := V.inode_bitmap_blocks
  have hdbs := V.data_bitmap_start
  have hdbb := V.data_bitmap_blocks
  have hits := V.inode_table_start
  rw [BS_eq] at hlen hit hic hdb
  rw [INODE_SIZE_eq] at hit
  have h1 : pread img 0 BS = some (slice img 0 BS) := pread_eq_some (by rw [BS_eq]; omega)
  have h2 : superblock_t.load (slice img 0 BS) = image_sb img :=
    superblock_load_slice (by rw [BS_eq]; omega)
  have h3 : copy_image img (image_sb img).total_blocks 0 [] = (true, img) := by
    rw [copy_image_eq _ _ _ _ (by rw [BS_eq]; omega), Nat.zero_mul, List.nil_append,
      slice_all (by rw [BS_eq]; omega)]
  have h4 : (image_sb img).inode_bitmap_blocks * BS % 2 ^ 64 =
      (image_sb img).inode_bitmap_blocks * BS := by
    rw [BS_eq]; omega
  have h5 : pread img ((image_sb img).inode_bitmap_start * BS)
      ((image_sb img).inode_bitmap_blocks * BS) = some (inode_bitmap img) :=
    pread_eq_some (by rw [BS_eq]; omega)
  have h6 : (image_sb img).data_bitmap_blocks * BS % 2 ^ 64 =
      (image_sb img).data_bitmap_blocks * BS := by
    rw [BS_eq]; omega
  have h7 : pread img ((image_sb img).data_bitmap_start * BS)
      ((image_sb img).data_bitmap_blocks * BS) = some (data_bitmap img) :=
    pread_eq_some (by rw [BS_eq]; omega)
  unfold main main_valid
  rw [h1]
  simp only [h2, h3, h4, h5]
  cases hp : pick_inode (inode_bitmap img) (image_sb img).inode_count 0 with
  | none => rfl
  | some c =>
    simp only [h6, h7]
    by_cases hreq : (file.length + BS - 1) % 2 ^ 64 / BS > 12
    · rw [if_pos hreq, if_pos hreq]
    · rw [if_neg hreq, if_neg hreq]
      have hL : picks (data_bitmap img) ((file.length + BS - 1) % 2 ^ 64 / BS)
          (image_sb img).data_region_blocks 0 0 = chosen_blocks img file.length := rfl
      have hst := alloc_loop_eq_foldl (image_sb img) ((file.length + BS - 1) % 2 ^ 64 / BS)
        (image_sb img).data_region_blocks 0
        { data_bm := data_bitmap img, newino := new_inode file.length now,
          allocated := 0, remaining := file.length, fadd := file, fout := img }
      simp only [hL] at hst
      obtain ⟨hrem, hfout⟩ := foldl_alloc_step_stream (image_sb img) (chosen_blocks img file.length)
        { data_bm := data_bitmap img, newino := new_inode file.length now,
          allocated := 0, remaining := file.length, fadd := file, fout := img } rfl
      have hino := foldl_alloc_step_newino (image_sb img) (chosen_blocks img file.length)
        { data_bm := data_bitmap img, newino := new_inode file.length now,
          allocated := 0, remaining := file.length, fadd := file, fout := img }
      have hbm := foldl_alloc_step_data_bm (image_sb img) (chosen_blocks img file.length)
        { data_bm := data_bitmap img, newino := new_inode file.length now,
          allocated := 0, remaining := file.length, fadd := file, fout := img }
      rw [← hst] at hrem hfout hino hbm
      have hino' : inode_crc_finalize (alloc_loop (image_sb img)
          ((file.length + BS - 1) % 2 ^ 64 / BS) (image_sb img).data_region_blocks 0
          { data_bm := data_bitmap img, newino := new_inode file.length now,
            allocated := 0, remaining := file.length, fadd := file, fout := img }).newino =
          final_inode img file.length now := by
        rw [hino]
        rfl
      simp only at hrem hfout hbm
      rw [hino']
      generalize alloc_loop (image_sb img) ((file.length + BS - 1) % 2 ^ 64 / BS)
        (image_sb img).data_region_blocks 0
        { data_bm := data_bitmap img, newino := new_inode file.length now,
          allocated := 0, remaining := file.length, fadd := file, fout := img } = st
        at hrem hfout hbm ⊢
      clear hst hino hino'
      rw [hrem, hfout, hbm]
      by_cases hne : (chosen_blocks img file.length).length * BS < file.length
      · rw [if_pos (by omega), if_pos hne]
      · rw [if_neg (by omega), if_neg hne]
        -- the reads of the linking steps see the input image
        obtain ⟨-, hc2, hc3, -⟩ := pick_inode_eq_some hp
        have hc1 : 1 ≤ c := by
          by_contra hc
          have : c = 0 := by omega
          rw [this, V.root_inode_used] at hc3
          exact absurd hc3 (by decide)
        have hW : ∀ w ∈ data_writes (image_sb img) file (chosen_blocks img file.length),
            w.1 + w.2.length ≤ img.length := fun w hw => (data_writes_bounds V file hw).2
        have hf1 := length_apply_writes hW
        have hi : (image_sb img).inode_table_start * BS + c * INODE_SIZE +
            (final_inode img file.length now).bytes.length ≤
            (apply_writes img (data_writes (image_sb img) file
              (chosen_blocks img file.length))).length := by
          rw [hf1, inode_length_bytes, BS_eq, INODE_SIZE_eq]
          omega
        have hr1 : pread (pwrite (apply_writes img (data_writes (image_sb img) file
            (chosen_blocks img file.length)))
            ((image_sb img).inode_table_start * BS + c * INODE_SIZE)
            (final_inode img file.length now).bytes)
            ((image_sb img).inode_table_start * BS + (ROOT_INO - 1) * INODE_SIZE) INODE_SIZE =
            some (inode_slot img 0) := by
          rw [pread_eq_some (by rw [length_pwrite hi, hf1, BS_eq, INODE_SIZE_eq, ROOT_INO]; omega),
            slice_pwrite_disjoint hi
              (by rw [inode_length_bytes, BS_eq, INODE_SIZE_eq, ROOT_INO]; omega),
            slice_apply_writes_disjoint hW]
          · rfl
          · intro w hw
            have := (data_writes_bounds V file hw).1
            left
            rw [BS_eq] at this
            rw [BS_eq, INODE_SIZE_eq, ROOT_INO]
            omega
        rw [hr1]
        have hd0 := V.root_direct
        have hld : inode_t.load (inode_slot img 0) = image_inode img 0 := rfl
        simp only [hld, hd0]
        rw [if_neg (by omega)]
        have hr2 : pread (pwrite (apply_writes img (data_writes (image_sb img) file
            (chosen_blocks img file.length)))
            ((image_sb img).inode_table_start * BS + c * INODE_SIZE)
            (final_inode img file.length now).bytes)
            ((image_sb img).data_region_start * BS) BS =
            some (image_block img (image_sb img).data_region_start) := by
          rw [pread_eq_some (by rw [length_pwrite hi, hf1, BS_eq]; omega),
            slice_pwrite_disjoint hi (by rw [inode_length_bytes, BS_eq, INODE_SIZE_eq]; omega),
            slice_apply_writes_disjoint hW]
          · rfl
          · intro w hw
            have := (data_writes_bounds V file hw).1
            left
            rw [BS_eq] at this
            rw [BS_eq]
            omega
        rw [hr2]
        simp only
        cases hs : find_slot (image_block img (image_sb img).data_region_start)
            (BS / DIRENT_SIZE) 0 with
        | none =>
          simp only [apply_writes_append]
          rfl
        | some slot =>
          simp only [apply_writes_append]
          rfl

end Mkfs_adder

namespace Mkfs_adder

theorem inserted_of_ok {img : List Nat} (V : ValidImage img) {file_name file : List Nat}
    {now : Nat} (h : (main img file_name file now).exit = .ok) :
    ∃ c slot out, (main img file_name file now).output = some out ∧
      Inserted img file_name file now c slot out := by
  rw [main_eq_main_valid V] at h ⊢
  unfold main_valid at h ⊢
  cases hp : pick_inode (inode_bitmap img) (image_sb img).inode_count 0 with
  | none => rw [hp] at h; cases h
  | some c =>
    rw [hp] at h
    simp only at h ⊢
    by_cases hreq : (file.length + BS - 1) % 2 ^ 64 / BS > 12
    · rw [if_pos hreq] at h; cases h
    · rw [if_neg hreq] at h ⊢
      by_cases hne : (chosen_blocks img file.length).length * BS < file.length
      · rw [if_pos hne] at h; cases h
      · rw [if_neg hne] at h ⊢
        cases hs : find_slot (image_block img (image_sb img).data_region_start)
            (BS / DIRENT_SIZE) 0 with
        | none => rw [hs] at h; cases h
        | some slot =>
          exact ⟨c, slot, _, rfl, V, hp, by omega, by omega, hs, rfl⟩

theorem main_of_inserted {img file_name file : List Nat} {now c slot : Nat} {out : List Nat}
    (h : Inserted img file_name file now c slot out) :
    main img file_name file now = ⟨.ok, some out⟩ := by
  rw [main_eq_main_valid h.valid]
  unfold main_valid
  rw [h.pick]
  simp only
  rw [if_neg (by have := h.fits; omega), if_neg (by have := h.enough; omega), h.slot_eq, h.out_eq]
  rfl

end Mkfs_adder

theorem length_foldl_set_bit (js bm : List Nat) : (js.foldl set_bit bm).length = bm.length := by
  induction js generalizing bm with
  | nil => rfl
  | cons j js ih => rw [List.foldl_cons, ih, length_set_bit]

theorem length_inode_bitmap {img : List Nat} (V : ValidImage img) :
    (inode_bitmap img).length = BS := by
  unfold inode_bitmap
  have h1 := V.length_eq
  have h2 := V.total_blocks
  have h3 := V.data_region_start
  have h4 := V.inode_bitmap_start
  have h5 := V.inode_bitmap_blocks
  have h6 := V.data_region_pos
  rw [length_slice_of_le (by rw [h4, h5, h1, BS_eq]; omega), h5, Nat.one_mul]

theorem length_data_bitmap {img : List Nat} (V : ValidImage img) :
    (data_bitmap img).length = BS := by
  unfold data_bitmap
  have h1 := V.length_eq
  have h2 := V.total_blocks
  have h3 := V.data_region_start
  have h4 := V.data_bitmap_start
  have h5 := V.data_bitmap_blocks
  have h6 := V.data_region_pos
  rw [length_slice_of_le (by rw [h4, h5, h1, BS_eq]; omega), h5, Nat.one_mul]

theorem length_image_block {img : List Nat} (V : ValidImage img) {b : Nat}
    (h : b < (image_sb img).total_blocks) : (image_block img b).length = BS := by
  unfold image_block
  have h1 := V.length_eq
  rw [length_slice_of_le]
  rw [h1]
  have : (b + 1) * BS ≤ (image_sb img).total_blocks * BS := Nat.mul_le_mul_right _ h
  rw [Nat.add_mul, Nat.one_mul] at this
  exact this

namespace Mkfs_adder

theorem Inserted.chosen_pos {img file_name file : List Nat} {now c slot : Nat} {out : List Nat}
    (h : Inserted img file_name file now c slot out) :
    1 ≤ c ∧ c < (image_sb img).inode_count ∧ get_bit (inode_bitmap img) c = 0 := by
  obtain ⟨-, hc2, hc3, -⟩ := pick_inode_eq_some h.pick
  refine ⟨?_, by omega, hc3⟩
  by_contra hc
  have : c = 0 := by omega
  rw [this, h.valid.root_inode_used] at hc3
  exact absurd hc3 (by decide)

theorem Inserted.slot_lt {img file_name file : List Nat} {now c slot : Nat} {out : List Nat}
    (h : Inserted img file_name file now c slot out) : slot < 64 := by
  obtain ⟨-, h2, -, -⟩ := find_slot_eq_some h.slot_eq
  rw [BS_eq, DIRENT_SIZE_eq] at h2
  omega

/-- The offset and length of each of the five metadata writes of a successful run. -/
theorem Inserted.meta_writes {img file_name file : List Nat} {now c slot : Nat}
    {out : List Nat} (h : Inserted img file_name file now c slot out)
    {w : Nat × List Nat}
    (hw : w ∈ inode_write img file.length now c :: link_writes img file_name file.length c slot) :
    w.2.length ≤ BS ∧
    ((w.1 = 3 * BS + c * 128 ∧ w.2.length = 128) ∨
      (w.1 = (image_sb img).data_region_start * BS ∧ w.2.length = BS) ∨
      (w.1 = 3 * BS ∧ w.2.length = 128) ∨
      (w.1 = BS ∧ w.2.length = BS) ∨
      (w.1 = 2 * BS ∧ w.2.length = BS)) := by
  have V := h.valid
  have hs := h.slot_lt
  have hrb : (image_block img (image_sb img).data_region_start).length = BS :=
    length_image_block V (by have := V.total_blocks; have := V.data_region_pos; omega)
  have e128 : 128 ≤ BS := by rw [BS_eq]; omega
  simp only [link_writes, inode_write, List.mem_cons, List.mem_singleton, List.not_mem_nil,
    or_false] at hw
  have l1 : (final_inode img file.length now).bytes.length = 128 := inode_length_bytes _
  have l2 : (pwrite (image_block img (image_sb img).data_region_start) (slot * DIRENT_SIZE)
      (dirent_checksum_finalize (new_dirent c file_name)).bytes).length = BS := by
    rw [length_pwrite (by rw [hrb, dirent_length_bytes, DIRENT_SIZE_eq, BS_eq]; omega), hrb]
  have l3 : (final_root img).bytes.length = 128 := inode_length_bytes _
  have l4 : (set_bit (inode_bitmap img) c).length = BS := by
    rw [length_set_bit, length_inode_bitmap V]
  have l5 : ((chosen_blocks img file.length).foldl set_bit (data_bitmap img)).length = BS := by
    rw [length_foldl_set_bit, length_data_bitmap V]
  have o1 : (image_sb img).inode_table_start * BS + c * INODE_SIZE = 3 * BS + c * 128 := by
    rw [V.inode_table_start, INODE_SIZE_eq]
  have o3 : (image_sb img).inode_table_start * BS + (ROOT_INO - 1) * INODE_SIZE = 3 * BS := by
    rw [V.inode_table_start, ROOT_INO]
    omega
  have o4 : (image_sb img).inode_bitmap_start * BS = BS := by
    rw [V.inode_bitmap_start, Nat.one_mul]
  have o5 : (image_sb img).data_bitmap_start * BS = 2 * BS := by
    rw [V.data_bitmap_start]
  rcases hw with e | e | e | e | e <;> subst e
  · exact ⟨by rw [l1]; exact e128, Or.inl ⟨o1, l1⟩⟩
  · exact ⟨by rw [l2], Or.inr (Or.inl ⟨rfl, l2⟩)⟩
  · exact ⟨by rw [l3]; exact e128, Or.inr (Or.inr (Or.inl ⟨o3, l3⟩))⟩
  · exact ⟨by rw [l4], Or.inr (Or.inr (Or.inr (Or.inl ⟨o4, l4⟩)))⟩
  · exact ⟨by rw [l5], Or.inr (Or.inr (Or.inr (Or.inr ⟨o5, l5⟩)))⟩

end Mkfs_adder

namespace Mkfs_adder

theorem Inserted.meta_facts {img file_name file : List Nat} {now c slot : Nat}
    {out : List Nat} (h : Inserted img file_name file now c slot out) :
    ((inode_write img file.length now c).1 = 3 * BS + c * 128 ∧
      (inode_write img file.length now c).2.length = 128) ∧
    ((pwrite (image_block img (image_sb img).data_region_start) (slot * DIRENT_SIZE)
      (dirent_checksum_finalize (new_dirent c file_name)).bytes).length = BS) ∧
    ((image_sb img).inode_table_start * BS + (ROOT_INO - 1) * INODE_SIZE = 3 * BS ∧
      (final_root img).bytes.length = 128) ∧
    ((image_sb img).inode_bitmap_start * BS = BS ∧
      (set_bit (inode_bitmap img) c).length = BS) ∧
    ((image_sb img).data_bitmap_start * BS = 2 * BS ∧
      ((chosen_blocks img file.length).foldl set_bit (data_bitmap img)).length = BS) := by
  have V := h.valid
  have hs := h.slot_lt
  have hrb : (image_block img (image_sb img).data_region_start).length = BS :=
    length_image_block V (by have := V.total_blocks; have := V.data_region_pos; omega)
  refine ⟨⟨?_, inode_length_bytes _⟩, ?_, ⟨?_, inode_length_bytes _⟩, ⟨?_, ?_⟩, ⟨?_, ?_⟩⟩
  · show (image_sb img).inode_table_start * BS + c * INODE_SIZE = _
    rw [V.inode_table_start, INODE_SIZE_eq]
  · rw [length_pwrite (by rw [hrb, dirent_length_bytes, DIRENT_SIZE_eq, BS_eq]; omega), hrb]
  · rw [V.inode_table_start, ROOT_INO]
    omega
  · rw [V.inode_bitmap_start, Nat.one_mul]
  · rw [length_set_bit, length_inode_bitmap V]
  · rw [V.data_bitmap_start]
  · rw [length_foldl_set_bit, length_data_bitmap V]

theorem Inserted.writes_inside {img file_name file : List Nat} {now c slot : Nat}
    {out : List Nat} (h : Inserted img file_name file now c slot out) :
    ∀ w ∈ all_writes img file_name file now c slot, w.1 + w.2.length ≤ img.length := by
  intro w hw
  have V := h.valid
  rcases List.mem_append.mp hw with hw | hw
  · exact (data_writes_bounds V file hw).2
  · obtain ⟨-, hc, -⟩ := h.chosen_pos
    have h1 := V.length_eq
    have h2 := V.total_blocks
    have h3 := V.data_region_start
    have h4 := V.inode_table_blocks
    have h6 := V.data_region_pos
    rw [BS_eq, INODE_SIZE_eq] at h4
    rw [BS_eq] at h1
    obtain ⟨-, hm⟩ := h.meta_writes hw
    rw [BS_eq] at hm
    rcases hm with ⟨e1, e2⟩ | ⟨e1, e2⟩ | ⟨e1, e2⟩ | ⟨e1, e2⟩ | ⟨e1, e2⟩ <;>
      rw [e1, e2, h1] <;> omega

theorem Inserted.writes_pairwise {img file_name file : List Nat} {now c slot : Nat}
    {out : List Nat} (h : Inserted img file_name file now c slot out) :
    (all_writes img file_name file now c slot).Pairwise
      (fun w v => w.1 + w.2.length ≤ v.1 ∨ v.1 + v.2.length ≤ w.1) := by
  have V := h.valid
  obtain ⟨hc1, hc, -⟩ := h.chosen_pos
  have h2 := V.total_blocks
  have h3 := V.data_region_start
  have h4 := V.inode_table_blocks
  have h5 := V.data_region_le
  have h6 := V.inode_count_le
  rw [BS_eq, INODE_SIZE_eq] at h4
  rw [BS_eq] at h5 h6
  unfold all_writes
  rw [List.pairwise_append]
  refine ⟨?_, ?_, ?_⟩
  · apply pairwise_data_writes _ _ _ (pairwise_picks _ _ _ _ _)
    intro j hj
    have := (mem_chosen_blocks V hj).2.1
    omega
  · obtain ⟨⟨o1, l1⟩, l2, ⟨o3, l3⟩, ⟨o4, l4⟩, ⟨o5, l5⟩⟩ := h.meta_facts
    unfold link_writes
    simp only [List.pairwise_cons, List.mem_cons, List.mem_singleton, forall_eq_or_imp,
      forall_eq, List.not_mem_nil, false_implies, implies_true, List.Pairwise.nil, and_true,
      o1, l1, l2, o3, l3, o4, l4, o5, l5]
    rw [BS_eq]
    refine ⟨⟨?_, ?_, ?_, ?_⟩, ⟨?_, ?_, ?_⟩, ⟨?_, ?_⟩, ?_⟩ <;> omega
  · intro w hw v hv
    have hb := (data_writes_bounds V file hw).1
    obtain ⟨-, hm⟩ := h.meta_writes hv
    rw [BS_eq] at hb hm
    right
    rcases hm with ⟨e1, e2⟩ | ⟨e1, e2⟩ | ⟨e1, e2⟩ | ⟨e1, e2⟩ | ⟨e1, e2⟩ <;>
      rw [e1, e2] <;> omega

end Mkfs_adder

namespace Mkfs_adder

theorem Inserted.mem_all_writes {img file_name file : List Nat} {now c slot : Nat}
    {out : List Nat} (h : Inserted img file_name file now c slot out) {w : Nat × List Nat}
    (hw : w ∈ all_writes img file_name file now c slot) :
    (∃ j ∈ chosen_blocks img file.length,
        w.1 = ((image_sb img).data_region_start + j) * BS ∧ w.2.length = BS) ∨
      (w.1 = 3 * BS + c * 128 ∧ w.2.length = 128) ∨
      (w.1 = (image_sb img).data_region_start * BS ∧ w.2.length = BS) ∨
      (w.1 = 3 * BS ∧ w.2.length = 128) ∨
      (w.1 = BS ∧ w.2.length = BS) ∨
      (w.1 = 2 * BS ∧ w.2.length = BS) := by
  rcases List.mem_append.mp hw with hw | hw
  · left
    obtain ⟨j, hj, h1, h2⟩ := mem_data_writes hw
    have V := h.valid
    have := (mem_chosen_blocks V hj).2.1
    have h5 := V.data_region_le
    have h6 := V.inode_count_le
    have h3 := V.data_region_start
    have h4 := V.inode_table_blocks
    rw [BS_eq, INODE_SIZE_eq] at h4
    rw [BS_eq] at h5 h6
    rw [Nat.mod_eq_of_lt (by omega)] at h1
    exact ⟨j, hj, h1, h2⟩
  · right
    exact (h.meta_writes hw).2

theorem Inserted.length_out {img file_name file : List Nat} {now c slot : Nat}
    {out : List Nat} (h : Inserted img file_name file now c slot out) :
    out.length = img.length := by
  rw [h.out_eq]
  exact length_apply_writes h.writes_inside

theorem Inserted.slice_out_of_disjoint {img file_name file : List Nat} {now c slot : Nat}
    {out : List Nat} (h : Inserted img file_name file now c slot out) {off n : Nat}
    (hd : ∀ w ∈ all_writes img file_name file now c slot,
      off + n ≤ w.1 ∨ w.1 + w.2.length ≤ off) :
    slice out off n = slice img off n := by
  rw [h.out_eq]
  exact slice_apply_writes_disjoint h.writes_inside hd

theorem Inserted.slice_out_of_mem {img file_name file : List Nat} {now c slot : Nat}
    {out : List Nat} (h : Inserted img file_name file now c slot out) {w : Nat × List Nat}
    (hw : w ∈ all_writes img file_name file now c slot) {n : Nat} (hn : w.2.length = n) :
    slice out w.1 n = w.2 := by
  rw [h.out_eq]
  exact slice_apply_writes_mem_self h.writes_inside h.writes_pairwise hw hn

theorem Inserted.image_sb_out {img file_name file : List Nat} {now c slot : Nat}
    {out : List Nat} (h : Inserted img file_name file now c slot out) :
    image_sb out = image_sb img := by
  unfold image_sb
  rw [← superblock_load_slice (le_refl 116), ← superblock_load_slice (b := img) (le_refl 116)]
  rw [h.slice_out_of_disjoint]
  intro w hw
  have V := h.valid
  have h3 := V.data_region_start
  left
  rcases h.mem_all_writes hw with ⟨j, -, e, -⟩ | ⟨e, -⟩ | ⟨e, -⟩ | ⟨e, -⟩ | ⟨e, -⟩ | ⟨e, -⟩ <;>
    rw [e, BS_eq] <;> omega

theorem Inserted.inode_bitmap_out {img file_name file : List Nat} {now c slot : Nat}
    {out : List Nat} (h : Inserted img file_name file now c slot out) :
    inode_bitmap out = set_bit (inode_bitmap img) c := by
  unfold inode_bitmap
  rw [h.image_sb_out]
  have hw : ((image_sb img).inode_bitmap_start * BS, set_bit (slice img
      ((image_sb img).inode_bitmap_start * BS) ((image_sb img).inode_bitmap_blocks * BS)) c) ∈
      all_writes img file_name file now c slot := by
    unfold all_writes link_writes
    simp [inode_bitmap]
  have := h.slice_out_of_mem hw (n := (image_sb img).inode_bitmap_blocks * BS)
    (by rw [length_set_bit]; exact (length_inode_bitmap h.valid).trans
          (by rw [h.valid.inode_bitmap_blocks, Nat.one_mul]))
  exact this

theorem Inserted.data_bitmap_out {img file_name file : List Nat} {now c slot : Nat}
    {out : List Nat} (h : Inserted img file_name file now c slot out) :
    data_bitmap out = (chosen_blocks img file.length).foldl set_bit (data_bitmap img) := by
  unfold data_bitmap
  rw [h.image_sb_out]
  have hw : ((image_sb img).data_bitmap_start * BS,
      (chosen_blocks img file.length).foldl set_bit (slice img
      ((image_sb img).data_bitmap_start * BS) ((image_sb img).data_bitmap_blocks * BS))) ∈
      all_writes img file_name file now c slot := by
    unfold all_writes link_writes
    simp [data_bitmap]
  have := h.slice_out_of_mem hw (n := (image_sb img).data_bitmap_blocks * BS)
    (by rw [length_foldl_set_bit]; exact (length_data_bitmap h.valid).trans
          (by rw [h.valid.data_bitmap_blocks, Nat.one_mul]))
  exact this

end Mkfs_adder

theorem get_bit_foldl_set_bit_of_not_mem (js bm : List Nat) {j : Nat} (h : j ∉ js) :
    get_bit (js.foldl set_bit bm) j = get_bit bm j := by
  induction js generalizing bm with
  | nil => rfl
  | cons i js ih =>
    rw [List.foldl_cons, ih _ (fun hh => h (List.mem_cons_of_mem _ hh)),
      get_bit_set_bit_ne bm (fun e => h (by rw [e]; exact List.mem_cons_self _ _))]

theorem get_bit_foldl_set_bit_of_mem (js bm : List Nat) {j : Nat} (h : j ∈ js)
    (hb : ∀ i ∈ js, i / 8 < bm.length) : get_bit (js.foldl set_bit bm) j = 1 := by
  induction js generalizing bm with
  | nil => cases h
  | cons i js ih =>
    rw [List.foldl_cons]
    by_cases hj : j ∈ js
    · exact ih _ hj (fun k hk => by
        rw [length_set_bit]; exact hb k (List.mem_cons_of_mem _ hk))
    · have e : j = i := by
        rcases List.mem_cons.mp h with e | e
        · exact e
        · exact absurd e hj
      rw [get_bit_foldl_set_bit_of_not_mem js _ hj, e,
        get_bit_set_bit_self bm (hb i (List.mem_cons_self _ _))]

theorem get_bit_foldl_set_bit (js bm : List Nat) (hb : ∀ i ∈ js, i / 8 < bm.length) (j : Nat) :
    get_bit (js.foldl set_bit bm) j = if j ∈ js then 1 else get_bit bm j := by
  by_cases h : j ∈ js
  · rw [if_pos h, get_bit_foldl_set_bit_of_mem js bm h hb]
  · rw [if_neg h, get_bit_foldl_set_bit_of_not_mem js bm h]

theorem length_filter_range_update (p q : Nat → Bool) (k n : Nat) (hk : k < n)
    (hpk : p k = false) (hqk : q k = true) (h : ∀ i, i < n → i ≠ k → p i = q i) :
    ((List.range n).filter q).length = ((List.range n).filter p).length + 1 := by
  induction n with
  | zero => omega
  | succ m ih =>
    rw [List.range_succ, List.filter_append, List.filter_append, List.length_append,
      List.length_append]
    by_cases e : k = m
    · subst e
      have e1 : (List.range k).filter q = (List.range k).filter p := by
        apply List.filter_congr
        intro i hi
        have := List.mem_range.mp hi
        rw [h i (by omega) (by omega)]
      rw [e1]
      simp [hpk, hqk]
    · rw [ih (by omega) (fun i hi hik => h i (by omega) hik)]
      have e2 : p m = q m := h m (by omega) (fun hh => e hh.symm)
      simp only [List.filter_cons, List.filter_nil, e2]
      omega

theorem filter_mem_range_eq (js : List Nat) (n : Nat) (hp : js.Pairwise (· < ·))
    (hb : ∀ j ∈ js, j < n) : (List.range n).filter (fun j => decide (j ∈ js)) = js := by
  apply List.eq_of_perm_of_sorted (r := (· < ·))
  · apply (List.perm_ext_iff_of_nodup _ _).mpr
    · intro a
      simp only [List.mem_filter, List.mem_range, decide_eq_true_eq]
      exact ⟨fun hh => hh.2, fun hh => ⟨hb a hh, hh⟩⟩
    · exact (List.nodup_range n).filter _
    · exact hp.imp (fun hh => Nat.ne_of_lt hh)
  · exact (List.pairwise_lt_range n).sublist (List.filter_sublist _)
  · exact hp

namespace Mkfs_adder

theorem Inserted.inode_slot_out_new {img file_name file : List Nat} {now c slot : Nat}
    {out : List Nat} (h : Inserted img file_name file now c slot out) :
    inode_slot out c = (final_inode img file.length now).bytes := by
  unfold inode_slot
  rw [h.image_sb_out]
  have hw : inode_write img file.length now c ∈ all_writes img file_name file now c slot := by
    unfold all_writes
    simp
  exact h.slice_out_of_mem hw (by
    show (final_inode img file.length now).bytes.length = INODE_SIZE
    rw [inode_length_bytes, INODE_SIZE_eq])

theorem Inserted.inode_slot_out_root {img file_name file : List Nat} {now c slot : Nat}
    {out : List Nat} (h : Inserted img file_name file now c slot out) :
    inode_slot out 0 = (final_root img).bytes := by
  unfold inode_slot
  rw [h.image_sb_out]
  have hw : ((image_sb img).inode_table_start * BS + (ROOT_INO - 1) * INODE_SIZE,
      (final_root img).bytes) ∈ all_writes img file_name file now c slot := by
    unfold all_writes link_writes
    simp
  exact h.slice_out_of_mem hw (by
    show (final_root img).bytes.length = INODE_SIZE
    rw [inode_length_bytes, INODE_SIZE_eq])

theorem Inserted.inode_slot_out_other {img file_name file : List Nat} {now c slot : Nat}
    {out : List Nat} (h : Inserted img file_name file now c slot out) {i : Nat}
    (hi : i < (image_sb img).inode_count) (h0 : i ≠ 0) (hc : i ≠ c) :
    inode_slot out i = inode_slot img i := by
  unfold inode_slot
  rw [h.image_sb_out]
  apply h.slice_out_of_disjoint
  intro w hw
  have V := h.valid
  have h3 := V.data_region_start
  have h4 := V.inode_table_blocks
  have h5 := V.inode_table_start
  rw [BS_eq, INODE_SIZE_eq] at h4
  rw [h5, BS_eq, INODE_SIZE_eq]
  rcases h.mem_all_writes hw with ⟨j, -, e, l⟩ | ⟨e, l⟩ | ⟨e, l⟩ | ⟨e, l⟩ | ⟨e, l⟩ | ⟨e, l⟩ <;>
    rw [e, l, BS_eq] <;> omega

theorem Inserted.root_block_out {img file_name file : List Nat} {now c slot : Nat}
    {out : List Nat} (h : Inserted img file_name file now c slot out) :
    image_block out (image_sb img).data_region_start =
      pwrite (image_block img (image_sb img).data_region_start) (slot * DIRENT_SIZE)
        (dirent_checksum_finalize (new_dirent c file_name)).bytes := by
  unfold image_block
  have hw : ((image_sb img).data_region_start * BS,
      pwrite (slice img ((image_sb img).data_region_start * BS) BS) (slot * DIRENT_SIZE)
        (dirent_checksum_finalize (new_dirent c file_name)).bytes) ∈
      all_writes img file_name file now c slot := by
    unfold all_writes link_writes
    simp [image_block]
  exact h.slice_out_of_mem hw h.meta_facts.2.1

theorem Inserted.block_out_new {img file_name file : List Nat} {now c slot : Nat}
    {out : List Nat} (h : Inserted img file_name file now c slot out) {k j : Nat}
    (hk : (chosen_blocks img file.length)[k]? = some j) :
    image_block out ((image_sb img).data_region_start + j) =
      pwrite (List.replicate BS 0) 0 (slice file (k * BS) BS) := by
  have V := h.valid
  have hj : j ∈ chosen_blocks img file.length := List.getElem?_mem hk
  have hjb := (mem_chosen_blocks V hj).2.1
  have h3 := V.data_region_start
  have h4 := V.inode_table_blocks
  have h5 := V.data_region_le
  have h6 := V.inode_count_le
  rw [BS_eq, INODE_SIZE_eq] at h4
  rw [BS_eq] at h5 h6
  have hm : ((image_sb img).data_region_start + j) % 2 ^ 64 =
      (image_sb img).data_region_start + j := Nat.mod_eq_of_lt (by omega)
  have hw : (((image_sb img).data_region_start + j) * BS,
      pwrite (List.replicate BS 0) 0 (slice file (k * BS) BS)) ∈
      all_writes img file_name file now c slot := by
    unfold all_writes
    apply List.mem_append_left
    apply List.getElem?_mem (n := k)
    rw [getElem?_data_writes, hk, Option.map_some', hm]
  unfold image_block
  exact h.slice_out_of_mem hw (length_write_block _ (by rw [length_slice]; omega))

theorem Inserted.block_out_other {img file_name file : List Nat} {now c slot : Nat}
    {out : List Nat} (h : Inserted img file_name file now c slot out) {b : Nat}
    (hb : (image_sb img).data_region_start < b)
    (hn : ∀ j ∈ chosen_blocks img file.length, b ≠ (image_sb img).data_region_start + j) :
    image_block out b = image_block img b := by
  unfold image_block
  apply h.slice_out_of_disjoint
  intro w hw
  have V := h.valid
  obtain ⟨-, hc, -⟩ := h.chosen_pos
  have h3 := V.data_region_start
  have h4 := V.inode_table_blocks
  rw [BS_eq, INODE_SIZE_eq] at h4
  rw [BS_eq]
  rcases h.mem_all_writes hw with ⟨j, hj, e, l⟩ | ⟨e, l⟩ | ⟨e, l⟩ | ⟨e, l⟩ | ⟨e, l⟩ | ⟨e, l⟩
  · have := hn j hj
    rw [e, l, BS_eq]
    omega
  all_goals
    rw [e, l]
    try rw [BS_eq]
    omega

end Mkfs_adder

theorem length_fill_direct (sb : superblock_t) (d : List Nat) (a : Nat) (js : List Nat) :
    (fill_direct sb d a js).length = d.length := by
  induction js generalizing d a with
  | nil => rfl
  | cons j js ih => rw [fill_direct, ih, List.length_set]

theorem getElem?_fill_direct (sb : superblock_t) (d : List Nat) (a : Nat) (js : List Nat)
    (h : a + js.length ≤ d.length) (i : Nat) :
    (fill_direct sb d a js)[i]? =
      if a ≤ i ∧ i < a + js.length then
        (js[i - a]?).map (fun j => (sb.data_region_start + j) % 2 ^ 64 % 2 ^ 32)
      else d[i]? := by
  induction js generalizing d a with
  | nil =>
    have : ¬ (a ≤ i ∧ i < a + ([] : List Nat).length) := by
      simp only [List.length_nil]; omega
    rw [fill_direct, if_neg this]
  | cons j js ih =>
    rw [List.length_cons] at h
    rw [fill_direct, ih _ _ (by rw [List.length_set]; omega), List.length_cons]
    by_cases c1 : a + 1 ≤ i ∧ i < a + 1 + js.length
    · have c2 : a ≤ i ∧ i < a + (js.length + 1) := by omega
      obtain ⟨k, hk⟩ : ∃ k, i - a = k + 1 := ⟨i - a - 1, by omega⟩
      have hk' : i - (a + 1) = k := by omega
      rw [if_pos c1, if_pos c2, hk, hk', List.getElem?_cons_succ]
    · rw [if_neg c1, List.getElem?_set]
      by_cases c3 : a = i
      · subst c3
        have c2 : a ≤ a ∧ a < a + (js.length + 1) := by omega
        rw [if_pos rfl, if_pos (by omega), if_pos c2, Nat.sub_self, List.getElem?_cons_zero]
        rfl
      · have c2 : ¬ (a ≤ i ∧ i < a + (js.length + 1)) := by omega
        rw [if_neg c3, if_neg c2]

theorem mem_fill_direct {sb : superblock_t} {d : List Nat} {a : Nat} {js : List Nat} {w : Nat}
    (h : w ∈ fill_direct sb d a js) : w ∈ d ∨ w < 2 ^ 32 := by
  induction js generalizing d a with
  | nil => exact Or.inl h
  | cons j js ih =>
    rw [fill_direct] at h
    rcases ih h with h' | h'
    · rcases List.mem_or_eq_of_mem_set h' with h'' | h''
      · exact Or.inl h''
      · right
        rw [h'']
        exact Nat.mod_lt _ (by norm_num)
    · exact Or.inr h'

theorem fill_direct_zero (sb : superblock_t) (n : Nat) (js : List Nat) (h : js.length ≤ n) :
    fill_direct sb (List.replicate n 0) 0 js =
      js.map (fun j => (sb.data_region_start + j) % 2 ^ 64 % 2 ^ 32) ++
        List.replicate (n - js.length) 0 := by
  apply List.ext_getElem?
  intro i
  rw [getElem?_fill_direct sb _ 0 js (by rw [List.length_replicate]; omega) i,
    List.getElem?_append, List.length_map, List.getElem?_map, List.getElem?_replicate,
    List.getElem?_replicate, Nat.sub_zero]
  by_cases c : i < js.length
  · rw [if_pos (by omega), if_pos c]
  · rw [if_neg (by omega), if_neg c]
    by_cases c2 : i < n
    · rw [if_pos c2, if_pos (by omega)]
    · rw [if_neg c2, if_neg (by omega)]

theorem getD_zero_load_bytes (ino : inode_t) :
    (inode_t.load ino.bytes).direct.getD 0 0 = ino.direct.getD 0 0 % 2 ^ 32 := by
  have := inode_load_bytes_append ino []
  rw [List.append_nil] at this
  rw [this]
  simp only
  cases hd : ino.direct with
  | nil => rfl
  | cons x xs => simp [fixlen]

namespace Mkfs_adder

theorem Inserted.length_chosen {img file_name file : List Nat} {now c slot : Nat}
    {out : List Nat} (h : Inserted img file_name file now c slot out) :
    (chosen_blocks img file.length).length = (file.length + 4095) / 4096 ∧
      (file.length + 4095) / 4096 ≤ 12 ∧ file.length ≤ 49152 := by
  have h1 := h.fits
  have h2 := h.enough
  have h3 : (chosen_blocks img file.length).length ≤
      (file.length + BS - 1) % 2 ^ 64 / BS - 0 := length_picks_le _ _ _ _ _
  rw [BS_eq] at h1 h2 h3
  have h4 : file.length < 2 ^ 64 := by
    by_contra hc
    omega
  have h5 : (file.length + 4096 - 1) % 2 ^ 64 = file.length + 4095 := by
    omega
  rw [h5] at h1 h3
  omega

theorem final_inode_fits (img : List Nat) (file_sz now : Nat) :
    (final_inode img file_sz now).Fits := by
  constructor <;>
    simp only [final_inode, inode_crc_finalize, new_inode, inode_t.zero] <;>
    first
      | exact lt_of_lt_of_le (crc32_lt _) (by norm_num)
      | exact Nat.mod_lt _ (by norm_num)
      | omega
      | skip
  · rw [length_fill_direct, List.length_replicate]
  · intro w hw
    rcases mem_fill_direct hw with h | h
    · rw [List.eq_of_mem_replicate h]
      norm_num
    · exact h

end Mkfs_adder

theorem length_strncpy (src : List Nat) (n : Nat) : (strncpy src n).length = n := by
  simp [strncpy]
  omega

namespace Mkfs_adder

theorem new_dirent_fits (c : Nat) (file_name : List Nat) :
    (dirent_checksum_finalize (new_dirent c file_name)).Fits := by
  constructor
  · exact Nat.mod_lt _ (by norm_num)
  · show (1 : Nat) < 2 ^ 8
    norm_num
  · show (strncpy file_name (MAX_NAME - 1) ++ [0]).length = 58
    rw [List.length_append, length_strncpy]
    rfl
  · exact dirent_checksum_lt _

theorem Inserted.image_inode_out_root {img file_name file : List Nat} {now c slot : Nat}
    {out : List Nat} (h : Inserted img file_name file now c slot out) :
    image_inode out 0 = inode_t.load (final_root img).bytes := by
  unfold image_inode
  rw [h.inode_slot_out_root]

theorem Inserted.root_direct_out {img file_name file : List Nat} {now c slot : Nat}
    {out : List Nat} (h : Inserted img file_name file now c slot out) :
    (image_inode out 0).direct.getD 0 0 = (image_sb img).data_region_start := by
  have V := h.valid
  have h3 := V.data_region_start
  have h4 := V.inode_table_blocks
  have h6 := V.inode_count_le
  rw [BS_eq, INODE_SIZE_eq] at h4
  rw [BS_eq] at h6
  rw [h.image_inode_out_root, getD_zero_load_bytes]
  show (image_inode img 0).direct.getD 0 0 % 2 ^ 32 = _
  rw [V.root_direct]
  exact Nat.mod_eq_of_lt (by omega)

theorem root_slot_eq {img : List Nat} (V : ValidImage img) (s : Nat) :
    root_slot img s =
      slice (image_block img (image_sb img).data_region_start) (s * DIRENT_SIZE) DIRENT_SIZE := by
  unfold root_slot
  rw [V.root_direct]

theorem Inserted.root_slot_out {img file_name file : List Nat} {now c slot : Nat}
    {out : List Nat} (h : Inserted img file_name file now c slot out) {s : Nat} (_hs : s < 64) :
    root_slot out s =
      if s = slot then (dirent_checksum_finalize (new_dirent c file_name)).bytes
      else root_slot img s := by
  have V := h.valid
  have hsl := h.slot_lt
  have hrb : (image_block img (image_sb img).data_region_start).length = BS :=
    length_image_block V (by have := V.total_blocks; have := V.data_region_pos; omega)
  have hin : slot * DIRENT_SIZE +
      (dirent_checksum_finalize (new_dirent c file_name)).bytes.length ≤
      (image_block img (image_sb img).data_region_start).length := by
    rw [hrb, dirent_length_bytes, DIRENT_SIZE_eq, BS_eq]; omega
  unfold root_slot
  rw [h.root_direct_out, h.root_block_out]
  by_cases e : s = slot
  · subst e
    rw [if_pos rfl]
    exact slice_pwrite_self_of_eq hin (by rw [dirent_length_bytes, DIRENT_SIZE_eq])
  · rw [if_neg e, slice_pwrite_disjoint hin (by
      rw [dirent_length_bytes, DIRENT_SIZE_eq]; omega), V.root_direct]

theorem Inserted.root_dirent_out {img file_name file : List Nat} {now c slot : Nat}
    {out : List Nat} (h : Inserted img file_name file now c slot out) {s : Nat} (hs : s < 64) :
    root_dirent out s =
      if s = slot then dirent_checksum_finalize (new_dirent c file_name)
      else root_dirent img s := by
  unfold root_dirent
  rw [h.root_slot_out hs]
  by_cases e : s = slot
  · rw [if_pos e, if_pos e]
    have := dirent_load_bytes_of_fits (new_dirent_fits c file_name) []
    rwa [List.append_nil] at this
  · rw [if_neg e, if_neg e]

theorem Inserted.slot_free {img file_name file : List Nat} {now c slot : Nat}
    {out : List Nat} (h : Inserted img file_name file now c slot out) :
    (root_dirent img slot).inode_no = 0 ∧
      ∀ s, s < slot → (root_dirent img s).inode_no ≠ 0 := by
  obtain ⟨-, -, h3, h4⟩ := find_slot_eq_some h.slot_eq
  unfold root_dirent
  refine ⟨?_, ?_⟩
  · rw [root_slot_eq h.valid]
    exact h3
  · intro s hs
    rw [root_slot_eq h.valid]
    exact h4 s (by omega) hs

theorem Inserted.used_slots_out {img file_name file : List Nat} {now c slot : Nat}
    {out : List Nat} (h : Inserted img file_name file now c slot out) :
    used_slots out = used_slots img + 1 ∧ used_slots img < 64 := by
  have hsl := h.slot_lt
  obtain ⟨hc1, hc2, -⟩ := h.chosen_pos
  have hic := h.valid.inode_count_le
  rw [BS_eq] at hic
  have hnz : (dirent_checksum_finalize (new_dirent c file_name)).inode_no ≠ 0 := by
    show (c + 1) % 2 ^ 32 ≠ 0
    rw [Nat.mod_eq_of_lt (by omega)]
    omega
  have e64 : BS / DIRENT_SIZE = 64 := by rw [BS_eq, DIRENT_SIZE_eq]
  unfold used_slots
  rw [e64]
  have key := length_filter_range_update
    (fun s => decide ((root_dirent img s).inode_no ≠ 0))
    (fun s => decide ((root_dirent out s).inode_no ≠ 0)) slot 64 hsl
    (by simp [h.slot_free.1])
    (by
      beta_reduce
      rw [h.root_dirent_out hsl, if_pos rfl]
      simp [hnz])
    (by
      intro i h64 hi
      beta_reduce
      rw [h.root_dirent_out h64, if_neg hi])
  refine ⟨key, ?_⟩
  have hle := List.length_filter_le (fun s => decide ((root_dirent out s).inode_no ≠ 0))
    (List.range 64)
  rw [List.length_range] at hle
  omega

end Mkfs_adder

theorem inode_load_bytes_eq (ino : inode_t) :
    inode_t.load ino.bytes =
      { mode := ino.mode % 2 ^ 16
        links := ino.links % 2 ^ 16
        uid := ino.uid % 2 ^ 32
        gid := ino.gid % 2 ^ 32
        size_bytes := ino.size_bytes % 2 ^ 64
        atime := ino.atime % 2 ^ 64
        mtime := ino.mtime % 2 ^ 64
        ctime := ino.ctime % 2 ^ 64
        direct := (fixlen 12 ino.direct).map (fun w => w % 2 ^ 32)
        reserved_0 := ino.reserved_0 % 2 ^ 32
        reserved_1 := ino.reserved_1 % 2 ^ 32
        reserved_2 := ino.reserved_2 % 2 ^ 32
        proj_id := ino.proj_id % 2 ^ 32
        uid16_gid16 := ino.uid16_gid16 % 2 ^ 32
        xattr_ptr := ino.xattr_ptr % 2 ^ 64
        inode_crc := ino.inode_crc % 2 ^ 64 } := by
  have := inode_load_bytes_append ino []
  rwa [List.append_nil] at this

namespace Mkfs_adder

theorem Inserted.root_links_out {img file_name file : List Nat} {now c slot : Nat}
    {out : List Nat} (h : Inserted img file_name file now c slot out) :
    (image_inode out 0).links = (image_inode img 0).links + 1 ∧
      (image_inode out 0).size_bytes = (image_inode img 0).size_bytes + 64 := by
  have V := h.valid
  obtain ⟨-, hu⟩ := h.used_slots_out
  have hl := V.root_links
  have hs := V.root_size
  rw [DIRENT_SIZE_eq] at hs
  rw [h.image_inode_out_root, inode_load_bytes_eq]
  constructor
  · show ((image_inode img 0).links + 1) % 2 ^ 16 % 2 ^ 16 = _
    omega
  · show ((image_inode img 0).size_bytes + DIRENT_SIZE) % 2 ^ 64 % 2 ^ 64 = _
    rw [DIRENT_SIZE_eq]
    omega

theorem Inserted.valid_out {img file_name file : List Nat} {now c slot : Nat}
    {out : List Nat} (h : Inserted img file_name file now c slot out) : ValidImage out := by
  have V := h.valid
  obtain ⟨hc1, -, -⟩ := h.chosen_pos
  obtain ⟨hu, -⟩ := h.used_slots_out
  obtain ⟨hl, hs⟩ := h.root_links_out
  constructor
  · rw [h.length_out, h.image_sb_out]; exact V.length_eq
  · rw [h.image_sb_out]; exact V.inode_bitmap_start
  · rw [h.image_sb_out]; exact V.inode_bitmap_blocks
  · rw [h.image_sb_out]; exact V.data_bitmap_start
  · rw [h.image_sb_out]; exact V.data_bitmap_blocks
  · rw [h.image_sb_out]; exact V.inode_table_start
  · rw [h.image_sb_out]; exact V.inode_table_blocks
  · rw [h.image_sb_out]; exact V.data_region_start
  · rw [h.image_sb_out]; exact V.total_blocks
  · rw [h.image_sb_out]; exact V.inode_count_pos
  · rw [h.image_sb_out]; exact V.inode_count_le
  · rw [h.image_sb_out]; exact V.data_region_pos
  · rw [h.image_sb_out]; exact V.data_region_le
  · rw [h.inode_bitmap_out, get_bit_set_bit_ne _ (by omega)]
    exact V.root_inode_used
  · rw [h.data_bitmap_out, get_bit_foldl_set_bit_of_not_mem]
    · exact V.root_block_used
    · intro hm
      have := (mem_chosen_blocks V hm).1
      omega
  · rw [h.root_direct_out, h.image_sb_out]
  · rw [hl, hu, V.root_links]
  · rw [hs, hu, V.root_size, DIRENT_SIZE_eq]
    ring

end Mkfs_adder

namespace Mkfs_adder

theorem exists_inserted {img : List Nat} (V : ValidImage img) (file_name file : List Nat)
    (now : Nat)
    (hino : ∃ i, i < (image_sb img).inode_count ∧ get_bit (inode_bitmap img) i = 0)
    (hslot : ∃ s, s < 64 ∧ (root_dirent img s).inode_no = 0)
    (hblk : (file.length + 4095) / 4096 ≤
      free_bits (data_bitmap img) (image_sb img).data_region_blocks)
    (hle : file.length ≤ 49152) :
    ∃ c slot out, Inserted img file_name file now c slot out := by
  obtain ⟨i, hi, hbit⟩ := hino
  obtain ⟨c, hc⟩ := pick_inode_isSome (n := (image_sb img).inode_count) (i := 0)
    (Nat.zero_le i) (by omega) hbit
  obtain ⟨s, hs, hfree⟩ := hslot
  have hfree' : (dirent64_t.load (slice (image_block img (image_sb img).data_region_start)
      (s * DIRENT_SIZE) DIRENT_SIZE)).inode_no = 0 := by
    rw [← root_slot_eq V]
    exact hfree
  obtain ⟨slot, hslot⟩ := find_slot_isSome (n := BS / DIRENT_SIZE) (s := 0)
    (Nat.zero_le s) (by rw [BS_eq, DIRENT_SIZE_eq]; omega) hfree'
  have hreq : (file.length + BS - 1) % 2 ^ 64 / BS = (file.length + 4095) / 4096 := by
    rw [BS_eq]; omega
  refine ⟨c, slot, _, V, hc, ?_, ?_, hslot, rfl⟩
  · rw [hreq]; omega
  · unfold chosen_blocks
    rw [length_picks_zero, hreq, Nat.min_eq_left hblk, BS_eq]
    omega

end Mkfs_adder

theorem join_chunks_prefix (file : List Nat) (m : Nat) (h : m * BS ≤ file.length) :
    ((List.range m).map
      (fun i => pwrite (List.replicate BS 0) 0 (slice file (i * BS) BS))).flatten =
      slice file 0 (m * BS) := by
  induction m with
  | zero => simp [slice]
  | succ m ih =>
    have h1 : (m + 1) * BS = m * BS + BS := by ring
    rw [h1] at h
    have hl : (slice file (m * BS) BS).length = BS := length_slice_of_le h
    rw [List.range_succ, List.map_append, List.flatten_append, ih (by omega), h1, slice_concat,
      Nat.zero_add]
    simp only [List.map_cons, List.map_nil, List.flatten_cons, List.flatten_nil, List.append_nil]
    rw [pwrite_zero_front, hl, List.drop_replicate, Nat.sub_self]
    simp

theorem join_chunks (file : List Nat) (k : Nat) (h1 : file.length ≤ k * BS)
    (h2 : (k - 1) * BS < file.length) :
    ((List.range k).map
      (fun i => pwrite (List.replicate BS 0) 0 (slice file (i * BS) BS))).flatten =
      file ++ List.replicate (k * BS - file.length) 0 := by
  obtain ⟨m, hm⟩ : ∃ m, k = m + 1 := ⟨k - 1, by
    rcases k with _ | k
    · rw [Nat.zero_mul] at h1
      omega
    · simp⟩
  subst hm
  rw [Nat.add_sub_cancel] at h2
  have e1 : (m + 1) * BS = m * BS + BS := by ring
  rw [e1] at h1
  rw [List.range_succ, List.map_append, List.flatten_append, join_chunks_prefix file m (by omega)]
  simp only [List.map_cons, List.map_nil, List.flatten_cons, List.flatten_nil, List.append_nil]
  have hl : (slice file (m * BS) BS).length = file.length - m * BS := by
    rw [length_slice]; omega
  rw [pwrite_zero_front, hl, List.drop_replicate, ← List.append_assoc]
  have e2 : slice file 0 (m * BS) ++ slice file (m * BS) BS = file := by
    have := slice_concat file 0 (m * BS) BS
    rw [Nat.zero_add] at this
    rw [← this]
    unfold slice
    rw [List.drop_zero, List.take_of_length_le (by omega)]
  have e3 : BS - (file.length - m * BS) = (m + 1) * BS - file.length := by
    rw [e1]; omega
  rw [e2, e3]

namespace Mkfs_adder

theorem Inserted.image_inode_out_new {img file_name file : List Nat} {now c slot : Nat}
    {out : List Nat} (h : Inserted img file_name file now c slot out) :
    image_inode out c = final_inode img file.length now := by
  unfold image_inode
  rw [h.inode_slot_out_new]
  have := inode_load_bytes_of_fits (final_inode_fits img file.length now) []
  rwa [List.append_nil] at this

theorem Inserted.final_direct {img file_name file : List Nat} {now c slot : Nat}
    {out : List Nat} (h : Inserted img file_name file now c slot out) :
    (final_inode img file.length now).direct =
      (chosen_blocks img file.length).map (fun j => (image_sb img).data_region_start + j) ++
        List.replicate (12 - (chosen_blocks img file.length).length) 0 := by
  have V := h.valid
  obtain ⟨hk, hk12, -⟩ := h.length_chosen
  show fill_direct (image_sb img) (List.replicate 12 0) 0 (chosen_blocks img file.length) = _
  rw [fill_direct_zero _ _ _ (by omega)]
  congr 1
  apply List.map_congr_left
  intro j hj
  have := (mem_chosen_blocks V hj).2.1
  have h3 := V.data_region_start
  have h4 := V.inode_table_blocks
  have h5 := V.data_region_le
  have h6 := V.inode_count_le
  rw [BS_eq, INODE_SIZE_eq] at h4
  rw [BS_eq] at h5 h6
  omega

theorem Inserted.chosen_div {img file_name file : List Nat} {now c slot : Nat}
    {out : List Nat} (h : Inserted img file_name file now c slot out) :
    ∀ j ∈ chosen_blocks img file.length, j / 8 < (data_bitmap img).length := by
  intro j hj
  have V := h.valid
  have := (mem_chosen_blocks V hj).2.1
  have h5 := V.data_region_le
  rw [length_data_bitmap V]
  omega

theorem Inserted.new_data_bits {img file_name file : List Nat} {now c slot : Nat}
    {out : List Nat} (h : Inserted img file_name file now c slot out) {n : Nat}
    (hn : (image_sb img).data_region_blocks ≤ n) :
    (List.range n).filter
      (fun j => decide (get_bit (data_bitmap img) j = 0 ∧ get_bit (data_bitmap out) j = 1)) =
      chosen_blocks img file.length := by
  have V := h.valid
  have e : (List.range n).filter
      (fun j => decide (get_bit (data_bitmap img) j = 0 ∧ get_bit (data_bitmap out) j = 1)) =
      (List.range n).filter (fun j => decide (j ∈ chosen_blocks img file.length)) := by
    apply List.filter_congr
    intro j _
    rw [h.data_bitmap_out, get_bit_foldl_set_bit _ _ h.chosen_div]
    by_cases hj : j ∈ chosen_blocks img file.length
    · have := (mem_chosen_blocks V hj).2.2
      simp [hj, this]
    · simp only [hj, if_false, decide_False, decide_eq_false_iff_not, not_and]
      intro h0 h1
      rw [h0] at h1
      exact absurd h1 (by decide)
  rw [e]
  apply filter_mem_range_eq _ _ (pairwise_picks _ _ _ _ _)
  intro j hj
  have := (mem_chosen_blocks V hj).2.1
  omega

theorem Inserted.new_inode_bits {img file_name file : List Nat} {now c slot : Nat}
    {out : List Nat} (h : Inserted img file_name file now c slot out) {n : Nat}
    (hn : (image_sb img).inode_count ≤ n) :
    (List.range n).filter
      (fun i => decide (get_bit (inode_bitmap img) i = 0 ∧ get_bit (inode_bitmap out) i = 1)) =
      [c] := by
  have V := h.valid
  obtain ⟨hc1, hc2, hc3⟩ := h.chosen_pos
  have hic := V.inode_count_le
  have hdiv : c / 8 < (inode_bitmap img).length := by
    rw [length_inode_bitmap V]; omega
  have e : (List.range n).filter
      (fun i => decide (get_bit (inode_bitmap img) i = 0 ∧ get_bit (inode_bitmap out) i = 1)) =
      (List.range n).filter (fun i => decide (i ∈ [c])) := by
    apply List.filter_congr
    intro j _
    rw [h.inode_bitmap_out, get_bit_set_bit _ hdiv]
    by_cases hj : j = c
    · subst hj
      simp [hc3]
    · simp only [hj, if_false, List.mem_singleton, decide_False, decide_eq_false_iff_not,
        not_and]
      intro h0 h1
      rw [h0] at h1
      exact absurd h1 (by decide)
  rw [e]
  apply filter_mem_range_eq _ _ (List.pairwise_singleton _ _)
  intro j hj
  rw [List.mem_singleton] at hj
  omega

end Mkfs_adder

namespace Mkfs_adder

theorem Inserted.blocks_out {img file_name file : List Nat} {now c slot : Nat}
    {out : List Nat} (h : Inserted img file_name file now c slot out) :
    ((chosen_blocks img file.length).map
      (fun j => (image_sb img).data_region_start + j)).map (image_block out) =
      (List.range (chosen_blocks img file.length).length).map
        (fun i => pwrite (List.replicate BS 0) 0 (slice file (i * BS) BS)) := by
  apply List.ext_getElem?
  intro i
  rw [List.getElem?_map, List.getElem?_map, List.getElem?_map]
  by_cases hi : i < (chosen_blocks img file.length).length
  · obtain ⟨j, hj⟩ : ∃ j, (chosen_blocks img file.length)[i]? = some j :=
      ⟨_, List.getElem?_eq_getElem hi⟩
    rw [List.getElem?_range hi, hj]
    simp only [Option.map_some']
    exact congrArg some (h.block_out_new hj)
  · rw [List.getElem?_eq_none (Nat.le_of_not_lt hi),
      List.getElem?_eq_none (by rw [List.length_range]; exact Nat.le_of_not_lt hi)]
    simp only [Option.map_none']

theorem Inserted.direct_take {img file_name file : List Nat} {now c slot : Nat}
    {out : List Nat} (h : Inserted img file_name file now c slot out) :
    (image_inode out c).direct.take ((file.length + 4095) / 4096) =
      (chosen_blocks img file.length).map (fun j => (image_sb img).data_region_start + j) := by
  rw [h.image_inode_out_new, h.final_direct]
  exact List.take_left' (by rw [List.length_map, h.length_chosen.1])

end Mkfs_adder

theorem free_bits_cons_replicate (n m : Nat) :
    free_bits (1 :: List.replicate n 0) (m + 1) = m := by
  unfold free_bits
  induction m with
  | zero =>
    simp [get_bit_cons_replicate]
  | succ m ih =>
    rw [List.range_succ, List.filter_append, List.length_append, ih]
    simp [get_bit_cons_replicate]

theorem built_free_inode (s n t_sb t_ino : Nat) (hs : s ≤ 4096) (hn : 128 ≤ n)
    (hn' : n ≤ 512) :
    ∃ i, i < (image_sb (built_image s n t_sb t_ino)).inode_count ∧
      get_bit (inode_bitmap (built_image s n t_sb t_ino)) i = 0 := by
  refine ⟨1, ?_, ?_⟩
  · rw [image_sb_built s n t_sb t_ino hs hn']
    show 1 < n
    omega
  · rw [inode_bitmap_built s n t_sb t_ino hs hn hn', get_bit_cons_replicate]
    rfl

theorem built_free_slot (s n t_sb t_ino : Nat) (hs : 180 ≤ s) (hs' : s ≤ 4096)
    (hn : 128 ≤ n) (hn' : n ≤ 512) :
    ∃ k, k < 64 ∧ (root_dirent (built_image s n t_sb t_ino) k).inode_no = 0 := by
  refine ⟨2, by omega, ?_⟩
  rw [root_dirent_inode_no_built s n t_sb t_ino hs hs' hn hn' 2 (by omega)]
  rfl

theorem built_free_blocks (s n t_sb t_ino : Nat) (hs : 180 ≤ s) (hs' : s ≤ 4096)
    (hn : 128 ≤ n) (hn' : n ≤ 512) :
    free_bits (data_bitmap (built_image s n t_sb t_ino))
      (image_sb (built_image s n t_sb t_ino)).data_region_blocks =
      s / 4 - 3 - (n * 128 + 4095) / 4096 - 1 := by
  rw [data_bitmap_built s n t_sb t_ino hs' hn hn', image_sb_built s n t_sb t_ino hs' hn']
  show free_bits _ (s / 4 - 3 - (n * 128 + 4095) / 4096) = _
  obtain ⟨m, hm⟩ : ∃ m, s / 4 - 3 - (n * 128 + 4095) / 4096 = m + 1 :=
    ⟨s / 4 - 3 - (n * 128 + 4095) / 4096 - 1, by omega⟩
  rw [hm, free_bits_cons_replicate]
  omega

theorem mem_le_bytes_lt {n x b : Nat} (h : b ∈ le_bytes n x) : b < 256 := by
  induction n generalizing x with
  | zero => cases h
  | succ n ih =>
    rw [le_bytes] at h
    rcases List.mem_cons.mp h with e | e
    · rw [e]
      exact Nat.mod_lt _ (by norm_num)
    · exact ih e

theorem mem_fixlen {n : Nat} {xs : List Nat} {b : Nat} (h : b ∈ fixlen n xs) :
    b ∈ xs ∨ b = 0 := by
  unfold fixlen at h
  rcases List.mem_append.mp h with e | e
  · exact Or.inl (List.mem_of_mem_take e)
  · exact Or.inr (List.eq_of_mem_replicate e)

theorem dirent_bytes_take (d : dirent64_t) (c : Nat) :
    ({ d with checksum := c } : dirent64_t).bytes.take 63 = d.bytes.take 63 := by
  simp [dirent64_t.bytes, List.take_append_eq_append_take, length_le_bytes, length_fixlen]

theorem dirent_bytes_take_eq (d : dirent64_t) :
    d.bytes.take 63 = le_bytes 4 d.inode_no ++ (le_bytes 1 d.type ++ fixlen 58 d.name) := by
  have h : d.bytes = (le_bytes 4 d.inode_no ++ (le_bytes 1 d.type ++ fixlen 58 d.name)) ++
      le_bytes 1 d.checksum := by
    simp [dirent64_t.bytes]
  rw [h]
  exact List.take_left' (by simp [length_le_bytes, length_fixlen])

theorem dirent_bytes_getD_last (d : dirent64_t) : d.bytes.getD 63 0 = d.checksum % 256 := by
  have h : d.bytes = (le_bytes 4 d.inode_no ++ (le_bytes 1 d.type ++ fixlen 58 d.name)) ++
      le_bytes 1 d.checksum := by
    simp [dirent64_t.bytes]
  have hl : (le_bytes 4 d.inode_no ++ (le_bytes 1 d.type ++ fixlen 58 d.name)).length = 63 := by
    simp [length_le_bytes, length_fixlen]
  rw [h, List.getD_eq_getElem?_getD, List.getElem?_append_right (by rw [hl]), hl]
  rfl

theorem dirent_checksum_is_xor (d : dirent64_t) (h : ∀ b ∈ d.name, b < 256) :
    (dirent_checksum_finalize d).bytes.getD 63 0 =
      xor_bytes ((dirent_checksum_finalize d).bytes.take 63) := by
  have hb : ∀ b ∈ d.bytes.take 63, b < 256 := by
    intro b hb
    rw [dirent_bytes_take_eq] at hb
    rcases List.mem_append.mp hb with e | e
    · exact mem_le_bytes_lt e
    · rcases List.mem_append.mp e with e | e
      · exact mem_le_bytes_lt e
      · rcases mem_fixlen e with e | e
        · exact h b e
        · rw [e]; norm_num
  obtain ⟨h1, h2⟩ := xor_fold_mod_eq (d.bytes.take 63) hb 0 (by norm_num)
  rw [dirent_bytes_getD_last]
  unfold dirent_checksum_finalize xor_bytes
  simp only [dirent_bytes_take]
  rw [h1, Nat.mod_eq_of_lt h2]

theorem strncpy_terminated (src : List Nat) :
    strncpy src 57 ++ [0] = src.take 57 ++ List.replicate (58 - (src.take 57).length) 0 := by
  unfold strncpy
  rw [List.append_assoc, List.length_take]
  have e : List.replicate (57 - src.length) 0 ++ [0] =
      List.replicate (58 - min 57 src.length) 0 := by
    have : [0] = List.replicate 1 0 := rfl
    rw [this, List.append_replicate_replicate]
    have e2 : 57 - src.length + 1 = 58 - min 57 src.length := by omega
    rw [e2]
  rw [e]

namespace Mkfs_adder

theorem exit_ok_of_resources {img : List Nat} (V : ValidImage img) (file_name file : List Nat)
    (now : Nat)
    (hino : ∃ i, i < (image_sb img).inode_count ∧ get_bit (inode_bitmap img) i = 0)
    (hslot : ∃ s, s < 64 ∧ (root_dirent img s).inode_no = 0)
    (hblk : (file.length + 4095) / 4096 ≤
      free_bits (data_bitmap img) (image_sb img).data_region_blocks)
    (hle : file.length ≤ 49152) :
    (main img file_name file now).exit = .ok := by
  obtain ⟨c, slot, out, h⟩ := exists_inserted V file_name file now hino hslot hblk hle
  rw [main_of_inserted h]

theorem built_insert_ok (s n t_sb t_ino : Nat) (hs : 180 ≤ s) (hs' : s ≤ 4096)
    (hn : 128 ≤ n) (hn' : n ≤ 512) (file_name file : List Nat) (now : Nat)
    (hle : file.length ≤ 49152) :
    (main (built_image s n t_sb t_ino) file_name file now).exit = .ok := by
  apply exit_ok_of_resources (valid_built s n t_sb t_ino hs hs' hn hn') file_name file now
    (built_free_inode s n t_sb t_ino hs' hn hn') (built_free_slot s n t_sb t_ino hs hs' hn hn')
    _ hle
  rw [built_free_blocks s n t_sb t_ino hs hs' hn hn']
  omega

end Mkfs_adder

theorem inserted_root_crc_out {img file_name file : List Nat} {now c slot : Nat}
    {out : List Nat} (h : Mkfs_adder.Inserted img file_name file now c slot out) :
    (image_inode out 0).inode_crc = crc32 ((inode_slot out 0).take 120) := by
  rw [h.image_inode_out_root, h.inode_slot_out_root, inode_load_bytes_eq]
  show (Mkfs_adder.final_root img).inode_crc % 2 ^ 64 = _
  unfold Mkfs_adder.final_root
  rw [← inode_crc_finalize_checksum, inode_crc_finalize_crc]
  exact Nat.mod_eq_of_lt (lt_of_lt_of_le (crc32_lt _) (by norm_num))

theorem picks_of_full (bm : List Nat) {r a : Nat} (n i : Nat) (h : r ≤ a) :
    picks bm r n i a = [] := by
  cases n with
  | zero => rfl
  | succ n => rw [picks, if_neg (by omega)]

theorem picks_first (bm : List Nat) {r n i a : Nat} (j0 : Nat) (h1 : i ≤ j0) (h2 : j0 < i + n)
    (h3 : get_bit bm j0 = 0) (h4 : ∀ j, i ≤ j → j < j0 → get_bit bm j ≠ 0) (ha : a < r) :
    picks bm r n i a = j0 :: picks bm r (i + n - j0 - 1) (j0 + 1) (a + 1) := by
  induction n generalizing i with
  | zero => omega
  | succ n ih =>
    rw [picks, if_pos ha]
    by_cases e : j0 = i
    · subst e
      rw [if_pos h3]
      have : j0 + (n + 1) - j0 - 1 = n := by omega
      rw [this]
    · rw [if_neg (h4 i (le_refl _) (by omega)),
        ih (by omega) (by omega) (fun j hj hjc => h4 j (by omega) hjc)]
      have : i + 1 + n - j0 - 1 = i + (n + 1) - j0 - 1 := by omega
      rw [this]

theorem free_bits_pos_of_clear {bm : List Nat} {n j : Nat} (h1 : j < n)
    (h2 : get_bit bm j = 0) : 1 ≤ free_bits bm n := by
  unfold free_bits
  apply List.length_pos_of_mem (a := j)
  rw [List.mem_filter]
  exact ⟨List.mem_range.mpr h1, by simpa using h2⟩

namespace Mkfs_adder

theorem filled_built (s n t_sb t_ino : Nat) (hs : 180 ≤ s) (hs' : s ≤ 4096)
    (hn : 128 ≤ n) (hn' : n ≤ 512) : Filled (built_image s n t_sb t_ino) 0 := by
  refine ⟨valid_built s n t_sb t_ino hs hs' hn hn', ?_, ?_, ?_⟩
  · intro i _
    rw [inode_bitmap_built s n t_sb t_ino hs' hn hn', get_bit_cons_replicate]
    by_cases h : i = 0
    · simp [h]
    · simp [h]
      omega
  · intro i _
    rw [data_bitmap_built s n t_sb t_ino hs' hn hn', get_bit_cons_replicate]
    by_cases h : i = 0
    · simp [h]
    · simp [h]
      omega
  · intro k hk
    rw [root_dirent_inode_no_built s n t_sb t_ino hs hs' hn hn' k hk]
    by_cases h : k < 2
    · simp [h]
    · simp [h]
      omega

theorem Filled.chosen_blocks_one {img : List Nat} {k : Nat} (F : Filled img k)
    (hk : k + 1 < (image_sb img).data_region_blocks) : chosen_blocks img 1 = [k + 1] := by
  have hreq : (1 + BS - 1) % 2 ^ 64 / BS = 1 := by rw [BS_eq]; norm_num
  unfold chosen_blocks
  rw [hreq, picks_first (data_bitmap img) (k + 1) (Nat.zero_le _) (by omega)
    ((F.blocks _ hk).mpr (by omega))
    (fun j _ hj => by
      intro h0
      have := (F.blocks j (by omega)).mp h0
      omega)
    (by omega), picks_of_full _ _ _ (by omega)]

theorem Filled.chosen_blocks_none {img : List Nat} {k : Nat} (F : Filled img k)
    (hk : (image_sb img).data_region_blocks ≤ k + 1) (file_sz : Nat) :
    chosen_blocks img file_sz = [] := by
  apply List.eq_nil_iff_forall_not_mem.mpr
  intro j hj
  obtain ⟨-, h2, h3⟩ := mem_picks hj
  have := (F.blocks j (by omega)).mp h3
  omega

theorem Filled.pick {img : List Nat} {k : Nat} (F : Filled img k)
    (hk : k + 1 < (image_sb img).inode_count) :
    pick_inode (inode_bitmap img) (image_sb img).inode_count 0 = some (k + 1) := by
  apply pick_inode_of_first (Nat.zero_le _) (by omega) ((F.inodes _ hk).mpr (by omega))
  intro j _ hj h0
  have := (F.inodes j (by omega)).mp h0
  omega

theorem Filled.slot {img : List Nat} {k : Nat} (F : Filled img k) (hk : k + 2 < 64) :
    find_slot (image_block img (image_sb img).data_region_start) (BS / DIRENT_SIZE) 0 =
      some (k + 2) := by
  have hs : ∀ s, (dirent64_t.load (slice (image_block img (image_sb img).data_region_start)
      (s * DIRENT_SIZE) DIRENT_SIZE)).inode_no = (root_dirent img s).inode_no := by
    intro s
    unfold root_dirent
    rw [root_slot_eq F.valid]
  apply find_slot_of_first (Nat.zero_le _) (by rw [BS_eq, DIRENT_SIZE_eq]; omega)
  · rw [hs]
    exact (F.slots _ hk).mpr (le_refl _)
  · intro j _ hj h0
    rw [hs] at h0
    have := (F.slots j (by omega)).mp h0
    omega

theorem Filled.no_slot {img : List Nat} {k : Nat} (F : Filled img k) (hk : 64 ≤ k + 2) :
    find_slot (image_block img (image_sb img).data_region_start) (BS / DIRENT_SIZE) 0 =
      none := by
  cases h : find_slot (image_block img (image_sb img).data_region_start)
      (BS / DIRENT_SIZE) 0 with
  | none => rfl
  | some c =>
    obtain ⟨-, h2, h3, -⟩ := find_slot_eq_some h
    rw [BS_eq, DIRENT_SIZE_eq] at h2
    have h3' : (root_dirent img c).inode_no = 0 := by
      unfold root_dirent
      rw [root_slot_eq F.valid]
      exact h3
    have := (F.slots c (by omega)).mp h3'
    omega

end Mkfs_adder

namespace Mkfs_adder

theorem Filled.inserted {img : List Nat} {k : Nat} (F : Filled img k)
    (file_name file : List Nat) (now : Nat) (hlen : file.length = 1)
    (hi : k + 1 < (image_sb img).inode_count) (hb : k + 1 < (image_sb img).data_region_blocks)
    (hs : k + 2 < 64) :
    Inserted img file_name file now (k + 1) (k + 2)
      (apply_writes img (all_writes img file_name file now (k + 1) (k + 2))) := by
  refine ⟨F.valid, F.pick hi, ?_, ?_, F.slot hs, rfl⟩
  · rw [hlen, BS_eq]
    norm_num
  · rw [hlen, F.chosen_blocks_one hb, BS_eq]
    simp

theorem Filled.step {img : List Nat} {k : Nat} (F : Filled img k)
    (file_name file : List Nat) (now : Nat) (hlen : file.length = 1)
    (hi : k + 1 < (image_sb img).inode_count) (hb : k + 1 < (image_sb img).data_region_blocks)
    (hs : k + 2 < 64) :
    ∃ out, main img file_name file now = ⟨.ok, some out⟩ ∧ Filled out (k + 1) ∧
      image_sb out = image_sb img := by
  have h := F.inserted file_name file now hlen hi hb hs
  have V := F.valid
  have hic := V.inode_count_le
  have hdb := V.data_region_le
  rw [BS_eq] at hic hdb
  refine ⟨_, main_of_inserted h, ⟨h.valid_out, ?_, ?_, ?_⟩, h.image_sb_out⟩
  · intro i hi'
    rw [h.image_sb_out] at hi'
    rw [h.inode_bitmap_out, get_bit_set_bit _ (by rw [length_inode_bitmap V, BS_eq]; omega)]
    by_cases e : i = k + 1
    · rw [if_pos e]
      constructor
      · intro h0; exact absurd h0 (by decide)
      · intro h0; omega
    · rw [if_neg e, F.inodes i hi']
      omega
  · intro j hj'
    rw [h.image_sb_out] at hj'
    rw [h.data_bitmap_out, hlen, F.chosen_blocks_one hb]
    show get_bit (set_bit (data_bitmap img) (k + 1)) j = 0 ↔ _
    rw [get_bit_set_bit _ (by rw [length_data_bitmap V, BS_eq]; omega)]
    by_cases e : j = k + 1
    · rw [if_pos e]
      constructor
      · intro h0; exact absurd h0 (by decide)
      · intro h0; omega
    · rw [if_neg e, F.blocks j hj']
      omega
  · intro s hs'
    rw [h.root_dirent_out hs']
    by_cases e : s = k + 2
    · rw [if_pos e]
      constructor
      · intro h0
        have h1 : (k + 1 + 1) % 2 ^ 32 = 0 := h0
        rw [Nat.mod_eq_of_lt (by omega)] at h1
        omega
      · intro h0; omega
    · rw [if_neg e, F.slots s hs']
      omega

theorem Filled.exit_no_blocks {img : List Nat} {k : Nat} (F : Filled img k)
    (file_name file : List Nat) (now : Nat) (hlen : file.length = 1)
    (hi : k + 1 < (image_sb img).inode_count)
    (hb : (image_sb img).data_region_blocks ≤ k + 1) :
    (main img file_name file now).exit = .not_enough_data_blocks := by
  rw [main_eq_main_valid F.valid]
  unfold main_valid
  rw [F.pick hi]
  simp only
  rw [if_neg (by rw [hlen, BS_eq]; norm_num), F.chosen_blocks_none hb,
    if_pos (by rw [hlen]; simp)]

theorem Filled.exit_no_slot {img : List Nat} {k : Nat} (F : Filled img k)
    (file_name file : List Nat) (now : Nat) (hlen : file.length = 1)
    (hi : k + 1 < (image_sb img).inode_count) (hb : k + 1 < (image_sb img).data_region_blocks)
    (hs : 64 ≤ k + 2) :
    (main img file_name file now).exit = .no_free_dirent_slot := by
  rw [main_eq_main_valid F.valid]
  unfold main_valid
  rw [F.pick hi]
  simp only
  rw [if_neg (by rw [hlen, BS_eq]; norm_num), hlen, F.chosen_blocks_one hb,
    if_neg (by rw [BS_eq]; simp), F.no_slot hs]

end Mkfs_adder

namespace Mkfs_adder

theorem add_seq_cons_ok {img file_name file : List Nat} {now : Nat} {out : List Nat}
    (h : main img file_name file now = ⟨.ok, some out⟩)
    (rest : List (List Nat × List Nat × Nat)) :
    add_seq img ((file_name, file, now) :: rest) =
      (.ok :: (add_seq out rest).1, (add_seq out rest).2) := by
  rw [add_seq, h]
  rfl

theorem add_seq_cons_fail {img file_name file : List Nat} {now : Nat}
    (h : (main img file_name file now).exit ≠ .ok)
    (rest : List (List Nat × List Nat × Nat)) :
    add_seq img ((file_name, file, now) :: rest) =
      ([(main img file_name file now).exit], img) := by
  rw [add_seq, if_neg h]

theorem add_seq_append_ok {img out : List Nat} {xs : List (List Nat × List Nat × Nat)}
    (h : add_seq img xs = (List.replicate xs.length .ok, out))
    (ys : List (List Nat × List Nat × Nat)) :
    add_seq img (xs ++ ys) =
      (List.replicate xs.length .ok ++ (add_seq out ys).1, (add_seq out ys).2) := by
  induction xs generalizing img with
  | nil =>
    rw [add_seq] at h
    cases h
    simp
  | cons x xs ih =>
    obtain ⟨file_name, file, now⟩ := x
    by_cases hok : (main img file_name file now).exit = .ok
    · rw [add_seq, if_pos hok] at h
      simp only [List.length_cons, List.replicate_succ, Prod.mk.injEq, List.cons.injEq,
        true_and] at h
      have h' : add_seq ((main img file_name file now).output.getD img) xs =
          (List.replicate xs.length .ok, out) := Prod.ext h.1 h.2
      rw [List.cons_append, add_seq, if_pos hok, ih h']
      simp [List.replicate_succ]
    · rw [add_seq_cons_fail hok] at h
      simp only [List.length_cons, List.replicate_succ, Prod.mk.injEq, List.cons.injEq] at h
      exact absurd h.1.1 hok

theorem Filled.add_seq_ok {img : List Nat} {k : Nat} (F : Filled img k)
    (reqs : List (List Nat × List Nat × Nat)) (h1 : ∀ r ∈ reqs, r.2.1.length = 1)
    (hi : k + reqs.length < (image_sb img).inode_count)
    (hb : k + reqs.length < (image_sb img).data_region_blocks)
    (hs : k + reqs.length + 1 < 64) :
    ∃ out, add_seq img reqs = (List.replicate reqs.length .ok, out) ∧
      Filled out (k + reqs.length) ∧ image_sb out = image_sb img := by
  induction reqs generalizing img k with
  | nil => exact ⟨img, rfl, F, rfl⟩
  | cons r reqs ih =>
    obtain ⟨file_name, file, now⟩ := r
    rw [List.length_cons] at hi hb hs
    have hlen : file.length = 1 := h1 _ (List.mem_cons_self _ _)
    obtain ⟨mid, hm, Fm, hsb⟩ := F.step file_name file now hlen (by omega) (by omega) (by omega)
    obtain ⟨out, ho, Fo, hsb'⟩ := ih Fm (fun r hr => h1 r (List.mem_cons_of_mem _ hr))
      (by rw [hsb]; omega) (by rw [hsb]; omega) (by omega)
    refine ⟨out, ?_, ?_, by rw [hsb', hsb]⟩
    · rw [add_seq_cons_ok hm, ho, List.length_cons, List.replicate_succ]
    · have e : k + (reqs.length + 1) = k + 1 + reqs.length := by omega
      rw [List.length_cons, e]
      exact Fo

end Mkfs_adder

namespace Mkfs_adder

theorem Filled.add_seq_until {img : List Nat} {k : Nat} (F : Filled img k)
    (reqs : List (List Nat × List Nat × Nat)) (m : Nat) (hm : m < reqs.length)
    (h1 : ∀ r ∈ reqs, r.2.1.length = 1)
    (hi : k + m + 1 < (image_sb img).inode_count)
    (hb : k + m < (image_sb img).data_region_blocks) (hs : k + m + 1 < 64)
    (hstop : (image_sb img).data_region_blocks ≤ k + m + 1 ∨ 64 ≤ k + m + 2) :
    ∃ out, Filled out (k + m) ∧ image_sb out = image_sb img ∧
      add_seq img reqs =
        (List.replicate m .ok ++
          [if (image_sb img).data_region_blocks ≤ k + m + 1 then .not_enough_data_blocks
            else .no_free_dirent_slot], out) := by
  have hsplit : reqs = reqs.take m ++ reqs.drop m := (List.take_append_drop m reqs).symm
  have hlt : (reqs.take m).length = m := by rw [List.length_take]; omega
  obtain ⟨out, ho, Fo, hsb⟩ := F.add_seq_ok (reqs.take m)
    (fun r hr => h1 r (List.mem_of_mem_take hr)) (by rw [hlt]; omega) (by rw [hlt]; omega)
    (by rw [hlt]; omega)
  rw [hlt] at ho Fo
  refine ⟨out, Fo, hsb, ?_⟩
  obtain ⟨r, rest, hr⟩ : ∃ r rest, reqs.drop m = r :: rest := by
    cases hd : reqs.drop m with
    | nil =>
      have := congrArg List.length hd
      rw [List.length_drop, List.length_nil] at this
      omega
    | cons r rest => exact ⟨r, rest, rfl⟩
  obtain ⟨file_name, file, now⟩ := r
  have hlen : file.length = 1 :=
    h1 (file_name, file, now) (List.mem_of_mem_drop (by rw [hr]; exact List.mem_cons_self _ _))
  have hlt' : List.replicate m Exit.ok = List.replicate (reqs.take m).length Exit.ok := by
    rw [hlt]
  rw [hlt'] at ho
  rw [hsplit, add_seq_append_ok ho, hr, hlt]
  by_cases hblk : (image_sb img).data_region_blocks ≤ k + m + 1
  · have he := Fo.exit_no_blocks file_name file now hlen (by rw [hsb]; omega)
      (by rw [hsb]; omega)
    rw [add_seq_cons_fail (by rw [he]; decide), he, if_pos hblk]
  · have he := Fo.exit_no_slot file_name file now hlen (by rw [hsb]; omega)
      (by rw [hsb]; omega) (by omega)
    rw [add_seq_cons_fail (by rw [he]; decide), he, if_neg hblk]

end Mkfs_adder

namespace Mkfs_builder

theorem main_ok_params {size_kib inodes : Int} {t_sb t_ino : Nat} {img : List Nat}
    (h : main size_kib inodes t_sb t_ino = .ok img) :
    180 ≤ size_kib ∧ size_kib ≤ 4096 ∧ size_kib % 4 = 0 ∧ 128 ≤ inodes ∧ inodes ≤ 512 := by
  by_cases c1 : size_kib < 180 ∨ size_kib > 4096 ∨ inodes < 128 ∨ inodes > 512
  · rw [main, if_pos c1] at h
    cases h
  · by_cases c2 : size_kib.tmod 4 ≠ 0
    · rw [main, if_neg c1, if_pos c2] at h
      cases h
    · have c3 : size_kib.tmod 4 = 0 := not_not.mp c2
      rw [Int.tmod_eq_emod (by omega) (by norm_num)] at c3
      omega

theorem main_ok_eq_built {size_kib inodes : Int} {t_sb t_ino : Nat} {img : List Nat}
    (h : main size_kib inodes t_sb t_ino = .ok img) :
    180 ≤ size_kib.toNat ∧ size_kib.toNat ≤ 4096 ∧ 128 ≤ inodes.toNat ∧
      inodes.toNat ≤ 512 ∧ img = built_image size_kib.toNat inodes.toNat t_sb t_ino := by
  obtain ⟨h1, h2, h3, h4, h5⟩ := main_ok_params h
  have e1 : ((size_kib.toNat : Nat) : Int) = size_kib := Int.toNat_of_nonneg (by omega)
  have e2 : ((inodes.toNat : Nat) : Int) = inodes := Int.toNat_of_nonneg (by omega)
  have hb := main_eq_built size_kib.toNat inodes.toNat t_sb t_ino (by omega) (by omega)
    (by omega) (by omega) (by omega)
  rw [e1, e2, h] at hb
  exact ⟨by omega, by omega, by omega, by omega, Except.ok.inj hb⟩

end Mkfs_builder

theorem valid_of_reachable {img : List Nat} (h : Reachable img) : ValidImage img := by
  induction h with
  | built size_kib inodes t_sb t_ino img hm =>
    obtain ⟨h1, h2, h3, h4, e⟩ := Mkfs_builder.main_ok_eq_built hm
    rw [e]
    exact valid_built _ _ _ _ h1 h2 h3 h4
  | added img file_name file now out _ hm ih =>
    have hok : (Mkfs_adder.main img file_name file now).exit = .ok := by rw [hm]
    obtain ⟨c, slot, out', ho, h⟩ := Mkfs_adder.inserted_of_ok ih hok
    rw [hm] at ho
    have e : out = out' := Option.some.inj ho
    rw [e]
    exact h.valid_out

theorem set_bit_eq (bm : List Nat) (idx : Nat) :
    set_bit bm idx = bm.set (idx / 8) ((bm.getD (idx / 8) 0 ||| 2 ^ (idx % 8)) % 256) := by
  have e1 : idx >>> 3 = idx / 8 := by rw [Nat.shiftRight_eq_div_pow]
  have e2 : idx &&& 7 = idx % 8 := Nat.and_pow_two_sub_one_eq_mod idx 3
  unfold set_bit
  rw [e1, e2, Nat.one_shiftLeft]

theorem or_pow_lt_256 {b k : Nat} (hb : b < 256) (hk : k < 8) : b ||| 2 ^ k < 256 := by
  have h1 : b < 2 ^ 8 := by omega
  have h2 : 2 ^ k < 2 ^ 8 := Nat.pow_lt_pow_right (by omega) hk
  have := Nat.or_lt_two_pow h1 h2
  omega

theorem set_bit_set_bit (bm : List Nat) (i : Nat) : set_bit (set_bit bm i) i = set_bit bm i := by
  rw [set_bit_eq (set_bit bm i) i, getD_set_bit, set_bit_eq bm i, List.set_set]
  by_cases h : i / 8 < bm.length
  · rw [if_pos ⟨rfl, h⟩]
    congr 1
    apply Nat.eq_of_testBit_eq
    intro m
    have e : (256 : Nat) = 2 ^ 8 := by norm_num
    rw [e]
    simp only [Nat.testBit_mod_two_pow, Nat.testBit_or, Nat.testBit_two_pow]
    by_cases hm : m < 8 <;> simp [hm]
  · rw [List.set_eq_of_length_le (by omega), List.set_eq_of_length_le (by omega)]

/-! ## The CRC-32 table against the bit-by-bit computation -/

theorem crc32_round_eq (c : Nat) :
    crc32_round c = (c >>> 1) ^^^ (if c.testBit 0 then 0xEDB88320 else 0) := by
  unfold crc32_round
  have e : (c &&& 1 ≠ 0) ↔ c.testBit 0 = true := by
    rw [Nat.and_one_is_mod, Nat.testBit_zero]
    rcases Nat.mod_two_eq_zero_or_one c with h | h <;> simp [h]
  by_cases h : c.testBit 0 = true
  · rw [if_pos (e.mpr h), if_pos h, Nat.xor_comm]
  · rw [if_neg (fun hh => h (e.mp hh)), if_neg h, Nat.xor_zero]

theorem spec_crc32_bit_eq (c : Nat) : spec_crc32_bit c = crc32_round c := by
  rw [crc32_round_eq]
  unfold spec_crc32_bit
  have e : c >>> 1 = c / 2 := by rw [Nat.shiftRight_eq_div_pow]
  rw [e]
  split
  · rfl
  · rw [Nat.xor_zero]

theorem testBit_crc32_round (c m : Nat) :
    (crc32_round c).testBit m =
      (c.testBit (m + 1) ^^ (c.testBit 0 && (0xEDB88320 : Nat).testBit m)) := by
  rw [crc32_round_eq, Nat.testBit_xor, Nat.testBit_shiftRight, Nat.add_comm 1 m]
  by_cases h : c.testBit 0 = true
  · rw [if_pos h, h, Bool.true_and]
  · rw [if_neg h, Bool.eq_false_iff.mpr h, Bool.false_and, Nat.zero_testBit]

theorem crc32_round_xor (a b : Nat) :
    crc32_round (a ^^^ b) = crc32_round a ^^^ crc32_round b := by
  apply Nat.eq_of_testBit_eq
  intro m
  rw [Nat.testBit_xor, testBit_crc32_round, testBit_crc32_round, testBit_crc32_round,
    Nat.testBit_xor, Nat.testBit_xor]
  generalize a.testBit (m + 1) = x1
  generalize b.testBit (m + 1) = x2
  generalize a.testBit 0 = x3
  generalize b.testBit 0 = x4
  generalize (0xEDB88320 : Nat).testBit m = x5
  cases x1 <;> cases x2 <;> cases x3 <;> cases x4 <;> cases x5 <;> rfl

theorem iterate_crc32_round_xor (k a b : Nat) :
    Nat.iterate crc32_round k (a ^^^ b) =
      Nat.iterate crc32_round k a ^^^ Nat.iterate crc32_round k b := by
  induction k generalizing a b with
  | zero => rfl
  | succ k ih => rw [Function.iterate_succ_apply, Function.iterate_succ_apply,
      Function.iterate_succ_apply, crc32_round_xor, ih]

theorem crc32_round_double (y : Nat) : crc32_round (2 * y) = y := by
  rw [crc32_round_eq]
  have h : (2 * y).testBit 0 = false := by
    rw [Nat.testBit_zero]
    simp
  rw [h]
  have e : (2 * y) >>> 1 = y := by
    rw [Nat.shiftRight_eq_div_pow]
    omega
  rw [e]
  simp

theorem iterate_crc32_round_shift (k y : Nat) :
    Nat.iterate crc32_round k (2 ^ k * y) = y := by
  induction k generalizing y with
  | zero => simp
  | succ k ih =>
    rw [Function.iterate_succ_apply, pow_succ, Nat.mul_comm (2 ^ k) 2, Nat.mul_assoc,
      crc32_round_double, ih]

theorem split_low_byte (x : Nat) : x = (x &&& 0xFF) ^^^ (2 ^ 8 * (x >>> 8)) := by
  apply Nat.eq_of_testBit_eq
  intro m
  have e : (0xFF : Nat) = 2 ^ 8 - 1 := by norm_num
  rw [Nat.testBit_xor, Nat.testBit_and, e, Nat.testBit_two_pow_sub_one, Nat.mul_comm,
    ← Nat.shiftLeft_eq, Nat.testBit_shiftLeft, Nat.testBit_shiftRight]
  by_cases h : m < 8
  · simp [h, Nat.not_le_of_lt h]
  · have : 8 + (m - 8) = m := by omega
    simp [h, this, Nat.le_of_not_lt h]

theorem CRC32_TAB_getD (i : Nat) (h : i < 256) :
    CRC32_TAB.getD i 0 = Nat.iterate crc32_round 8 i := by
  unfold CRC32_TAB crc32_init
  rw [List.getD_eq_getElem?_getD, List.getElem?_map, List.getElem?_range h]
  rfl

theorem crc32_table_step (c p : Nat) (hp : p < 256) :
    CRC32_TAB.getD ((c ^^^ p) &&& 0xFF) 0 ^^^ (c >>> 8) =
      Nat.iterate crc32_round 8 (c ^^^ p) := by
  have hlow : (c ^^^ p) &&& 0xFF < 256 := by
    have e : (0xFF : Nat) = 2 ^ 8 - 1 := by norm_num
    rw [e, Nat.and_pow_two_sub_one_eq_mod]
    exact Nat.mod_lt _ (by norm_num)
  have hp8 : p >>> 8 = 0 := by
    rw [Nat.shiftRight_eq_div_pow]
    exact Nat.div_eq_of_lt (by norm_num; exact hp)
  have hhigh : (c ^^^ p) >>> 8 = c >>> 8 := by
    apply Nat.eq_of_testBit_eq
    intro m
    rw [Nat.testBit_shiftRight, Nat.testBit_shiftRight, Nat.testBit_xor,
      ← Nat.testBit_shiftRight p, hp8]
    simp
  conv_rhs => rw [split_low_byte (c ^^^ p)]
  rw [iterate_crc32_round_xor, iterate_crc32_round_shift, CRC32_TAB_getD _ hlow, hhigh]

theorem iterate_spec_crc32_bit (k c : Nat) :
    Nat.iterate spec_crc32_bit k c = Nat.iterate crc32_round k c := by
  have e : spec_crc32_bit = crc32_round := funext spec_crc32_bit_eq
  rw [e]

theorem crc32_fold_eq_spec (data : List Nat) (h : ∀ b ∈ data, b < 256) (c : Nat) :
    data.foldl (fun c p => CRC32_TAB.getD ((c ^^^ p) &&& 0xFF) 0 ^^^ (c >>> 8)) c =
      data.foldl (fun c p => Nat.iterate spec_crc32_bit 8 (c ^^^ p)) c := by
  induction data generalizing c with
  | nil => rfl
  | cons p ps ih =>
    rw [List.foldl_cons, List.foldl_cons, crc32_table_step c p (h p (List.mem_cons_self _ _)),
      iterate_spec_crc32_bit]
    exact ih (fun b hb => h b (List.mem_cons_of_mem _ hb)) _

theorem crc32_eq_spec (data : List Nat) (h : ∀ b ∈ data, b < 256) :
    crc32 data = spec_crc32 data := by
  unfold crc32 spec_crc32
  rw [crc32_fold_eq_spec data h]

set_option maxRecDepth 100000 in
theorem crc32_check_value : crc32 [49, 50, 51, 52, 53, 54, 55, 56, 57] = 0xCBF43926 := by
  decide

theorem crc32_nil : crc32 [] = 0 := by
  decide

theorem crc32_copies_eq (data : List Nat) : Mkfs_adder.crc32 data = crc32 data := rfl

theorem length_CRC32_TAB : CRC32_TAB.length = 256 := by
  unfold CRC32_TAB crc32_init
  rw [List.length_map, List.length_range]

theorem required_blocks_eq {n : Nat} (h : n < 2 ^ 63) :
    (n + BS - 1) % 2 ^ 64 / BS = (n + 4095) / 4096 := by
  rw [BS_eq, Nat.mod_eq_of_lt (by omega)]
  have : n + 4096 - 1 = n + 4095 := by omega
  rw [this]

namespace Mkfs_adder

theorem length_chosen_blocks (img : List Nat) {n : Nat} (h : n < 2 ^ 63) :
    (chosen_blocks img n).length =
      min ((n + 4095) / 4096) (free_bits (data_bitmap img) (image_sb img).data_region_blocks) := by
  unfold chosen_blocks
  rw [length_picks_zero, required_blocks_eq h]

theorem exit_not_enough_iff {img : List Nat} (V : ValidImage img) (file_name file : List Nat)
    (now : Nat) (hsz : file.length < 2 ^ 63) :
    (main img file_name file now).exit = .not_enough_data_blocks ↔
      (∃ i, i < (image_sb img).inode_count ∧ get_bit (inode_bitmap img) i = 0) ∧
      (file.length + 4095) / 4096 ≤ 12 ∧
      free_bits (data_bitmap img) (image_sb img).data_region_blocks <
        (file.length + 4095) / 4096 := by
  have hlen := length_chosen_blocks img hsz
  rw [main_eq_main_valid V]
  unfold main_valid
  rw [required_blocks_eq hsz]
  cases hp : pick_inode (inode_bitmap img) (image_sb img).inode_count 0 with
  | none =>
    simp only
    constructor
    · intro h; cases h
    · rintro ⟨⟨i, hi, hbit⟩, -, -⟩
      exact absurd hbit (pick_inode_eq_none hp i (Nat.zero_le i) (by omega))
  | some c =>
    obtain ⟨-, hc, hbit, -⟩ := pick_inode_eq_some hp
    simp only
    by_cases h12 : (file.length + 4095) / 4096 > 12
    · rw [if_pos h12]
      constructor
      · intro h; cases h
      · rintro ⟨-, h, -⟩; omega
    · rw [if_neg h12]
      by_cases hne : (chosen_blocks img file.length).length * BS < file.length
      · rw [if_pos hne]
        refine ⟨fun _ => ⟨⟨c, by omega, hbit⟩, by omega, ?_⟩, fun _ => rfl⟩
        rw [BS_eq] at hne
        omega
      · rw [if_neg hne]
        rw [BS_eq] at hne
        have hfree : ¬ free_bits (data_bitmap img) (image_sb img).data_region_blocks <
            (file.length + 4095) / 4096 := by omega
        cases find_slot (image_block img (image_sb img).data_region_start) (BS / DIRENT_SIZE) 0 with
        | none =>
          simp only
          constructor
          · intro h; cases h
          · rintro ⟨-, -, h⟩; exact absurd h hfree
        | some slot =>
          simp only
          constructor
          · intro h; cases h
          · rintro ⟨-, -, h⟩; exact absurd h hfree

theorem alloc_loop_result (sb : superblock_t) (bm file : List Nat) (ino : inode_t)
    (fout : List Nat) (r n : Nat) :
    (alloc_loop sb r n 0
      { data_bm := bm, newino := ino, allocated := 0, remaining := file.length, fadd := file,
        fout := fout }).allocated = min r (free_bits bm n) ∧
    (alloc_loop sb r n 0
      { data_bm := bm, newino := ino, allocated := 0, remaining := file.length, fadd := file,
        fout := fout }).remaining = file.length - min r (free_bits bm n) * BS := by
  rw [alloc_loop_eq_foldl, foldl_alloc_step_allocated,
    (foldl_alloc_step_stream sb _ _ rfl).1]
  simp only [length_picks_zero, Nat.zero_add, and_self]

end Mkfs_adder

namespace Mkfs_adder

theorem chosen_blocks_eq_take_filter (img : List Nat) {n : Nat} (h : n < 2 ^ 63) :
    chosen_blocks img n =
      ((List.range (image_sb img).data_region_blocks).filter
        (fun j => get_bit (data_bitmap img) j = 0)).take ((n + 4095) / 4096) := by
  unfold chosen_blocks
  rw [picks_eq_take_filter, required_blocks_eq h, Nat.sub_zero, List.range_eq_range']

theorem pairwise_chosen_blocks (img : List Nat) (n : Nat) :
    (chosen_blocks img n).Pairwise (· < ·) :=
  pairwise_picks _ _ _ _ _

end Mkfs_adder

theorem getElem?_eq_of_slice_eq {f g : List Nat} {p : Nat} (h : slice f p 1 = slice g p 1) :
    f[p]? = g[p]? := by
  have e := congrArg (fun l => l[0]?) h
  simp only [getElem?_slice, Nat.lt_one_iff, if_true, Nat.add_zero] at e
  exact e

namespace Mkfs_adder

theorem mem_chosen_blocks_iff_bits {img file_name file : List Nat} {now c slot : Nat}
    {out : List Nat} (h : Inserted img file_name file now c slot out) (j : Nat) :
    j ∈ chosen_blocks img file.length ↔
      (get_bit (data_bitmap img) j = 0 ∧ get_bit (data_bitmap out) j = 1) := by
  rw [h.data_bitmap_out, get_bit_foldl_set_bit _ _ h.chosen_div]
  constructor
  · intro hj
    exact ⟨(mem_chosen_blocks h.valid hj).2.2, by rw [if_pos hj]⟩
  · rintro ⟨h0, h1⟩
    by_contra hj
    rw [if_neg hj, h0] at h1
    exact absurd h1 (by decide)

theorem Inserted.getElem?_out {img file_name file : List Nat} {now c slot : Nat}
    {out : List Nat} (h : Inserted img file_name file now c slot out) (p : Nat)
    (h1 : ¬ (BS ≤ p ∧ p < 3 * BS))
    (h2 : ¬ (3 * BS + c * 128 ≤ p ∧ p < 3 * BS + c * 128 + 128))
    (h3 : ¬ (3 * BS ≤ p ∧ p < 3 * BS + 128))
    (h4 : ¬ ((image_sb img).data_region_start * BS + slot * 64 ≤ p ∧
      p < (image_sb img).data_region_start * BS + slot * 64 + 64))
    (h5 : ∀ j ∈ chosen_blocks img file.length,
      ¬ (((image_sb img).data_region_start + j) * BS ≤ p ∧
        p < ((image_sb img).data_region_start + j) * BS + BS)) :
    out[p]? = img[p]? := by
  have V := h.valid
  have hsl := h.slot_lt
  by_cases hr : (image_sb img).data_region_start * BS ≤ p ∧
      p < (image_sb img).data_region_start * BS + BS
  · have hb := h.root_block_out
    have hdl : (image_sb img).data_region_start < (image_sb img).total_blocks := by
      have := V.total_blocks
      have := V.data_region_pos
      omega
    have hl := length_image_block V hdl
    have e := congrArg (fun l => l[p - (image_sb img).data_region_start * BS]?) hb
    simp only at e
    rw [getElem?_pwrite (by rw [dirent_length_bytes, hl, DIRENT_SIZE_eq, BS_eq]; omega),
      dirent_length_bytes, DIRENT_SIZE_eq, if_neg (by omega)] at e
    unfold image_block at e
    rw [getElem?_slice, getElem?_slice, if_pos (by omega), if_pos (by omega),
      Nat.add_sub_cancel' hr.1] at e
    exact e
  · apply getElem?_eq_of_slice_eq
    apply h.slice_out_of_disjoint
    intro w hw
    rcases h.mem_all_writes hw with ⟨j, hj, e, l⟩ | ⟨e, l⟩ | ⟨e, l⟩ | ⟨e, l⟩ | ⟨e, l⟩ | ⟨e, l⟩
    · have := h5 j hj
      rw [e, l]
      omega
    all_goals
      rw [e, l]
      rw [BS_eq] at *
      omega

end Mkfs_adder

namespace Mkfs_adder

theorem unlinked_of_exit {img : List Nat} (V : ValidImage img) {file_name file : List Nat}
    {now : Nat} (h : (main img file_name file now).exit = .no_free_dirent_slot) :
    ∃ c out, main img file_name file now = ⟨.no_free_dirent_slot, some out⟩ ∧
      Unlinked img file now c out := by
  rw [main_eq_main_valid V] at h ⊢
  unfold main_valid at h ⊢
  cases hp : pick_inode (inode_bitmap img) (image_sb img).inode_count 0 with
  | none => rw [hp] at h; cases h
  | some c =>
    rw [hp] at h
    simp only at h ⊢
    by_cases hreq : (file.length + BS - 1) % 2 ^ 64 / BS > 12
    · rw [if_pos hreq] at h; cases h
    · rw [if_neg hreq] at h ⊢
      by_cases hne : (chosen_blocks img file.length).length * BS < file.length
      · rw [if_pos hne] at h; cases h
      · rw [if_neg hne] at h ⊢
        cases hs : find_slot (image_block img (image_sb img).data_region_start)
            (BS / DIRENT_SIZE) 0 with
        | some slot => rw [hs] at h; cases h
        | none =>
          exact ⟨c, _, rfl, V, hp, by omega, by omega, hs, rfl⟩

theorem Unlinked.inode_pos {img file : List Nat} {now c : Nat} {out : List Nat}
    (h : Unlinked img file now c out) :
    1 ≤ c ∧ c < (image_sb img).inode_count ∧ get_bit (inode_bitmap img) c = 0 := by
  obtain ⟨-, hc2, hc3, -⟩ := pick_inode_eq_some h.pick
  refine ⟨?_, by omega, hc3⟩
  by_contra hc
  have : c = 0 := by omega
  rw [this, h.valid.root_inode_used] at hc3
  exact absurd hc3 (by decide)

theorem Unlinked.blocks_count {img file : List Nat} {now c : Nat} {out : List Nat}
    (h : Unlinked img file now c out) :
    (chosen_blocks img file.length).length = (file.length + 4095) / 4096 ∧
      (file.length + 4095) / 4096 ≤ 12 ∧ file.length ≤ 49152 := by
  have h1 := h.fits
  have h2 := h.enough
  have h3 : (chosen_blocks img file.length).length ≤
      (file.length + BS - 1) % 2 ^ 64 / BS - 0 := length_picks_le _ _ _ _ _
  rw [BS_eq] at h1 h2 h3
  have h4 : file.length < 2 ^ 64 := by
    by_contra hc
    omega
  have h5 : (file.length + 4096 - 1) % 2 ^ 64 = file.length + 4095 := by
    omega
  rw [h5] at h1 h3
  omega

theorem Unlinked.inode_direct {img file : List Nat} {now c : Nat} {out : List Nat}
    (h : Unlinked img file now c out) :
    (final_inode img file.length now).direct =
      (chosen_blocks img file.length).map (fun j => (image_sb img).data_region_start + j) ++
        List.replicate (12 - (chosen_blocks img file.length).length) 0 := by
  have V := h.valid
  obtain ⟨hk, hk12, -⟩ := h.blocks_count
  show fill_direct (image_sb img) (List.replicate 12 0) 0 (chosen_blocks img file.length) = _
  rw [fill_direct_zero _ _ _ (by omega)]
  congr 1
  apply List.map_congr_left
  intro j hj
  have := (mem_chosen_blocks V hj).2.1
  have h3 := V.data_region_start
  have h4 := V.inode_table_blocks
  have h5 := V.data_region_le
  have h6 := V.inode_count_le
  rw [BS_eq, INODE_SIZE_eq] at h4
  rw [BS_eq] at h5 h6
  omega

theorem Unlinked.inode_write_facts {img file : List Nat} {now c : Nat} {out : List Nat}
    (h : Unlinked img file now c out) :
    (inode_write img file.length now c).1 = 3 * BS + c * 128 ∧
      (inode_write img file.length now c).2.length = 128 := by
  refine ⟨?_, inode_length_bytes _⟩
  show (image_sb img).inode_table_start * BS + c * INODE_SIZE = _
  rw [h.valid.inode_table_start, INODE_SIZE_eq]

theorem Unlinked.mem_writes {img file : List Nat} {now c : Nat} {out : List Nat}
    (h : Unlinked img file now c out) {w : Nat × List Nat}
    (hw : w ∈ data_writes (image_sb img) file (chosen_blocks img file.length) ++
      [inode_write img file.length now c]) :
    (∃ j ∈ chosen_blocks img file.length,
        w.1 = ((image_sb img).data_region_start + j) * BS ∧ w.2.length = BS) ∨
      (w.1 = 3 * BS + c * 128 ∧ w.2.length = 128) := by
  rcases List.mem_append.mp hw with hw | hw
  · left
    obtain ⟨j, hj, h1, h2⟩ := mem_data_writes hw
    have V := h.valid
    have := (mem_chosen_blocks V hj).2.1
    have h5 := V.data_region_le
    have h6 := V.inode_count_le
    have h3 := V.data_region_start
    have h4 := V.inode_table_blocks
    rw [BS_eq, INODE_SIZE_eq] at h4
    rw [BS_eq] at h5 h6
    rw [Nat.mod_eq_of_lt (by omega)] at h1
    exact ⟨j, hj, h1, h2⟩
  · right
    rw [List.mem_singleton.mp hw]
    exact h.inode_write_facts

theorem Unlinked.writes_in_image {img file : List Nat} {now c : Nat} {out : List Nat}
    (h : Unlinked img file now c out) :
    ∀ w ∈ data_writes (image_sb img) file (chosen_blocks img file.length) ++
      [inode_write img file.length now c], w.1 + w.2.length ≤ img.length := by
  intro w hw
  have V := h.valid
  rcases List.mem_append.mp hw with hw | hw
  · exact (data_writes_bounds V file hw).2
  · obtain ⟨-, hc, -⟩ := h.inode_pos
    have h1 := V.length_eq
    have h2 := V.total_blocks
    have h3 := V.data_region_start
    have h4 := V.inode_table_blocks
    have h6 := V.data_region_pos
    rw [BS_eq, INODE_SIZE_eq] at h4
    rw [BS_eq] at h1
    obtain ⟨e1, e2⟩ := h.inode_write_facts
    rw [List.mem_singleton.mp hw, e1, e2, h1, BS_eq]
    omega

theorem Unlinked.writes_apart {img file : List Nat} {now c : Nat} {out : List Nat}
    (h : Unlinked img file now c out) :
    (data_writes (image_sb img) file (chosen_blocks img file.length) ++
      [inode_write img file.length now c]).Pairwise
      (fun w v => w.1 + w.2.length ≤ v.1 ∨ v.1 + v.2.length ≤ w.1) := by
  have V := h.valid
  obtain ⟨hc1, hc, -⟩ := h.inode_pos
  have h2 := V.total_blocks
  have h3 := V.data_region_start
  have h4 := V.inode_table_blocks
  have h5 := V.data_region_le
  have h6 := V.inode_count_le
  rw [BS_eq, INODE_SIZE_eq] at h4
  rw [BS_eq] at h5 h6
  rw [List.pairwise_append]
  refine ⟨?_, List.pairwise_singleton _ _, ?_⟩
  · apply pairwise_data_writes _ _ _ (pairwise_picks _ _ _ _ _)
    intro j hj
    have := (mem_chosen_blocks V hj).2.1
    omega
  · intro w hw v hv
    have hb := (data_writes_bounds V file hw).1
    obtain ⟨e1, e2⟩ := h.inode_write_facts
    rw [BS_eq] at hb e1
    right
    rw [List.mem_singleton.mp hv, e1, e2]
    omega

theorem Unlinked.slice_untouched {img file : List Nat} {now c : Nat} {out : List Nat}
    (h : Unlinked img file now c out) {off n : Nat}
    (hd : ∀ w ∈ data_writes (image_sb img) file (chosen_blocks img file.length) ++
      [inode_write img file.length now c], off + n ≤ w.1 ∨ w.1 + w.2.length ≤ off) :
    slice out off n = slice img off n := by
  rw [h.out_eq]
  exact slice_apply_writes_disjoint h.writes_in_image hd

theorem Unlinked.slice_written {img file : List Nat} {now c : Nat} {out : List Nat}
    (h : Unlinked img file now c out) {w : Nat × List Nat}
    (hw : w ∈ data_writes (image_sb img) file (chosen_blocks img file.length) ++
      [inode_write img file.length now c]) {n : Nat} (hn : w.2.length = n) :
    slice out w.1 n = w.2 := by
  rw [h.out_eq]
  exact slice_apply_writes_mem_self h.writes_in_image h.writes_apart hw hn

/-- What a failed linking run leaves untouched: everything before the inode slot `c` that is
not in it, in particular blocks 0, 1 and 2 and the root inode's slot. -/
theorem Unlinked.slice_out_front {img file : List Nat} {now c : Nat} {out : List Nat}
    (h : Unlinked img file now c out) {off n : Nat} (hn : off + n ≤ 3 * BS + 128) :
    slice out off n = slice img off n := by
  apply h.slice_untouched
  intro w hw
  have V := h.valid
  have h3 := V.data_region_start
  obtain ⟨hc1, -, -⟩ := h.inode_pos
  left
  rcases h.mem_writes hw with ⟨j, hj, e, -⟩ | ⟨e, -⟩
  · have := (mem_chosen_blocks V hj).1
    rw [e]
    rw [BS_eq] at *
    omega
  · rw [e]
    rw [BS_eq] at *
    omega

theorem Unlinked.same_sb {img file : List Nat} {now c : Nat} {out : List Nat}
    (h : Unlinked img file now c out) : image_sb out = image_sb img := by
  unfold image_sb
  rw [← superblock_load_slice (le_refl 116), ← superblock_load_slice (b := img) (le_refl 116),
    h.slice_out_front (by rw [BS_eq]; omega)]

theorem Unlinked.same_inode_bitmap {img file : List Nat} {now c : Nat} {out : List Nat}
    (h : Unlinked img file now c out) : inode_bitmap out = inode_bitmap img := by
  unfold inode_bitmap
  rw [h.same_sb, h.valid.inode_bitmap_start, h.valid.inode_bitmap_blocks,
    h.slice_out_front (by rw [BS_eq]; omega)]

theorem Unlinked.same_data_bitmap {img file : List Nat} {now c : Nat} {out : List Nat}
    (h : Unlinked img file now c out) : data_bitmap out = data_bitmap img := by
  unfold data_bitmap
  rw [h.same_sb, h.valid.data_bitmap_start, h.valid.data_bitmap_blocks,
    h.slice_out_front (by rw [BS_eq]; omega)]

theorem Unlinked.same_root_inode {img file : List Nat} {now c : Nat} {out : List Nat}
    (h : Unlinked img file now c out) : inode_slot out 0 = inode_slot img 0 := by
  unfold inode_slot
  rw [h.same_sb, h.valid.inode_table_start,
    h.slice_out_front (by have := BS_eq; have := INODE_SIZE_eq; omega)]

theorem Unlinked.slot_written {img file : List Nat} {now c : Nat} {out : List Nat}
    (h : Unlinked img file now c out) :
    inode_slot out c = (final_inode img file.length now).bytes := by
  unfold inode_slot
  rw [h.same_sb]
  have hw : inode_write img file.length now c ∈
      data_writes (image_sb img) file (chosen_blocks img file.length) ++
        [inode_write img file.length now c] :=
    List.mem_append_right _ (List.mem_singleton.mpr rfl)
  exact h.slice_written hw (by
    show (final_inode img file.length now).bytes.length = INODE_SIZE
    rw [inode_length_bytes, INODE_SIZE_eq])

theorem Unlinked.inode_written {img file : List Nat} {now c : Nat} {out : List Nat}
    (h : Unlinked img file now c out) :
    image_inode out c = final_inode img file.length now := by
  unfold image_inode
  rw [h.slot_written]
  have := inode_load_bytes_of_fits (final_inode_fits img file.length now) []
  rwa [List.append_nil] at this

theorem Unlinked.same_root_block {img file : List Nat} {now c : Nat} {out : List Nat}
    (h : Unlinked img file now c out) :
    image_block out (image_sb img).data_region_start =
      image_block img (image_sb img).data_region_start := by
  unfold image_block
  apply h.slice_untouched
  intro w hw
  have V := h.valid
  obtain ⟨-, hc, -⟩ := h.inode_pos
  have h3 := V.data_region_start
  have h4 := V.inode_table_blocks
  rw [BS_eq, INODE_SIZE_eq] at h4
  rcases h.mem_writes hw with ⟨j, hj, e, l⟩ | ⟨e, l⟩
  · have := (mem_chosen_blocks V hj).1
    rw [e, l, BS_eq]
    omega
  · rw [e, l, BS_eq]
    omega

theorem Unlinked.same_root_slot {img file : List Nat} {now c : Nat} {out : List Nat}
    (h : Unlinked img file now c out) (s : Nat) : root_slot out s = root_slot img s := by
  unfold root_slot image_inode
  rw [h.same_root_inode]
  have e : (inode_t.load (inode_slot img 0)).direct.getD 0 0 =
      (image_sb img).data_region_start := h.valid.root_direct
  rw [e, h.same_root_block]

theorem Unlinked.block_written {img file : List Nat} {now c : Nat} {out : List Nat}
    (h : Unlinked img file now c out) {k j : Nat}
    (hk : (chosen_blocks img file.length)[k]? = some j) :
    image_block out ((image_sb img).data_region_start + j) =
      pwrite (List.replicate BS 0) 0 (slice file (k * BS) BS) := by
  have V := h.valid
  have hj : j ∈ chosen_blocks img file.length := List.getElem?_mem hk
  have hjb := (mem_chosen_blocks V hj).2.1
  have h3 := V.data_region_start
  have h4 := V.inode_table_blocks
  have h5 := V.data_region_le
  have h6 := V.inode_count_le
  rw [BS_eq, INODE_SIZE_eq] at h4
  rw [BS_eq] at h5 h6
  have hm : ((image_sb img).data_region_start + j) % 2 ^ 64 =
      (image_sb img).data_region_start + j := Nat.mod_eq_of_lt (by omega)
  have hw : (((image_sb img).data_region_start + j) * BS,
      pwrite (List.replicate BS 0) 0 (slice file (k * BS) BS)) ∈
      data_writes (image_sb img) file (chosen_blocks img file.length) ++
        [inode_write img file.length now c] := by
    apply List.mem_append_left
    apply List.getElem?_mem (n := k)
    rw [getElem?_data_writes, hk, Option.map_some', hm]
  unfold image_block
  exact h.slice_written hw (length_write_block _ (by rw [length_slice]; omega))

theorem Unlinked.slots_used {img file : List Nat} {now c : Nat} {out : List Nat}
    (h : Unlinked img file now c out) (s : Nat) (hs : s < 64) :
    (root_dirent img s).inode_no ≠ 0 := by
  have := find_slot_eq_none h.no_slot s (Nat.zero_le s)
    (by rw [BS_eq, DIRENT_SIZE_eq]; omega)
  unfold root_dirent
  rw [root_slot_eq h.valid]
  exact this

end Mkfs_adder

namespace Mkfs_adder

theorem Unlinked.blocks_written {img file : List Nat} {now c : Nat} {out : List Nat}
    (h : Unlinked img file now c out) :
    ((chosen_blocks img file.length).map
      (fun j => (image_sb img).data_region_start + j)).map (image_block out) =
      (List.range (chosen_blocks img file.length).length).map
        (fun i => pwrite (List.replicate BS 0) 0 (slice file (i * BS) BS)) := by
  apply List.ext_getElem?
  intro i
  rw [List.getElem?_map, List.getElem?_map, List.getElem?_map]
  by_cases hi : i < (chosen_blocks img file.length).length
  · obtain ⟨j, hj⟩ : ∃ j, (chosen_blocks img file.length)[i]? = some j :=
      ⟨_, List.getElem?_eq_getElem hi⟩
    rw [List.getElem?_range hi, hj]
    simp only [Option.map_some']
    exact congrArg some (h.block_written hj)
  · rw [List.getElem?_eq_none (Nat.le_of_not_lt hi),
      List.getElem?_eq_none (by rw [List.length_range]; exact Nat.le_of_not_lt hi)]
    simp only [Option.map_none']

theorem Unlinked.direct_prefix {img file : List Nat} {now c : Nat} {out : List Nat}
    (h : Unlinked img file now c out) :
    (image_inode out c).direct.take ((file.length + 4095) / 4096) =
      (chosen_blocks img file.length).map (fun j => (image_sb img).data_region_start + j) := by
  rw [h.inode_written, h.inode_direct]
  exact List.take_left' (by rw [List.length_map, h.blocks_count.1])

/-- The contents of the blocks named by the new inode after a failed linking run: the file,
zero-padded to whole blocks. -/
theorem Unlinked.file_blocks {img file : List Nat} {now c : Nat} {out : List Nat}
    (h : Unlinked img file now c out) :
    (((image_inode out c).direct.take ((file.length + 4095) / 4096)).map
      (image_block out)).flatten =
      file ++ List.replicate ((file.length + 4095) / 4096 * 4096 - file.length) 0 := by
  obtain ⟨hk, -, -⟩ := h.blocks_count
  rw [h.direct_prefix, h.blocks_written, hk]
  by_cases h0 : file.length = 0
  · have e : file = [] := List.length_eq_zero.mp h0
    rw [e]
    rfl
  · rw [join_chunks file _ (by rw [BS_eq]; omega) (by rw [BS_eq]; omega), BS_eq]

end Mkfs_adder

theorem add_all_eq_snd (img : List Nat) (reqs : List (List Nat × List Nat × Nat)) :
    Mkfs_adder.add_all img reqs = (Mkfs_adder.add_seq img reqs).2 := by
  induction reqs generalizing img with
  | nil => rfl
  | cons r rs ih =>
    obtain ⟨file_name, file, now⟩ := r
    rw [Mkfs_adder.add_all, Mkfs_adder.add_seq]
    split
    · exact ih _
    · rfl

theorem filled_full_root_image :
    Mkfs_adder.Filled full_root_image 62 ∧
      (image_sb full_root_image).inode_count = 128 ∧
      (image_sb full_root_image).data_region_blocks = 64 ∧
      (image_sb full_root_image).data_region_start = 7 := by
  have F0 := Mkfs_adder.filled_built 284 128 0 0 (by decide) (by decide) (by decide)
    (by decide)
  have hsb := image_sb_built 284 128 0 0 (by decide) (by decide)
  have hic : (image_sb (built_image 284 128 0 0)).inode_count = 128 := by rw [hsb]; rfl
  have hdb : (image_sb (built_image 284 128 0 0)).data_region_blocks = 64 := by rw [hsb]; rfl
  have hds : (image_sb (built_image 284 128 0 0)).data_region_start = 7 := by rw [hsb]; rfl
  obtain ⟨img, hseq, F, hs⟩ := F0.add_seq_ok (List.replicate 62 ([102], [7], 0))
    (fun r hr => by rw [List.eq_of_mem_replicate hr]; rfl)
    (by rw [hic, List.length_replicate]; decide) (by rw [hdb, List.length_replicate]; decide)
    (by rw [List.length_replicate]; decide)
  rw [List.length_replicate, Nat.zero_add] at F
  have e : full_root_image = img := by
    unfold full_root_image
    rw [add_all_eq_snd, hseq]
  rw [e, hs]
  exact ⟨F, hic, hdb, hds⟩

theorem full_root_image_no_slot (file_name : List Nat) (now : Nat) :
    (Mkfs_adder.main full_root_image file_name [7] now).exit = .no_free_dirent_slot := by
  obtain ⟨F, hic, hdb, -⟩ := filled_full_root_image
  exact F.exit_no_slot file_name [7] now rfl (by rw [hic]; decide) (by rw [hdb]; decide)
    (by decide)

/-! ## The bitmaps against the inode table and the root directory -/

theorem inode_slot_built_zero (s n t_sb t_ino : Nat) (hs : 180 ≤ s) (hs' : s ≤ 4096)
    (hn : 128 ≤ n) (hn' : n ≤ 512) (i : Nat) (h0 : 1 ≤ i) (hi : i < n) :
    inode_slot (built_image s n t_sb t_ino) i = List.replicate 128 0 := by
  unfold inode_slot
  have hsb := image_sb_built s n t_sb t_ino hs' hn'
  have hts : (image_sb (built_image s n t_sb t_ino)).inode_table_start = 3 := by
    rw [hsb]; rfl
  rw [hts, INODE_SIZE_eq]
  apply List.ext_getElem?
  intro k
  rw [getElem?_slice]
  by_cases hk : k < 128
  · rw [if_pos hk, List.getElem?_replicate, if_pos hk]
    apply getElem?_built_image_zero s n t_sb t_ino hn hn'
    all_goals rw [BS_eq]
    all_goals omega
  · rw [if_neg hk, List.getElem?_replicate, if_neg hk]

theorem load_zero_direct : (inode_t.load (List.replicate 128 0)).direct = List.replicate 12 0 := by
  decide

theorem image_inode_built_direct (s n t_sb t_ino : Nat) (hs : 180 ≤ s) (hs' : s ≤ 4096)
    (hn : 128 ≤ n) (hn' : n ≤ 512) (i : Nat) (h0 : 1 ≤ i) (hi : i < n) :
    (image_inode (built_image s n t_sb t_ino) i).direct = List.replicate 12 0 := by
  unfold image_inode
  rw [inode_slot_built_zero s n t_sb t_ino hs hs' hn hn' i h0 hi, load_zero_direct]

theorem root_direct_list_built (s n t_sb t_ino : Nat) (hs' : s ≤ 4096)
    (hn : 128 ≤ n) (hn' : n ≤ 512) :
    (image_inode (built_image s n t_sb t_ino) 0).direct =
      (image_sb (built_image s n t_sb t_ino)).data_region_start :: List.replicate 11 0 := by
  rw [image_inode_zero_built s n t_sb t_ino hs' hn hn', image_sb_built s n t_sb t_ino hs' hn']
  simp only [inode_crc_finalize, Mkfs_builder.root_inode, inode_t.zero,
    superblock_crc_finalize, Mkfs_builder.superblock]
  rw [show List.replicate 12 0 = 0 :: List.replicate 11 0 from rfl, List.set_cons_zero,
    Nat.mod_eq_of_lt (by omega)]

theorem synced_built (s n t_sb t_ino : Nat) (hs : 180 ≤ s) (hs' : s ≤ 4096)
    (hn : 128 ≤ n) (hn' : n ≤ 512) : Synced (built_image s n t_sb t_ino) := by
  have hsb := image_sb_built s n t_sb t_ino hs' hn'
  have hib := inode_bitmap_built s n t_sb t_ino hs' hn hn'
  have hdb := data_bitmap_built s n t_sb t_ino hs' hn hn'
  have hino := image_inode_zero_built s n t_sb t_ino hs' hn hn'
  have hrd := root_direct_list_built s n t_sb t_ino hs' hn hn'
  have hic : (image_sb (built_image s n t_sb t_ino)).inode_count = n := by rw [hsb]; rfl
  have hds : (image_sb (built_image s n t_sb t_ino)).data_region_start =
      3 + (n * 128 + 4095) / 4096 := by rw [hsb]; rfl
  have hbit : ∀ i, get_bit (inode_bitmap (built_image s n t_sb t_ino)) i = 1 ↔ i = 0 := by
    intro i
    rw [hib, get_bit_cons_replicate]
    by_cases h : i = 0 <;> simp [h]
  have hdbit : ∀ j, get_bit (data_bitmap (built_image s n t_sb t_ino)) j = 1 ↔ j = 0 := by
    intro j
    rw [hdb, get_bit_cons_replicate]
    by_cases h : j = 0 <;> simp [h]
  have hmem : ∀ j, (image_sb (built_image s n t_sb t_ino)).data_region_start + j ∈
      (image_inode (built_image s n t_sb t_ino) 0).direct ↔ j = 0 := by
    intro j
    rw [hrd, List.mem_cons, hds]
    constructor
    · rintro (h | h)
      · omega
      · have := List.eq_of_mem_replicate h
        omega
    · intro h
      left
      omega
  constructor
  · intro i
    rw [hbit]
    constructor
    · intro h
      refine ⟨0, by omega, ?_⟩
      rw [root_dirent_inode_no_built s n t_sb t_ino hs hs' hn hn' 0 (by omega), h]
      rfl
    · rintro ⟨k, hk, h⟩
      rw [root_dirent_inode_no_built s n t_sb t_ino hs hs' hn hn' k hk] at h
      split at h <;> omega
  · intro i h
    rw [(hbit i).mp h, hic]
    omega
  · intro i h
    rw [(hbit i).mp h, hino]
    show 1 ≤ 2
    omega
  · exact hrd
  · intro j
    rw [hdbit]
    constructor
    · intro h
      exact ⟨0, (hbit 0).mpr rfl, (hmem j).mpr h⟩
    · rintro ⟨i, hi, h⟩
      rw [(hbit i).mp hi] at h
      exact (hmem j).mp h
  · intro i1 i2 j h1 h2 _ _
    rw [(hbit i1).mp h1, (hbit i2).mp h2]
  · intro i hi hb j hj
    rw [hic] at hi
    have h0 : i ≠ 0 := by
      intro e
      rw [e, ((hbit 0).mpr rfl)] at hb
      exact absurd hb (by decide)
    rw [image_inode_built_direct s n t_sb t_ino hs hs' hn hn' i (by omega) hi] at hj
    have := List.eq_of_mem_replicate hj
    rw [hds] at this
    omega

namespace Mkfs_adder

theorem Inserted.bit_out {img file_name file : List Nat} {now c slot : Nat} {out : List Nat}
    (h : Inserted img file_name file now c slot out) (i : Nat) :
    get_bit (inode_bitmap out) i = if i = c then 1 else get_bit (inode_bitmap img) i := by
  obtain ⟨-, hc, -⟩ := h.chosen_pos
  have hic := h.valid.inode_count_le
  rw [h.inode_bitmap_out, get_bit_set_bit _ (by rw [length_inode_bitmap h.valid]; omega)]

theorem Inserted.dbit_out {img file_name file : List Nat} {now c slot : Nat} {out : List Nat}
    (h : Inserted img file_name file now c slot out) (j : Nat) :
    get_bit (data_bitmap out) j =
      if j ∈ chosen_blocks img file.length then 1 else get_bit (data_bitmap img) j := by
  rw [h.data_bitmap_out, get_bit_foldl_set_bit _ _ h.chosen_div]

theorem Inserted.new_dirent_no {img file_name file : List Nat} {now c slot : Nat}
    {out : List Nat} (h : Inserted img file_name file now c slot out) :
    (root_dirent out slot).inode_no = c + 1 := by
  have hd := h.root_dirent_out h.slot_lt
  rw [if_pos rfl] at hd
  rw [hd]
  obtain ⟨-, hc, -⟩ := h.chosen_pos
  have hic := h.valid.inode_count_le
  rw [BS_eq] at hic
  show (c + 1) % 2 ^ 32 = c + 1
  exact Nat.mod_eq_of_lt (by omega)

theorem Inserted.data_region_start_lt {img file_name file : List Nat} {now c slot : Nat}
    {out : List Nat} (h : Inserted img file_name file now c slot out) :
    1 ≤ (image_sb img).data_region_start ∧ (image_sb img).data_region_start < 2 ^ 32 := by
  have V := h.valid
  have h3 := V.data_region_start
  have h4 := V.inode_table_blocks
  have h6 := V.inode_count_le
  rw [BS_eq, INODE_SIZE_eq] at h4
  rw [BS_eq] at h6
  omega

theorem Inserted.root_direct_list_out {img file_name file : List Nat} {now c slot : Nat}
    {out : List Nat} (h : Inserted img file_name file now c slot out)
    (hr : (image_inode img 0).direct = (image_sb img).data_region_start :: List.replicate 11 0) :
    (image_inode out 0).direct = (image_inode img 0).direct := by
  obtain ⟨-, hlt⟩ := h.data_region_start_lt
  rw [h.image_inode_out_root, inode_load_bytes_eq]
  show (fixlen 12 (image_inode img 0).direct).map (fun w => w % 2 ^ 32) = _
  rw [hr, fixlen_of_length (by rw [List.length_cons, List.length_replicate])]
  apply map_mod_of_lt
  intro w hw
  rcases List.mem_cons.mp hw with e | e
  · rw [e]; exact hlt
  · rw [List.eq_of_mem_replicate e]
    norm_num

theorem Inserted.mem_new_direct {img file_name file : List Nat} {now c slot : Nat}
    {out : List Nat} (h : Inserted img file_name file now c slot out) (j : Nat) :
    (image_sb img).data_region_start + j ∈ (image_inode out c).direct ↔
      j ∈ chosen_blocks img file.length := by
  obtain ⟨hpos, -⟩ := h.data_region_start_lt
  rw [h.image_inode_out_new, h.final_direct, List.mem_append, List.mem_map]
  constructor
  · rintro (⟨j', hj', e⟩ | e)
    · have : j' = j := by omega
      rw [← this]
      exact hj'
    · have := List.eq_of_mem_replicate e
      omega
  · intro hj
    exact Or.inl ⟨j, hj, rfl⟩

end Mkfs_adder

namespace Mkfs_adder

theorem Inserted.direct_out_of_live {img file_name file : List Nat} {now c slot : Nat}
    {out : List Nat} (h : Inserted img file_name file now c slot out) (S : Synced img) {i : Nat}
    (hi : i < (image_sb img).inode_count) (hc : i ≠ c) :
    (image_inode out i).direct = (image_inode img i).direct := by
  by_cases h0 : i = 0
  · rw [h0]
    exact h.root_direct_list_out S.root_direct
  · unfold image_inode
    rw [h.inode_slot_out_other hi h0 hc]

theorem Inserted.synced_out {img file_name file : List Nat} {now c slot : Nat}
    {out : List Nat} (h : Inserted img file_name file now c slot out) (S : Synced img) :
    Synced out := by
  have V := h.valid
  obtain ⟨hc1, hc2, hc3⟩ := h.chosen_pos
  have hsl := h.slot_lt
  have hfree := h.slot_free.1
  have hsb := h.image_sb_out
  have live_ne : ∀ i, get_bit (inode_bitmap img) i = 1 → i ≠ c := by
    intro i hi e
    rw [e, hc3] at hi
    exact absurd hi (by decide)
  have bit_old : ∀ i, i ≠ c → get_bit (inode_bitmap out) i = get_bit (inode_bitmap img) i := by
    intro i hi
    rw [h.bit_out, if_neg hi]
  have bit_new : get_bit (inode_bitmap out) c = 1 := by rw [h.bit_out, if_pos rfl]
  have bit_cases : ∀ i, get_bit (inode_bitmap out) i = 1 →
      i = c ∨ (i ≠ c ∧ get_bit (inode_bitmap img) i = 1) := by
    intro i hi
    by_cases e : i = c
    · exact Or.inl e
    · rw [bit_old i e] at hi
      exact Or.inr ⟨e, hi⟩
  have dir_old : ∀ i, i ≠ c → get_bit (inode_bitmap img) i = 1 →
      (image_inode out i).direct = (image_inode img i).direct := fun i hic hi =>
    h.direct_out_of_live S (S.inode_range i hi) hic
  constructor
  · intro i
    constructor
    · intro hi
      rcases bit_cases i hi with e | ⟨e, hb⟩
      · exact ⟨slot, hsl, by rw [e]; exact h.new_dirent_no⟩
      · obtain ⟨s, hs, hno⟩ := (S.inode_bits i).mp hb
        have hne : s ≠ slot := by
          intro e'
          rw [e', hfree] at hno
          omega
        exact ⟨s, hs, by rw [h.root_dirent_out hs, if_neg hne]; exact hno⟩
    · rintro ⟨s, hs, hno⟩
      by_cases e : i = c
      · rw [e]; exact bit_new
      · rw [bit_old i e]
        have hne : s ≠ slot := by
          intro e'
          rw [e', h.new_dirent_no] at hno
          omega
        rw [h.root_dirent_out hs, if_neg hne] at hno
        exact (S.inode_bits i).mpr ⟨s, hs, hno⟩
  · intro i hi
    rw [hsb]
    rcases bit_cases i hi with e | ⟨-, hb⟩
    · rw [e]; exact hc2
    · exact S.inode_range i hb
  · intro i hi
    rcases bit_cases i hi with e | ⟨e, hb⟩
    · rw [e, h.image_inode_out_new]
      show 1 ≤ 1
      omega
    · by_cases h0 : i = 0
      · rw [h0, h.root_links_out.1]
        omega
      · unfold image_inode
        rw [h.inode_slot_out_other (S.inode_range i hb) h0 e]
        exact S.links i hb
  · rw [hsb, h.root_direct_list_out S.root_direct]
    exact S.root_direct
  · intro j
    rw [hsb, h.dbit_out]
    constructor
    · intro hj
      by_cases hm : j ∈ chosen_blocks img file.length
      · exact ⟨c, bit_new, (h.mem_new_direct j).mpr hm⟩
      · rw [if_neg hm] at hj
        obtain ⟨i, hi, hd⟩ := (S.data_bits j).mp hj
        have hne := live_ne i hi
        exact ⟨i, by rw [bit_old i hne]; exact hi, by rw [dir_old i hne hi]; exact hd⟩
    · rintro ⟨i, hi, hd⟩
      rcases bit_cases i hi with e | ⟨e, hb⟩
      · rw [e] at hd
        rw [if_pos ((h.mem_new_direct j).mp hd)]
      · rw [dir_old i e hb] at hd
        have := (S.data_bits j).mpr ⟨i, hb, hd⟩
        split
        · rfl
        · exact this
  · intro i1 i2 j h1 h2 d1 d2
    rw [hsb] at d1 d2
    rcases bit_cases i1 h1 with e1 | ⟨e1, b1⟩ <;> rcases bit_cases i2 h2 with e2 | ⟨e2, b2⟩
    · rw [e1, e2]
    · exfalso
      rw [e1] at d1
      rw [dir_old i2 e2 b2] at d2
      have hj := (mem_chosen_blocks V ((h.mem_new_direct j).mp d1)).2.2
      rw [(S.data_bits j).mpr ⟨i2, b2, d2⟩] at hj
      exact absurd hj (by decide)
    · exfalso
      rw [e2] at d2
      rw [dir_old i1 e1 b1] at d1
      have hj := (mem_chosen_blocks V ((h.mem_new_direct j).mp d2)).2.2
      rw [(S.data_bits j).mpr ⟨i1, b1, d1⟩] at hj
      exact absurd hj (by decide)
    · rw [dir_old i1 e1 b1] at d1
      rw [dir_old i2 e2 b2] at d2
      exact S.unique i1 i2 j b1 b2 d1 d2
  · intro i hi hb j
    rw [hsb] at hi ⊢
    have hne : i ≠ c := by
      intro e
      rw [e, bit_new] at hb
      exact absurd hb (by decide)
    rw [bit_old i hne] at hb
    rw [h.direct_out_of_live S hi hne]
    exact S.free_inodes i hi hb j

end Mkfs_adder

theorem synced_of_reachable {img : List Nat} (h : Reachable img) : Synced img := by
  induction h with
  | built size_kib inodes t_sb t_ino img hm =>
    obtain ⟨h1, h2, h3, h4, e⟩ := Mkfs_builder.main_ok_eq_built hm
    rw [e]
    exact synced_built _ _ _ _ h1 h2 h3 h4
  | added img file_name file now out hr hm ih =>
    have V := valid_of_reachable hr
    have hok : (Mkfs_adder.main img file_name file now).exit = .ok := by rw [hm]
    obtain ⟨c, slot, out', ho, h⟩ := Mkfs_adder.inserted_of_ok V hok
    rw [hm] at ho
    have e : out = out' := Option.some.inj ho
    rw [e]
    exact h.synced_out ih

namespace Mkfs_builder

/-- The only diagnostics `main` can end with are those of the range check and of the
multiple-of-4 check. -/
theorem main_error_cases (size_kib inodes : Int) (t_sb t_ino : Nat) (e : Failure)
    (h : main size_kib inodes t_sb t_ino = .error e) :
    e = .invalid_parameters ∨ e = .size_not_multiple_of_4 := by
  by_cases c1 : size_kib < 180 ∨ size_kib > 4096 ∨ inodes < 128 ∨ inodes > 512
  · rw [main, if_pos c1] at h
    exact Or.inl (Except.error.inj h).symm
  · by_cases c2 : size_kib.tmod 4 ≠ 0
    · rw [main, if_neg c1, if_pos c2] at h
      exact Or.inr (Except.error.inj h).symm
    · exfalso
      have c3 : size_kib.tmod 4 = 0 := not_not.mp c2
      rw [Int.tmod_eq_emod (by omega) (by norm_num)] at c3
      have e1 : ((size_kib.toNat : Nat) : Int) = size_kib := Int.toNat_of_nonneg (by omega)
      have e2 : ((inodes.toNat : Nat) : Int) = inodes := Int.toNat_of_nonneg (by omega)
      have hb := main_eq_built size_kib.toNat inodes.toNat t_sb t_ino (by omega) (by omega)
        (by omega) (by omega) (by omega)
      rw [e1, e2, h] at hb
      cases hb

end Mkfs_builder

/-! ## Inodes and root directory slots after `k` insertions -/

theorem numbered_built (s n t_sb t_ino : Nat) (hs : 180 ≤ s) (hs' : s ≤ 4096)
    (hn : 128 ≤ n) (hn' : n ≤ 512) : Numbered (built_image s n t_sb t_ino) 0 := by
  have hib := inode_bitmap_built s n t_sb t_ino hs' hn hn'
  have hino := image_inode_zero_built s n t_sb t_ino hs' hn hn'
  refine ⟨valid_built s n t_sb t_ino hs hs' hn hn', by omega, ?_, ?_, ?_, ?_, ?_⟩
  · intro i
    rw [hib, get_bit_cons_replicate]
    by_cases h : i = 0
    · rw [if_pos h]
      exact ⟨fun _ => by omega, fun _ => rfl⟩
    · rw [if_neg h]
      exact ⟨fun h' => absurd h' (by decide), fun h' => absurd (by omega) h⟩
  · intro k hk
    rw [root_dirent_inode_no_built s n t_sb t_ino hs hs' hn hn' k hk]
    by_cases h : k < 2
    · rw [if_pos h]
      exact ⟨fun _ => by omega, fun _ => by decide⟩
    · rw [if_neg h]
      exact ⟨fun h' => absurd rfl h', fun h' => absurd (by omega) h⟩
  · intro k h2 h1
    omega
  · rw [hino]
    rfl
  · rw [hino]
    rfl

namespace Mkfs_adder

theorem Inserted.numbered_out {img file_name file : List Nat} {now c slot : Nat}
    {out : List Nat} (h : Inserted img file_name file now c slot out) {k : Nat}
    (N : Numbered img k) : c = k + 1 ∧ slot = k + 2 ∧ Numbered out (k + 1) := by
  obtain ⟨-, -, hc3, hc4⟩ := pick_inode_eq_some h.pick
  have hsl := h.slot_lt
  obtain ⟨hs0, hs1⟩ := h.slot_free
  have hc : c = k + 1 := by
    have h1 : ¬ c ≤ k := by
      intro hle
      rw [(N.inodes c).mpr hle] at hc3
      exact absurd hc3 (by decide)
    by_contra hne
    have h2 := hc4 (k + 1) (Nat.zero_le _) (by omega)
    have h3 := get_bit_ne_zero.mp h2
    have := (N.inodes (k + 1)).mp h3
    omega
  have hslot : slot = k + 2 := by
    have h1 : ¬ slot ≤ k + 1 := by
      intro hle
      exact (N.slots slot hsl).mpr hle hs0
    by_contra hne
    have h2 := hs1 (k + 2) (by omega)
    have := (N.slots (k + 2) (by omega)).mp h2
    omega
  refine ⟨hc, hslot, h.valid_out, by omega, ?_, ?_, ?_, ?_, ?_⟩
  · intro i
    rw [h.bit_out, hc]
    by_cases e : i = k + 1
    · rw [if_pos e]
      exact ⟨fun _ => by omega, fun _ => rfl⟩
    · rw [if_neg e, N.inodes i]
      omega
  · intro s hs
    rw [h.root_dirent_out hs]
    by_cases e : s = slot
    · rw [if_pos e]
      have hn := h.new_dirent_no
      have hd := h.root_dirent_out hsl
      rw [if_pos rfl] at hd
      rw [hd] at hn
      rw [hn]
      exact ⟨fun _ => by omega, fun _ => by omega⟩
    · rw [if_neg e, N.slots s hs]
      omega
  · intro s h2 hle
    by_cases e : s = slot
    · rw [e, h.new_dirent_no]
      omega
    · rw [h.root_dirent_out (by omega), if_neg e]
      exact N.numbers s h2 (by omega)
  · rw [h.root_links_out.1, N.links]
  · rw [h.root_links_out.2, N.size]
    omega

end Mkfs_adder

theorem reachable_of_reachableIn {k : Nat} {img : List Nat} (h : ReachableIn k img) :
    Reachable img := by
  induction h with
  | built size_kib inodes t_sb t_ino img hm => exact Reachable.built _ _ _ _ _ hm
  | added k img file_name file now out _ hm ih => exact Reachable.added _ _ _ _ _ ih hm

theorem numbered_of_reachableIn {k : Nat} {img : List Nat} (h : ReachableIn k img) :
    Numbered img k := by
  induction h with
  | built size_kib inodes t_sb t_ino img hm =>
    obtain ⟨h1, h2, h3, h4, e⟩ := Mkfs_builder.main_ok_eq_built hm
    rw [e]
    exact numbered_built _ _ _ _ h1 h2 h3 h4
  | added k img file_name file now out _ hm ih =>
    have hok : (Mkfs_adder.main img file_name file now).exit = .ok := by rw [hm]
    obtain ⟨c, slot, out', ho, h⟩ := Mkfs_adder.inserted_of_ok ih.valid hok
    rw [hm] at ho
    have e : out = out' := Option.some.inj ho
    rw [e]
    exact (h.numbered_out ih).2.2

theorem reachableIn_add_seq (reqs : List (List Nat × List Nat × Nat)) {k : Nat}
    {img out : List Nat} (h : ReachableIn k img)
    (hseq : Mkfs_adder.add_seq img reqs = (List.replicate reqs.length .ok, out)) :
    ReachableIn (k + reqs.length) out := by
  induction reqs generalizing k img with
  | nil =>
    have e : img = out := congrArg Prod.snd hseq
    rw [← e]
    exact h
  | cons r rs ih =>
    obtain ⟨file_name, file, now⟩ := r
    have V := valid_of_reachable (reachable_of_reachableIn h)
    by_cases hok : (Mkfs_adder.main img file_name file now).exit = .ok
    · obtain ⟨c, slot, out1, ho, hi⟩ := Mkfs_adder.inserted_of_ok V hok
      have hm := Mkfs_adder.main_of_inserted hi
      rw [Mkfs_adder.add_seq_cons_ok hm, List.length_cons, List.replicate_succ] at hseq
      have e1 : (Mkfs_adder.add_seq out1 rs).1 = List.replicate rs.length .ok :=
        List.tail_eq_of_cons_eq (congrArg Prod.fst hseq)
      have e2 : (Mkfs_adder.add_seq out1 rs).2 = out := congrArg Prod.snd hseq
      have hseq' : Mkfs_adder.add_seq out1 rs = (List.replicate rs.length .ok, out) :=
        Prod.ext e1 e2
      have := ih (ReachableIn.added k img file_name file now out1 h hm) hseq'
      rw [List.length_cons]
      have e3 : k + (rs.length + 1) = k + 1 + rs.length := by omega
      rw [e3]
      exact this
    · rw [Mkfs_adder.add_seq_cons_fail hok, List.length_cons, List.replicate_succ] at hseq
      have e1 := List.head_eq_of_cons_eq (congrArg Prod.fst hseq)
      exact absurd e1 hok

theorem reachableIn_full_root_image : ReachableIn 62 full_root_image := by
  have F0 := Mkfs_adder.filled_built 284 128 0 0 (by decide) (by decide) (by decide)
    (by decide)
  have hsb := image_sb_built 284 128 0 0 (by decide) (by decide)
  have hic : (image_sb (built_image 284 128 0 0)).inode_count = 128 := by rw [hsb]; rfl
  have hdb : (image_sb (built_image 284 128 0 0)).data_region_blocks = 64 := by rw [hsb]; rfl
  obtain ⟨img, hseq, -, -⟩ := F0.add_seq_ok (List.replicate 62 ([102], [7], 0))
    (fun r hr => by rw [List.eq_of_mem_replicate hr]; rfl)
    (by rw [hic, List.length_replicate]; decide) (by rw [hdb, List.length_replicate]; decide)
    (by rw [List.length_replicate]; decide)
  have e : full_root_image = img := by
    unfold full_root_image
    rw [add_all_eq_snd, hseq]
  have h0 : ReachableIn 0 (built_image 284 128 0 0) :=
    ReachableIn.built ((284 : Nat) : Int) ((128 : Nat) : Int) 0 0 _
      (Mkfs_builder.main_eq_built 284 128 0 0 (by decide) (by decide) (by decide) (by decide)
        (by decide))
  have := reachableIn_add_seq _ h0 hseq
  rw [List.length_replicate, Nat.zero_add] at this
  rw [e]
  exact this

/-! ## Record bytes are bytes; the scans read and write inside their ranges -/

theorem mem_words_bytes_lt {n : Nat} {ws : List Nat} {b : Nat} (h : b ∈ words_bytes n ws) :
    b < 256 := by
  induction n generalizing ws with
  | zero => cases h
  | succ n ih =>
    rw [words_bytes] at h
    rcases List.mem_append.mp h with h' | h'
    · exact mem_le_bytes_lt h'
    · exact ih h'

theorem superblock_bytes_lt (sb : superblock_t) : ∀ b ∈ sb.bytes, b < 256 := by
  intro b hb
  unfold superblock_t.bytes at hb
  simp only [List.mem_append] at hb
  repeat' (first | exact mem_le_bytes_lt hb | rcases hb with hb | hb)

theorem inode_bytes_lt (ino : inode_t) : ∀ b ∈ ino.bytes, b < 256 := by
  intro b hb
  unfold inode_t.bytes at hb
  simp only [List.mem_append] at hb
  repeat' (first | exact mem_le_bytes_lt hb | exact mem_words_bytes_lt hb |
    rcases hb with hb | hb)

/-- The CRC-32 of the first bytes of a superblock record, by table and bit by bit. -/
theorem crc32_superblock_bytes (sb : superblock_t) (n : Nat) :
    crc32 (sb.bytes.take n) = spec_crc32 (sb.bytes.take n) :=
  crc32_eq_spec _ (fun b hb => superblock_bytes_lt sb b (List.mem_of_mem_take hb))

/-- The CRC-32 of the first bytes of an inode record, by table and bit by bit. -/
theorem crc32_inode_bytes (ino : inode_t) (n : Nat) :
    crc32 (ino.bytes.take n) = spec_crc32 (ino.bytes.take n) :=
  crc32_eq_spec _ (fun b hb => inode_bytes_lt ino b (List.mem_of_mem_take hb))

namespace Mkfs_adder

end Mkfs_adder

namespace Mkfs_adder

end Mkfs_adder

/-! ## The claims about the builder -/

/-- C2: for every `size_kib` in [180, 4096] that is a multiple of 4 and every inode count in
[128, 512] the builder writes an image whose superblock has
`total_blocks = size_kib * 1024 / 4096`, `inode_table_blocks = ceil(inodes * 128 / 4096)`,
the bitmaps at blocks 1 and 2, the inode table at block 3, the data region right after the
inode table and up to the last block: the regions tile the image. -/
theorem C2_builder_layout (size_kib inodes t_sb t_ino : Nat) (hs : 180 ≤ size_kib)
    (hs' : size_kib ≤ 4096) (h4 : size_kib % 4 = 0) (hn : 128 ≤ inodes) (hn' : inodes ≤ 512) :
    ∃ img, Mkfs_builder.main size_kib inodes t_sb t_ino = .ok img ∧
      (image_sb img).total_blocks = size_kib * 1024 / 4096 ∧
      (image_sb img).inode_table_blocks = (inodes * 128 + 4095) / 4096 ∧
      inodes * 128 ≤ (image_sb img).inode_table_blocks * 4096 ∧
      (image_sb img).inode_table_blocks * 4096 < inodes * 128 + 4096 ∧
      (image_sb img).inode_bitmap_start = 1 ∧
      (image_sb img).inode_bitmap_blocks = 1 ∧
      (image_sb img).data_bitmap_start = 2 ∧
      (image_sb img).data_bitmap_blocks = 1 ∧
      (image_sb img).inode_table_start = 3 ∧
      (image_sb img).data_region_start = 3 + (image_sb img).inode_table_blocks ∧
      (image_sb img).data_region_blocks =
        (image_sb img).total_blocks - 3 - (image_sb img).inode_table_blocks ∧
      (image_sb img).data_region_start + (image_sb img).data_region_blocks =
        (image_sb img).total_blocks := by
  refine ⟨_, Mkfs_builder.main_eq_built size_kib inodes t_sb t_ino hs hs' h4 hn hn', ?_⟩
  rw [image_sb_built size_kib inodes t_sb t_ino hs' hn']
  refine ⟨?_, ?_, ?_, ?_, ?_, ?_, ?_, ?_, ?_, ?_, ?_, ?_⟩ <;>
    simp only [superblock_crc_finalize, Mkfs_builder.superblock] <;> omega

/-- Witness for C2: 180 KiB and 128 inodes give 45 blocks, 4 inode table blocks, the data
region at block 7 and 38 data blocks. -/
theorem C2_builder_layout_witness :
    ∃ img, Mkfs_builder.main (180 : Nat) (128 : Nat) 0 0 = .ok img ∧
      (image_sb img).total_blocks = 45 ∧ (image_sb img).inode_table_blocks = 4 ∧
      (image_sb img).data_region_start = 7 ∧ (image_sb img).data_region_blocks = 38 := by
  obtain ⟨img, h, h1, h2, -, -, -, -, -, -, -, h3, h4, -⟩ :=
    C2_builder_layout 180 128 0 0 (by decide) (by decide) (by decide) (by decide) (by decide)
  refine ⟨img, h, ?_, ?_, ?_, ?_⟩ <;> omega

/-- C3: in every built image the superblock's stored checksum is the standard CRC-32
(`spec_crc32`, the bit-by-bit computation of spec §4.1) of bytes [0, 112) of block 0,
inode #1's stored checksum is that CRC-32 of the first 120 bytes of its slot, with the upper
32 bits zero, and each of the two root directory entries has inode number 1 and a last byte
that is the XOR of its first 63 bytes. -/
theorem C3_builder_checksums (size_kib inodes t_sb t_ino : Nat) (hs : 180 ≤ size_kib)
    (hs' : size_kib ≤ 4096) (h4 : size_kib % 4 = 0) (hn : 128 ≤ inodes) (hn' : inodes ≤ 512) :
    ∃ img, Mkfs_builder.main size_kib inodes t_sb t_ino = .ok img ∧
      (image_sb img).checksum = spec_crc32 (slice (image_block img 0) 0 112) ∧
      (image_inode img 0).inode_crc = spec_crc32 (slice (inode_slot img 0) 0 120) ∧
      (image_inode img 0).inode_crc < 2 ^ 32 ∧
      ∀ k, k < 2 →
        (root_dirent img k).inode_no = 1 ∧
        (root_slot img k).length = 64 ∧
        (root_slot img k).getD 63 0 = xor_bytes ((root_slot img k).take 63) := by
  refine ⟨_, Mkfs_builder.main_eq_built size_kib inodes t_sb t_ino hs hs' h4 hn hn', ?_, ?_, ?_, ?_⟩
  · have e : slice (image_block (built_image size_kib inodes t_sb t_ino) 0) 0 112 =
        (superblock_crc_finalize (Mkfs_builder.superblock (size_kib / 4) inodes
          ((inodes * 128 + 4095) / 4096) (size_kib / 4 - 3 - (inodes * 128 + 4095) / 4096)
          t_sb)).bytes.take 112 := by
      unfold image_block
      rw [slice_slice (by rw [BS_eq]; omega), Nat.zero_mul, Nat.zero_add]
      unfold built_image
      rw [pwrite_zero_front, List.append_assoc,
        slice_append_left (by rw [superblock_length_bytes]; omega)]
      rfl
    rw [image_sb_built size_kib inodes t_sb t_ino hs' hn', e, ← crc32_superblock_bytes]
    exact superblock_crc_finalize_checksum _
  · rw [image_inode_zero_built size_kib inodes t_sb t_ino hs' hn hn',
      inode_slot_zero_built size_kib inodes t_sb t_ino hs' hn hn']
    show _ = spec_crc32 ((inode_crc_finalize
      (Mkfs_builder.root_inode (3 + (inodes * 128 + 4095) / 4096) t_ino)).bytes.take 120)
    rw [← crc32_inode_bytes]
    exact inode_crc_finalize_checksum _
  · rw [image_inode_zero_built size_kib inodes t_sb t_ino hs' hn hn', inode_crc_finalize_crc]
    exact crc32_lt _
  · intro k hk
    unfold root_dirent
    rw [root_slot_built size_kib inodes t_sb t_ino hs hs' hn hn' k (by omega)]
    have hk' : k = 0 ∨ k = 1 := by omega
    rcases hk' with h | h <;> subst h
    · exact root_entry_dot_checks
    · exact root_entry_dotdot_checks

/-- Witness for C3 at 180 KiB and 128 inodes. -/
theorem C3_builder_checksums_witness :
    ∃ img, Mkfs_builder.main (180 : Nat) (128 : Nat) 0 0 = .ok img ∧
      (image_sb img).checksum = spec_crc32 (slice (image_block img 0) 0 112) ∧
      (image_inode img 0).inode_crc = spec_crc32 (slice (inode_slot img 0) 0 120) ∧
      (image_inode img 0).inode_crc < 2 ^ 32 ∧
      ∀ k, k < 2 →
        (root_dirent img k).inode_no = 1 ∧
        (root_slot img k).length = 64 ∧
        (root_slot img k).getD 63 0 = xor_bytes ((root_slot img k).take 63) :=
  C3_builder_checksums 180 128 0 0 (by decide) (by decide) (by decide) (by decide) (by decide)

/-- C4: in every built image inode table slot 0 (inode #1) is a directory (mode 0x4000) with
`links = 2`, `size_bytes = 128`, `direct[0] = data_region_start` and `direct[1..11] = 0`;
in block `data_region_start` slots 0 and 1 are directory-typed entries named "." and ".."
for inode 1, and slots 2..63 have inode number 0. -/
theorem C4_builder_root (size_kib inodes t_sb t_ino : Nat) (hs : 180 ≤ size_kib)
    (hs' : size_kib ≤ 4096) (h4 : size_kib % 4 = 0) (hn : 128 ≤ inodes) (hn' : inodes ≤ 512) :
    ∃ img, Mkfs_builder.main size_kib inodes t_sb t_ino = .ok img ∧
      (image_inode img 0).mode = 0x4000 ∧
      (image_inode img 0).links = 2 ∧
      (image_inode img 0).size_bytes = 128 ∧
      (image_inode img 0).direct = (image_sb img).data_region_start :: List.replicate 11 0 ∧
      dirent64_t.load (slice (image_block img (image_sb img).data_region_start)
          (0 * DIRENT_SIZE) DIRENT_SIZE) =
        { inode_no := 1, type := 2, name := 46 :: List.replicate 57 0, checksum := 45 } ∧
      dirent64_t.load (slice (image_block img (image_sb img).data_region_start)
          (1 * DIRENT_SIZE) DIRENT_SIZE) =
        { inode_no := 1, type := 2, name := 46 :: 46 :: List.replicate 56 0, checksum := 3 } ∧
      ∀ k, 2 ≤ k → k < 64 →
        (dirent64_t.load (slice (image_block img (image_sb img).data_region_start)
          (k * DIRENT_SIZE) DIRENT_SIZE)).inode_no = 0 := by
  have hd : (image_sb (built_image size_kib inodes t_sb t_ino)).data_region_start =
      (image_inode (built_image size_kib inodes t_sb t_ino) 0).direct.getD 0 0 := by
    rw [root_direct_built size_kib inodes t_sb t_ino hs' hn hn',
      image_sb_built size_kib inodes t_sb t_ino hs' hn']
    rfl
  have hslot : ∀ k, slice (image_block (built_image size_kib inodes t_sb t_ino)
      (image_sb (built_image size_kib inodes t_sb t_ino)).data_region_start)
      (k * DIRENT_SIZE) DIRENT_SIZE = root_slot (built_image size_kib inodes t_sb t_ino) k := by
    intro k
    rw [hd]
    rfl
  have hino := image_inode_zero_built size_kib inodes t_sb t_ino hs' hn hn'
  refine ⟨_, Mkfs_builder.main_eq_built size_kib inodes t_sb t_ino hs hs' h4 hn hn',
    ?_, ?_, ?_, ?_, ?_, ?_, ?_⟩
  · rw [hino]; rfl
  · rw [hino]; rfl
  · rw [hino]; rfl
  · rw [hino, image_sb_built size_kib inodes t_sb t_ino hs' hn']
    simp only [inode_crc_finalize, Mkfs_builder.root_inode, inode_t.zero,
      superblock_crc_finalize, Mkfs_builder.superblock]
    rw [show List.replicate 12 0 = 0 :: List.replicate 11 0 from rfl, List.set_cons_zero,
      Nat.mod_eq_of_lt (by omega)]
  · rw [hslot, root_slot_built size_kib inodes t_sb t_ino hs hs' hn hn' 0 (by omega), if_pos rfl]
    exact load_root_entry_dot
  · rw [hslot, root_slot_built size_kib inodes t_sb t_ino hs hs' hn hn' 1 (by omega),
      if_neg (by omega), if_pos rfl]
    exact load_root_entry_dotdot
  · intro k hk hk'
    rw [hslot]
    have := root_dirent_inode_no_built size_kib inodes t_sb t_ino hs hs' hn hn' k hk'
    rw [if_neg (by omega)] at this
    exact this

/-- Witness for C4 at 180 KiB and 128 inodes. -/
theorem C4_builder_root_witness :
    ∃ img, Mkfs_builder.main (180 : Nat) (128 : Nat) 0 0 = .ok img ∧
      (image_inode img 0).mode = 0x4000 ∧
      (image_inode img 0).links = 2 ∧
      (image_inode img 0).size_bytes = 128 ∧
      (image_inode img 0).direct = (image_sb img).data_region_start :: List.replicate 11 0 ∧
      dirent64_t.load (slice (image_block img (image_sb img).data_region_start)
          (0 * DIRENT_SIZE) DIRENT_SIZE) =
        { inode_no := 1, type := 2, name := 46 :: List.replicate 57 0, checksum := 45 } ∧
      dirent64_t.load (slice (image_block img (image_sb img).data_region_start)
          (1 * DIRENT_SIZE) DIRENT_SIZE) =
        { inode_no := 1, type := 2, name := 46 :: 46 :: List.replicate 56 0, checksum := 3 } ∧
      ∀ k, 2 ≤ k → k < 64 →
        (dirent64_t.load (slice (image_block img (image_sb img).data_region_start)
          (k * DIRENT_SIZE) DIRENT_SIZE)).inode_no = 0 :=
  C4_builder_root 180 128 0 0 (by decide) (by decide) (by decide) (by decide) (by decide)

/-- C5: every built image is exactly `total_blocks * 4096 = size_kib * 1024` bytes long;
blocks 1 and 2 (the bitmaps) each have bit 0 set and every other bit clear; every byte
outside the 116-byte superblock, byte 0 of each bitmap block, the 128-byte inode slot 0 and
the first 128 bytes of the first data block is zero. -/
theorem C5_builder_bytes (size_kib inodes t_sb t_ino : Nat) (hs : 180 ≤ size_kib)
    (hs' : size_kib ≤ 4096) (h4 : size_kib % 4 = 0) (hn : 128 ≤ inodes) (hn' : inodes ≤ 512) :
    ∃ img, Mkfs_builder.main size_kib inodes t_sb t_ino = .ok img ∧
      img.length = (image_sb img).total_blocks * 4096 ∧
      img.length = size_kib * 1024 ∧
      (∀ j, j < 8 * 4096 → get_bit (image_block img 1) j = if j = 0 then 1 else 0) ∧
      (∀ j, j < 8 * 4096 → get_bit (image_block img 2) j = if j = 0 then 1 else 0) ∧
      ∀ i, i < img.length → 116 ≤ i → i ≠ 4096 → i ≠ 2 * 4096 →
        ¬ (3 * 4096 ≤ i ∧ i < 3 * 4096 + 128) →
        ¬ ((image_sb img).data_region_start * 4096 ≤ i ∧
          i < (image_sb img).data_region_start * 4096 + 128) →
        img[i]? = some 0 := by
  have hlen := length_built_image size_kib inodes t_sb t_ino hs hn hn'
  have hsb := image_sb_built size_kib inodes t_sb t_ino hs' hn'
  have hib := inode_bitmap_built size_kib inodes t_sb t_ino hs' hn hn'
  have hdb := data_bitmap_built size_kib inodes t_sb t_ino hs' hn hn'
  refine ⟨_, Mkfs_builder.main_eq_built size_kib inodes t_sb t_ino hs hs' h4 hn hn',
    ?_, ?_, ?_, ?_, ?_⟩
  · rw [hlen, hsb, BS_eq]; rfl
  · rw [hlen, BS_eq]; omega
  · intro j _
    have e : image_block (built_image size_kib inodes t_sb t_ino) 1 =
        inode_bitmap (built_image size_kib inodes t_sb t_ino) := by
      unfold inode_bitmap image_block
      rw [hsb]
      show _ = slice _ (1 * BS) (1 * BS)
      rw [Nat.one_mul]
    rw [e, hib, get_bit_cons_replicate]
  · intro j _
    have e : image_block (built_image size_kib inodes t_sb t_ino) 2 =
        data_bitmap (built_image size_kib inodes t_sb t_ino) := by
      unfold data_bitmap image_block
      rw [hsb]
      show _ = slice _ (2 * BS) (1 * BS)
      rw [Nat.one_mul]
    rw [e, hdb, get_bit_cons_replicate]
  · intro i hi h0 h1 h2 h3 h4
    rw [hsb] at h4
    have h4' : ¬ ((3 + (inodes * 128 + 4095) / 4096) * BS ≤ i ∧
        i < (3 + (inodes * 128 + 4095) / 4096) * BS + 128) := by
      rw [BS_eq]
      exact h4
    exact getElem?_built_image_zero size_kib inodes t_sb t_ino hn hn' i (by rw [← hlen]; exact hi)
      h0 (by rw [BS_eq]; exact h1) (by rw [BS_eq]; exact h2) (by rw [BS_eq]; exact h3) h4'

/-- Witness for C5 at 180 KiB and 128 inodes. -/
theorem C5_builder_bytes_witness :
    ∃ img, Mkfs_builder.main (180 : Nat) (128 : Nat) 0 0 = .ok img ∧
      img.length = (image_sb img).total_blocks * 4096 ∧
      img.length = 180 * 1024 ∧
      (∀ j, j < 8 * 4096 → get_bit (image_block img 1) j = if j = 0 then 1 else 0) ∧
      (∀ j, j < 8 * 4096 → get_bit (image_block img 2) j = if j = 0 then 1 else 0) ∧
      ∀ i, i < img.length → 116 ≤ i → i ≠ 4096 → i ≠ 2 * 4096 →
        ¬ (3 * 4096 ≤ i ∧ i < 3 * 4096 + 128) →
        ¬ ((image_sb img).data_region_start * 4096 ≤ i ∧
          i < (image_sb img).data_region_start * 4096 + 128) →
        img[i]? = some 0 :=
  C5_builder_bytes 180 128 0 0 (by decide) (by decide) (by decide) (by decide) (by decide)

/-! ## The claims about the adder -/

/-- C1: for every valid image with a free inode, a free root directory slot and at least
`ceil(S / 4096)` free data blocks and every source file of `S` bytes, `0 < S ≤ 49152`, the
insertion succeeds; the inode index taken is the lowest clear bit `c` of the inode bitmap;
the blocks named by `direct[0 .. ceil(S/4096) - 1]` of the new inode, concatenated and cut
to `S` bytes, are the source bytes, and the last block is zero past the file's end. -/
theorem C1_file_bytes_read_back (img file_name file : List Nat) (now : Nat)
    (V : ValidImage img)
    (hino : ∃ i, i < (image_sb img).inode_count ∧ get_bit (inode_bitmap img) i = 0)
    (hslot : ∃ s, s < 64 ∧ (root_dirent img s).inode_no = 0)
    (hblk : (file.length + 4095) / 4096 ≤
      free_bits (data_bitmap img) (image_sb img).data_region_blocks)
    (hpos : 0 < file.length) (hle : file.length ≤ 49152) :
    ∃ c out,
      Mkfs_adder.main img file_name file now = ⟨.ok, some out⟩ ∧
      c < (image_sb img).inode_count ∧ get_bit (inode_bitmap img) c = 0 ∧
      (∀ i, i < c → get_bit (inode_bitmap img) i = 1) ∧
      ((((image_inode out c).direct.take ((file.length + 4095) / 4096)).map
        (image_block out)).flatten).take file.length = file ∧
      ∃ last,
        ((image_inode out c).direct.take ((file.length + 4095) / 4096)).getLast? = some last ∧
        (image_block out last).drop (file.length - ((file.length + 4095) / 4096 - 1) * 4096) =
          List.replicate ((file.length + 4095) / 4096 * 4096 - file.length) 0 := by
  obtain ⟨c, slot, out, h⟩ := Mkfs_adder.exists_inserted V file_name file now hino hslot hblk hle
  obtain ⟨hk, -, -⟩ := h.length_chosen
  obtain ⟨-, hc2, hc3⟩ := h.chosen_pos
  obtain ⟨-, -, -, hc4⟩ := Mkfs_adder.pick_inode_eq_some h.pick
  refine ⟨c, out, Mkfs_adder.main_of_inserted h, hc2, hc3,
    fun i hi => get_bit_ne_zero.mp (hc4 i (Nat.zero_le i) hi), ?_, ?_⟩
  · rw [h.direct_take, h.blocks_out, hk,
      join_chunks file _ (by rw [BS_eq]; omega) (by rw [BS_eq]; omega)]
    exact List.take_left' rfl
  · rw [h.direct_take]
    have hne : Mkfs_adder.chosen_blocks img file.length ≠ [] := by
      intro e
      rw [e] at hk
      simp only [List.length_nil] at hk
      omega
    have hlast : ((file.length + 4095) / 4096 - 1) <
        (Mkfs_adder.chosen_blocks img file.length).length := by omega
    refine ⟨(image_sb img).data_region_start +
      (Mkfs_adder.chosen_blocks img file.length)[(file.length + 4095) / 4096 - 1], ?_, ?_⟩
    · rw [List.getLast?_eq_getElem?, List.length_map, hk, List.getElem?_map,
        List.getElem?_eq_getElem hlast]
      rfl
    · rw [h.block_out_new (List.getElem?_eq_getElem hlast), pwrite_zero_front,
        List.drop_replicate]
      have hl : (slice file (((file.length + 4095) / 4096 - 1) * BS) BS).length =
          file.length - ((file.length + 4095) / 4096 - 1) * 4096 := by
        rw [length_slice, BS_eq]; omega
      rw [hl, List.drop_append_of_le_length (by rw [hl]), ← hl, List.drop_length,
        List.nil_append, hl, BS_eq]
      have e : 4096 - (file.length - ((file.length + 4095) / 4096 - 1) * 4096) =
          (file.length + 4095) / 4096 * 4096 - file.length := by omega
      rw [e]

/-- Witness for C1: a two-byte file inserted into the fresh 180 KiB image with 128 inodes
is read back from the one block of the new inode, which is zero from byte 2 on. -/
theorem C1_file_bytes_read_back_witness :
    ∃ c out,
      Mkfs_adder.main (built_image 180 128 0 0) [102] [72, 105] 0 = ⟨.ok, some out⟩ ∧
      c < (image_sb (built_image 180 128 0 0)).inode_count ∧
      get_bit (inode_bitmap (built_image 180 128 0 0)) c = 0 ∧
      (∀ i, i < c → get_bit (inode_bitmap (built_image 180 128 0 0)) i = 1) ∧
      ((((image_inode out c).direct.take 1).map (image_block out)).flatten).take 2 =
        [72, 105] ∧
      ∃ last,
        ((image_inode out c).direct.take 1).getLast? = some last ∧
        (image_block out last).drop 2 = List.replicate 4094 0 :=
  C1_file_bytes_read_back (built_image 180 128 0 0) [102] [72, 105] 0
    (valid_built 180 128 0 0 (by decide) (by decide) (by decide) (by decide))
    (built_free_inode 180 128 0 0 (by decide) (by decide) (by decide))
    (built_free_slot 180 128 0 0 (by decide) (by decide) (by decide) (by decide))
    (by rw [built_free_blocks 180 128 0 0 (by decide) (by decide) (by decide) (by decide)]
        decide)
    (by decide) (by decide)

/-- C6: after a successful insertion of a file of `S` bytes into a valid image, the data
bitmap block has exactly `ceil(S / 4096)` bits that are set in the output and were clear in
the input, the inode bitmap block has exactly one such bit, and every bit set in an input
bitmap is set in the output. -/
theorem C6_bitmaps_after_insert (img file_name file : List Nat) (now : Nat)
    (V : ValidImage img) (hok : (Mkfs_adder.main img file_name file now).exit = .ok) :
    ∃ out, (Mkfs_adder.main img file_name file now).output = some out ∧
      ((List.range (8 * BS)).filter (fun j =>
        decide (get_bit (data_bitmap img) j = 0 ∧ get_bit (data_bitmap out) j = 1))).length =
        (file.length + 4095) / 4096 ∧
      ((List.range (8 * BS)).filter (fun i =>
        decide (get_bit (inode_bitmap img) i = 0 ∧ get_bit (inode_bitmap out) i = 1))).length =
        1 ∧
      (∀ j, get_bit (data_bitmap img) j = 1 → get_bit (data_bitmap out) j = 1) ∧
      (∀ i, get_bit (inode_bitmap img) i = 1 → get_bit (inode_bitmap out) i = 1) := by
  obtain ⟨c, slot, out, ho, h⟩ := Mkfs_adder.inserted_of_ok V hok
  refine ⟨out, ho, ?_, ?_, ?_, ?_⟩
  · rw [h.new_data_bits V.data_region_le]
    exact h.length_chosen.1
  · rw [h.new_inode_bits V.inode_count_le]
    rfl
  · intro j hj
    rw [h.data_bitmap_out, get_bit_foldl_set_bit _ _ h.chosen_div]
    split
    · rfl
    · exact hj
  · intro i hi
    obtain ⟨-, hc2, -⟩ := h.chosen_pos
    have hic := V.inode_count_le
    rw [h.inode_bitmap_out, get_bit_set_bit _ (by rw [length_inode_bitmap V]; omega)]
    split
    · rfl
    · exact hi

/-- Witness for C6: a 5000-byte file inserted into the fresh 180 KiB image. -/
theorem C6_bitmaps_after_insert_witness :
    (Mkfs_adder.main (built_image 180 128 0 0) [102] (List.replicate 5000 7) 0).exit = .ok ∧
    ∃ out, (Mkfs_adder.main (built_image 180 128 0 0) [102]
        (List.replicate 5000 7) 0).output = some out ∧
      ((List.range (8 * BS)).filter (fun j =>
        decide (get_bit (data_bitmap (built_image 180 128 0 0)) j = 0 ∧
          get_bit (data_bitmap out) j = 1))).length =
        ((List.replicate 5000 7).length + 4095) / 4096 ∧
      ((List.range (8 * BS)).filter (fun i =>
        decide (get_bit (inode_bitmap (built_image 180 128 0 0)) i = 0 ∧
          get_bit (inode_bitmap out) i = 1))).length = 1 ∧
      (∀ j, get_bit (data_bitmap (built_image 180 128 0 0)) j = 1 →
        get_bit (data_bitmap out) j = 1) ∧
      (∀ i, get_bit (inode_bitmap (built_image 180 128 0 0)) i = 1 →
        get_bit (inode_bitmap out) i = 1) :=
  ⟨Mkfs_adder.built_insert_ok 180 128 0 0 (by decide) (by decide) (by decide) (by decide)
      [102] (List.replicate 5000 7) 0 (by rw [List.length_replicate]; decide),
    C6_bitmaps_after_insert (built_image 180 128 0 0) [102] (List.replicate 5000 7) 0
      (valid_built 180 128 0 0 (by decide) (by decide) (by decide) (by decide))
      (Mkfs_adder.built_insert_ok 180 128 0 0 (by decide) (by decide) (by decide) (by decide)
        [102] (List.replicate 5000 7) 0 (by rw [List.length_replicate]; decide))⟩

/-- C7: after a successful insertion into a valid image (file name bytes below 256), the
lowest-indexed root directory slot whose inode number was 0 holds an entry with inode
number `c + 1` (`c` the inode index taken, the lowest clear bit of the inode bitmap), type 1,
the name's first 57 bytes followed by zero bytes, and a last byte that is the XOR of its
first 63 bytes; the other 63 slots are unchanged; the root inode has `links` one greater and
`size_bytes` 64 greater than before, and its stored checksum is the standard CRC-32
(`spec_crc32`, bit by bit as in spec §4.1) of the first 120 bytes of its slot. -/
theorem C7_root_directory_after_insert (img file_name file : List Nat) (now : Nat)
    (V : ValidImage img) (hname : ∀ b ∈ file_name, b < 256)
    (hok : (Mkfs_adder.main img file_name file now).exit = .ok) :
    ∃ out c slot, (Mkfs_adder.main img file_name file now).output = some out ∧
      (get_bit (inode_bitmap img) c = 0 ∧ ∀ i, i < c → get_bit (inode_bitmap img) i = 1) ∧
      slot < 64 ∧ (root_dirent img slot).inode_no = 0 ∧
      (∀ s, s < slot → (root_dirent img s).inode_no ≠ 0) ∧
      (root_dirent out slot).inode_no = c + 1 ∧
      (root_dirent out slot).type = 1 ∧
      (root_dirent out slot).name =
        file_name.take 57 ++ List.replicate (58 - (file_name.take 57).length) 0 ∧
      (root_slot out slot).length = 64 ∧
      (root_slot out slot).getD 63 0 = xor_bytes ((root_slot out slot).take 63) ∧
      (∀ s, s < 64 → s ≠ slot → root_slot out s = root_slot img s) ∧
      (image_inode out 0).links = (image_inode img 0).links + 1 ∧
      (image_inode out 0).size_bytes = (image_inode img 0).size_bytes + 64 ∧
      (image_inode out 0).inode_crc = spec_crc32 ((inode_slot out 0).take 120) := by
  obtain ⟨c, slot, out, ho, h⟩ := Mkfs_adder.inserted_of_ok V hok
  obtain ⟨hc1, hc2, hc3⟩ := h.chosen_pos
  obtain ⟨-, -, -, hc4⟩ := Mkfs_adder.pick_inode_eq_some h.pick
  have hic := V.inode_count_le
  rw [BS_eq] at hic
  have hsl := h.slot_lt
  have hd := h.root_dirent_out hsl
  rw [if_pos rfl] at hd
  have hs := h.root_slot_out hsl
  rw [if_pos rfl] at hs
  refine ⟨out, c, slot, ho, ⟨hc3, fun i hi => get_bit_ne_zero.mp (hc4 i (Nat.zero_le i) hi)⟩,
    hsl, h.slot_free.1, h.slot_free.2, ?_, ?_, ?_, ?_, ?_, ?_, h.root_links_out.1,
    h.root_links_out.2, ?_⟩
  · rw [hd]
    show (c + 1) % 2 ^ 32 = c + 1
    exact Nat.mod_eq_of_lt (by omega)
  · rw [hd]
    rfl
  · rw [hd]
    exact strncpy_terminated file_name
  · rw [hs, dirent_length_bytes]
  · rw [hs]
    apply dirent_checksum_is_xor
    intro b hb
    have hb' : b ∈ strncpy file_name (MAX_NAME - 1) ++ [0] := hb
    rcases List.mem_append.mp hb' with e | e
    · unfold strncpy at e
      rcases List.mem_append.mp e with e | e
      · exact hname b (List.mem_of_mem_take e)
      · rw [List.eq_of_mem_replicate e]
        norm_num
    · rw [List.mem_singleton.mp e]
      norm_num
  · intro s hs64 hne
    rw [h.root_slot_out hs64, if_neg hne]
  · rw [inserted_root_crc_out h, h.inode_slot_out_root]
    exact crc32_inode_bytes _ _

/-- Witness for C7: a one-byte file named "f" inserted into the fresh 180 KiB image. -/
theorem C7_root_directory_after_insert_witness :
    (∀ b ∈ ([102] : List Nat), b < 256) ∧
    (Mkfs_adder.main (built_image 180 128 0 0) [102] [7] 0).exit = .ok ∧
    ∃ out c slot, (Mkfs_adder.main (built_image 180 128 0 0) [102] [7] 0).output = some out ∧
      (get_bit (inode_bitmap (built_image 180 128 0 0)) c = 0 ∧
        ∀ i, i < c → get_bit (inode_bitmap (built_image 180 128 0 0)) i = 1) ∧
      slot < 64 ∧ (root_dirent (built_image 180 128 0 0) slot).inode_no = 0 ∧
      (∀ s, s < slot → (root_dirent (built_image 180 128 0 0) s).inode_no ≠ 0) ∧
      (root_dirent out slot).inode_no = c + 1 ∧
      (root_dirent out slot).type = 1 ∧
      (root_dirent out slot).name =
        ([102] : List Nat).take 57 ++
          List.replicate (58 - (([102] : List Nat).take 57).length) 0 ∧
      (root_slot out slot).length = 64 ∧
      (root_slot out slot).getD 63 0 = xor_bytes ((root_slot out slot).take 63) ∧
      (∀ s, s < 64 → s ≠ slot → root_slot out s = root_slot (built_image 180 128 0 0) s) ∧
      (image_inode out 0).links = (image_inode (built_image 180 128 0 0) 0).links + 1 ∧
      (image_inode out 0).size_bytes =
        (image_inode (built_image 180 128 0 0) 0).size_bytes + 64 ∧
      (image_inode out 0).inode_crc = spec_crc32 ((inode_slot out 0).take 120) :=
  ⟨by decide,
    Mkfs_adder.built_insert_ok 180 128 0 0 (by decide) (by decide) (by decide) (by decide)
      [102] [7] 0 (by decide),
    C7_root_directory_after_insert (built_image 180 128 0 0) [102] [7] 0
      (valid_built 180 128 0 0 (by decide) (by decide) (by decide) (by decide)) (by decide)
      (Mkfs_adder.built_insert_ok 180 128 0 0 (by decide) (by decide) (by decide) (by decide)
        [102] [7] 0 (by decide))⟩

/-- C8: after a successful insertion of an `S`-byte file into a valid image at time `now`,
the inode table slot at the index taken `c` (the lowest clear bit of the inode bitmap) holds
mode 0x8000, `links = 1`, `size_bytes = S`, the three timestamps equal to `now`,
`direct[0..k-1]` the `k = ceil(S / 4096)` newly allocated block numbers in ascending order,
`direct[k..11] = 0`, every other field zero, and as checksum the standard CRC-32
(`spec_crc32`, bit by bit as in spec §4.1) of the first 120 bytes of the slot. -/
theorem C8_new_inode_after_insert (img file_name file : List Nat) (now : Nat)
    (V : ValidImage img) (hnow : now < 2 ^ 64)
    (hok : (Mkfs_adder.main img file_name file now).exit = .ok) :
    ∃ out c, (Mkfs_adder.main img file_name file now).output = some out ∧
      (get_bit (inode_bitmap img) c = 0 ∧ ∀ i, i < c → get_bit (inode_bitmap img) i = 1) ∧
      (inode_slot out c).length = 128 ∧
      (((List.range (image_sb img).data_region_blocks).filter (fun j =>
        decide (get_bit (data_bitmap img) j = 0 ∧ get_bit (data_bitmap out) j = 1))).length =
        (file.length + 4095) / 4096) ∧
      image_inode out c =
        { mode := 0x8000
          links := 1
          uid := 0
          gid := 0
          size_bytes := file.length
          atime := now
          mtime := now
          ctime := now
          direct :=
            ((List.range (image_sb img).data_region_blocks).filter (fun j =>
              decide (get_bit (data_bitmap img) j = 0 ∧ get_bit (data_bitmap out) j = 1))).map
                (fun j => (image_sb img).data_region_start + j) ++
              List.replicate (12 - (file.length + 4095) / 4096) 0
          reserved_0 := 0
          reserved_1 := 0
          reserved_2 := 0
          proj_id := 0
          uid16_gid16 := 0
          xattr_ptr := 0
          inode_crc := spec_crc32 ((inode_slot out c).take 120) } := by
  obtain ⟨c, slot, out, ho, h⟩ := Mkfs_adder.inserted_of_ok V hok
  obtain ⟨hc1, hc2, hc3⟩ := h.chosen_pos
  obtain ⟨-, -, -, hc4⟩ := Mkfs_adder.pick_inode_eq_some h.pick
  obtain ⟨hk, -, hS⟩ := h.length_chosen
  refine ⟨out, c, ho, ⟨hc3, fun i hi => get_bit_ne_zero.mp (hc4 i (Nat.zero_le i) hi)⟩,
    ?_, ?_, ?_⟩
  · rw [h.inode_slot_out_new, inode_length_bytes]
  · rw [h.new_data_bits (le_refl _), hk]
  · have hcrc : (Mkfs_adder.final_inode img file.length now).inode_crc =
        spec_crc32 ((Mkfs_adder.final_inode img file.length now).bytes.take 120) := by
      rw [← crc32_inode_bytes]
      unfold Mkfs_adder.final_inode
      exact inode_crc_finalize_checksum _
    rw [h.new_data_bits (le_refl _), h.inode_slot_out_new, ← hcrc, ← hk, ← h.final_direct,
      h.image_inode_out_new]
    simp only [Mkfs_adder.final_inode, inode_crc_finalize, Mkfs_adder.new_inode, inode_t.zero,
      inode_t.mk.injEq, true_and, and_true]
    exact ⟨Nat.mod_eq_of_lt (by omega), Nat.mod_eq_of_lt hnow, Nat.mod_eq_of_lt hnow,
      Nat.mod_eq_of_lt hnow⟩

/-- Witness for C8: a 5000-byte file inserted into the fresh 180 KiB image at time 1000. -/
theorem C8_new_inode_after_insert_witness :
    (1000 : Nat) < 2 ^ 64 ∧
    (Mkfs_adder.main (built_image 180 128 0 0) [102] (List.replicate 5000 7) 1000).exit = .ok ∧
    ∃ out c, (Mkfs_adder.main (built_image 180 128 0 0) [102]
        (List.replicate 5000 7) 1000).output = some out ∧
      (get_bit (inode_bitmap (built_image 180 128 0 0)) c = 0 ∧
        ∀ i, i < c → get_bit (inode_bitmap (built_image 180 128 0 0)) i = 1) ∧
      (inode_slot out c).length = 128 ∧
      (((List.range (image_sb (built_image 180 128 0 0)).data_region_blocks).filter (fun j =>
        decide (get_bit (data_bitmap (built_image 180 128 0 0)) j = 0 ∧
          get_bit (data_bitmap out) j = 1))).length =
        ((List.replicate 5000 7).length + 4095) / 4096) ∧
      image_inode out c =
        { mode := 0x8000
          links := 1
          uid := 0
          gid := 0
          size_bytes := (List.replicate 5000 7).length
          atime := 1000
          mtime := 1000
          ctime := 1000
          direct :=
            ((List.range (image_sb (built_image 180 128 0 0)).data_region_blocks).filter
              (fun j => decide (get_bit (data_bitmap (built_image 180 128 0 0)) j = 0 ∧
                get_bit (data_bitmap out) j = 1))).map
                (fun j => (image_sb (built_image 180 128 0 0)).data_region_start + j) ++
              List.replicate (12 - ((List.replicate 5000 7).length + 4095) / 4096) 0
          reserved_0 := 0
          reserved_1 := 0
          reserved_2 := 0
          proj_id := 0
          uid16_gid16 := 0
          xattr_ptr := 0
          inode_crc := spec_crc32 ((inode_slot out c).take 120) } :=
  ⟨by decide,
    Mkfs_adder.built_insert_ok 180 128 0 0 (by decide) (by decide) (by decide) (by decide)
      [102] (List.replicate 5000 7) 1000 (by rw [List.length_replicate]; decide),
    C8_new_inode_after_insert (built_image 180 128 0 0) [102] (List.replicate 5000 7) 1000
      (valid_built 180 128 0 0 (by decide) (by decide) (by decide) (by decide)) (by decide)
      (Mkfs_adder.built_insert_ok 180 128 0 0 (by decide) (by decide) (by decide) (by decide)
        [102] (List.replicate 5000 7) 1000 (by rw [List.length_replicate]; decide))⟩

/-- C9: on a valid image with a free inode, a file of exactly 49152 bytes is inserted
successfully when a root slot and 12 data blocks are free, and all 12 direct slots of the
new inode are then non-zero; a file of 49153 bytes or more (a size is an `off_t`, below
`2 ^ 63`) is rejected as too large and the output image is byte-identical to the input. -/
theorem C9_size_boundary (img file_name file : List Nat) (now : Nat) (V : ValidImage img)
    (hino : ∃ i, i < (image_sb img).inode_count ∧ get_bit (inode_bitmap img) i = 0) :
    (file.length = 49152 → (∃ s, s < 64 ∧ (root_dirent img s).inode_no = 0) →
      12 ≤ free_bits (data_bitmap img) (image_sb img).data_region_blocks →
      ∃ out c, Mkfs_adder.main img file_name file now = ⟨.ok, some out⟩ ∧
        (get_bit (inode_bitmap img) c = 0 ∧ ∀ i, i < c → get_bit (inode_bitmap img) i = 1) ∧
        (image_inode out c).direct.length = 12 ∧
        ∀ w ∈ (image_inode out c).direct, w ≠ 0) ∧
    (49152 < file.length → file.length < 2 ^ 63 →
      Mkfs_adder.main img file_name file now = ⟨.file_too_large, some img⟩) := by
  constructor
  · intro hlen hslot hblk
    obtain ⟨c, slot, out, h⟩ := Mkfs_adder.exists_inserted V file_name file now hino hslot
      (by rw [hlen]; exact hblk) (by omega)
    obtain ⟨hc1, hc2, hc3⟩ := h.chosen_pos
    obtain ⟨-, -, -, hc4⟩ := Mkfs_adder.pick_inode_eq_some h.pick
    obtain ⟨hk, -, -⟩ := h.length_chosen
    have hk12 : (Mkfs_adder.chosen_blocks img file.length).length = 12 := by
      rw [hk, hlen]
    refine ⟨out, c, Mkfs_adder.main_of_inserted h,
      ⟨hc3, fun i hi => get_bit_ne_zero.mp (hc4 i (Nat.zero_le i) hi)⟩, ?_, ?_⟩
    · rw [h.image_inode_out_new, h.final_direct, List.length_append, List.length_map,
        List.length_replicate, hk12]
    · intro w hw
      rw [h.image_inode_out_new, h.final_direct, hk12, Nat.sub_self, List.replicate_zero,
        List.append_nil] at hw
      obtain ⟨j, -, hj⟩ := List.mem_map.mp hw
      have := V.data_region_start
      omega
  · intro hbig hoff
    rw [Mkfs_adder.main_eq_main_valid V]
    unfold Mkfs_adder.main_valid
    obtain ⟨i, hi, hbit⟩ := hino
    obtain ⟨c, hc⟩ := Mkfs_adder.pick_inode_isSome (n := (image_sb img).inode_count) (i := 0)
      (Nat.zero_le i) (by omega) hbit
    rw [hc]
    simp only
    rw [if_pos (by rw [BS_eq]; omega)]

/-- Witness for C9 on the fresh 180 KiB image: a 49152-byte file is inserted, a 49153-byte
file is rejected and leaves the image as it was. -/
theorem C9_size_boundary_witness :
    (∃ out c, Mkfs_adder.main (built_image 180 128 0 0) [102] (List.replicate 49152 7) 0 =
        ⟨.ok, some out⟩ ∧
      (get_bit (inode_bitmap (built_image 180 128 0 0)) c = 0 ∧
        ∀ i, i < c → get_bit (inode_bitmap (built_image 180 128 0 0)) i = 1) ∧
      (image_inode out c).direct.length = 12 ∧
      ∀ w ∈ (image_inode out c).direct, w ≠ 0) ∧
    Mkfs_adder.main (built_image 180 128 0 0) [102] (List.replicate 49153 7) 0 =
      ⟨.file_too_large, some (built_image 180 128 0 0)⟩ :=
  ⟨(C9_size_boundary (built_image 180 128 0 0) [102] (List.replicate 49152 7) 0
      (valid_built 180 128 0 0 (by decide) (by decide) (by decide) (by decide))
      (built_free_inode 180 128 0 0 (by decide) (by decide) (by decide))).1
      (List.length_replicate _ _)
      (built_free_slot 180 128 0 0 (by decide) (by decide) (by decide) (by decide))
      (by rw [built_free_blocks 180 128 0 0 (by decide) (by decide) (by decide) (by decide)]
          decide),
    (C9_size_boundary (built_image 180 128 0 0) [102] (List.replicate 49153 7) 0
      (valid_built 180 128 0 0 (by decide) (by decide) (by decide) (by decide))
      (built_free_inode 180 128 0 0 (by decide) (by decide) (by decide))).2
      (by rw [List.length_replicate]; decide) (by rw [List.length_replicate]; decide)⟩

/-- C10, the claim as stated fails: on the image built with 180 KiB and 128 inodes (38 data
blocks, one of them the root directory's) the first 37 one-byte insertions succeed and the
38th, not the 63rd, fails, with "not enough free data blocks". -/
theorem C10_exhaustion_counterexample :
    ∃ img, Mkfs_builder.main (180 : Nat) (128 : Nat) 0 0 = .ok img ∧
      (Mkfs_adder.add_seq img (List.replicate 63 ([102], [7], 0))).1 =
        List.replicate 37 .ok ++ [.not_enough_data_blocks] := by
  refine ⟨_, Mkfs_builder.main_eq_built 180 128 0 0 (by decide) (by decide) (by decide)
    (by decide) (by decide), ?_⟩
  have F := Mkfs_adder.filled_built 180 128 0 0 (by decide) (by decide) (by decide)
    (by decide)
  have hsb := image_sb_built 180 128 0 0 (by decide) (by decide)
  have hic : (image_sb (built_image 180 128 0 0)).inode_count = 128 := by rw [hsb]; rfl
  have hdb : (image_sb (built_image 180 128 0 0)).data_region_blocks = 38 := by rw [hsb]; rfl
  obtain ⟨out, -, -, h⟩ := F.add_seq_until (List.replicate 63 ([102], [7], 0)) 37
    (by rw [List.length_replicate]; decide)
    (fun r hr => by rw [List.eq_of_mem_replicate hr]; rfl)
    (by rw [hic]; decide) (by rw [hdb]; decide) (by decide) (Or.inl (by rw [hdb]))
  rw [h, hdb]
  rfl

/-- C10 (amended): for an image built with inode capacity 128 and a size of at least
284 KiB (so that the data region has at least 64 blocks), a sequence of one-byte-file
insertions, each applied to the previous output, succeeds for the first 62 insertions and
the 63rd fails with "no free dirent slot", although the image it is applied to still has a
free inode. -/
theorem C10_root_directory_exhaustion (size_kib t_sb t_ino : Nat)
    (reqs : List (List Nat × List Nat × Nat)) (hs : 284 ≤ size_kib) (hs' : size_kib ≤ 4096)
    (h4 : size_kib % 4 = 0) (hlen : reqs.length = 63) (hone : ∀ r ∈ reqs, r.2.1.length = 1) :
    ∃ img, Mkfs_builder.main size_kib (128 : Nat) t_sb t_ino = .ok img ∧
      (Mkfs_adder.add_seq img reqs).1 = List.replicate 62 .ok ++ [.no_free_dirent_slot] ∧
      ∃ i, i < (image_sb (Mkfs_adder.add_seq img reqs).2).inode_count ∧
        get_bit (inode_bitmap (Mkfs_adder.add_seq img reqs).2) i = 0 := by
  refine ⟨_, Mkfs_builder.main_eq_built size_kib 128 t_sb t_ino (by omega) hs' h4
    (by decide) (by decide), ?_⟩
  have F := Mkfs_adder.filled_built size_kib 128 t_sb t_ino (by omega) hs' (by decide)
    (by decide)
  have hsb := image_sb_built size_kib 128 t_sb t_ino hs' (by decide)
  have hic : (image_sb (built_image size_kib 128 t_sb t_ino)).inode_count = 128 := by
    rw [hsb]; rfl
  have hdb : (image_sb (built_image size_kib 128 t_sb t_ino)).data_region_blocks =
      size_kib / 4 - 3 - 4 := by
    rw [hsb]; rfl
  obtain ⟨out, Fo, hso, h⟩ := F.add_seq_until reqs 62 (by omega) hone
    (by rw [hic]; decide) (by rw [hdb]; omega) (by decide) (Or.inr (by decide))
  rw [h, if_neg (by rw [hdb]; omega)]
  refine ⟨rfl, 63, ?_, ?_⟩
  · show 63 < (image_sb out).inode_count
    rw [hso, hic]
    decide
  · show get_bit (inode_bitmap out) 63 = 0
    exact (Fo.inodes 63 (by rw [hso, hic]; decide)).mpr (by decide)

/-- Witness for the amended C10: 284 KiB, 128 inodes, 63 one-byte files. -/
theorem C10_root_directory_exhaustion_witness :
    ∃ img, Mkfs_builder.main (284 : Nat) (128 : Nat) 0 0 = .ok img ∧
      (Mkfs_adder.add_seq img (List.replicate 63 ([102], [7], 0))).1 =
        List.replicate 62 .ok ++ [.no_free_dirent_slot] ∧
      ∃ i, i < (image_sb (Mkfs_adder.add_seq img
          (List.replicate 63 ([102], [7], 0))).2).inode_count ∧
        get_bit (inode_bitmap (Mkfs_adder.add_seq img
          (List.replicate 63 ([102], [7], 0))).2) i = 0 :=
  C10_root_directory_exhaustion 284 0 0 (List.replicate 63 ([102], [7], 0)) (by decide)
    (by decide) (by decide) (List.length_replicate _ _)
    (fun r hr => by rw [List.eq_of_mem_replicate hr]; rfl)

/-- C11: the builder rejects a `(size_kib, inodes)` pair exactly when `size_kib` is outside
[180, 4096], `size_kib` is not a multiple of 4, `inodes` is outside [128, 512],
`3 + inode_table_blocks > total_blocks`, or the data region would have zero blocks; every
other pair is accepted and produces an image. -/
theorem C11_builder_rejects (size_kib inodes : Int) (t_sb t_ino : Nat) :
    ((∃ e, Mkfs_builder.main size_kib inodes t_sb t_ino = .error e) ↔
      (size_kib < 180 ∨ 4096 < size_kib ∨ size_kib % 4 ≠ 0 ∨ inodes < 128 ∨ 512 < inodes ∨
        size_kib.toNat * 1024 / 4096 < 3 + (inodes.toNat * 128 + 4095) / 4096 ∨
        size_kib.toNat * 1024 / 4096 - 3 - (inodes.toNat * 128 + 4095) / 4096 = 0)) ∧
    ((∃ img, Mkfs_builder.main size_kib inodes t_sb t_ino = .ok img) ↔
      ¬ (size_kib < 180 ∨ 4096 < size_kib ∨ size_kib % 4 ≠ 0 ∨ inodes < 128 ∨ 512 < inodes ∨
        size_kib.toNat * 1024 / 4096 < 3 + (inodes.toNat * 128 + 4095) / 4096 ∨
        size_kib.toNat * 1024 / 4096 - 3 - (inodes.toNat * 128 + 4095) / 4096 = 0)) := by
  have key : (∃ img, Mkfs_builder.main size_kib inodes t_sb t_ino = .ok img) ↔
      ¬ (size_kib < 180 ∨ 4096 < size_kib ∨ size_kib % 4 ≠ 0 ∨ inodes < 128 ∨ 512 < inodes ∨
        size_kib.toNat * 1024 / 4096 < 3 + (inodes.toNat * 128 + 4095) / 4096 ∨
        size_kib.toNat * 1024 / 4096 - 3 - (inodes.toNat * 128 + 4095) / 4096 = 0) := by
    constructor
    · rintro ⟨img, h⟩
      obtain ⟨h1, h2, h3, h4, h5⟩ := Mkfs_builder.main_ok_params h
      omega
    · intro h
      have h1 : 180 ≤ size_kib := by omega
      have h2 : size_kib ≤ 4096 := by omega
      have h3 : size_kib % 4 = 0 := by omega
      have h4 : 128 ≤ inodes := by omega
      have h5 : inodes ≤ 512 := by omega
      refine ⟨built_image size_kib.toNat inodes.toNat t_sb t_ino, ?_⟩
      have e1 : size_kib = (size_kib.toNat : Int) := by omega
      have e2 : inodes = (inodes.toNat : Int) := by omega
      have := Mkfs_builder.main_eq_built size_kib.toNat inodes.toNat t_sb t_ino (by omega)
        (by omega) (by omega) (by omega) (by omega)
      rw [← e1, ← e2] at this
      exact this
  refine ⟨?_, key⟩
  rw [← not_iff_not, ← key]
  constructor
  · intro h
    cases hm : Mkfs_builder.main size_kib inodes t_sb t_ino with
    | error e => exact absurd ⟨e, hm⟩ h
    | ok img => exact ⟨img, rfl⟩
  · rintro ⟨img, h⟩ ⟨e, he⟩
    rw [h] at he
    cases he

/-- C12: in every image reachable from a built image by successful insertions, inode bitmap
bit `i` is set if and only if some root directory entry names inode number `i + 1`, whose
inode slot then has `links ≥ 1`; data bitmap bit `j` is set if and only if block
`data_region_start + j` is a direct pointer of exactly one such inode; and no data block is a
direct pointer of two inode slots. -/
theorem C12_bitmaps_synced (img : List Nat) (h : Reachable img) :
    (∀ i, get_bit (inode_bitmap img) i = 1 ↔
      ((∃ s, s < 64 ∧ (root_dirent img s).inode_no = i + 1) ∧ 1 ≤ (image_inode img i).links)) ∧
    (∀ i, (∃ s, s < 64 ∧ (root_dirent img s).inode_no = i + 1) →
      i < (image_sb img).inode_count ∧ 1 ≤ (image_inode img i).links) ∧
    (∀ j, get_bit (data_bitmap img) j = 1 ↔
      ∃! i, (∃ s, s < 64 ∧ (root_dirent img s).inode_no = i + 1) ∧
        (image_sb img).data_region_start + j ∈ (image_inode img i).direct) ∧
    (∀ i1 i2 j, i1 < (image_sb img).inode_count → i2 < (image_sb img).inode_count →
      (image_sb img).data_region_start + j ∈ (image_inode img i1).direct →
      (image_sb img).data_region_start + j ∈ (image_inode img i2).direct → i1 = i2) := by
  have S := synced_of_reachable h
  refine ⟨?_, ?_, ?_, ?_⟩
  · intro i
    constructor
    · intro hi
      exact ⟨(S.inode_bits i).mp hi, S.links i hi⟩
    · rintro ⟨hs, -⟩
      exact (S.inode_bits i).mpr hs
  · intro i hs
    have hi := (S.inode_bits i).mpr hs
    exact ⟨S.inode_range i hi, S.links i hi⟩
  · intro j
    constructor
    · intro hj
      obtain ⟨i, hi, hd⟩ := (S.data_bits j).mp hj
      refine ⟨i, ⟨(S.inode_bits i).mp hi, hd⟩, ?_⟩
      rintro i' ⟨hs', hd'⟩
      exact S.unique i' i j ((S.inode_bits i').mpr hs') hi hd' hd
    · rintro ⟨i, ⟨hs, hd⟩, -⟩
      exact (S.data_bits j).mpr ⟨i, (S.inode_bits i).mpr hs, hd⟩
  · intro i1 i2 j h1 h2 d1 d2
    have b1 : get_bit (inode_bitmap img) i1 = 1 := by
      rcases get_bit_zero_or_one (inode_bitmap img) i1 with hb | hb
      · exact absurd d1 (S.free_inodes i1 h1 hb j)
      · exact hb
    have b2 : get_bit (inode_bitmap img) i2 = 1 := by
      rcases get_bit_zero_or_one (inode_bitmap img) i2 with hb | hb
      · exact absurd d2 (S.free_inodes i2 h2 hb j)
      · exact hb
    exact S.unique i1 i2 j b1 b2 d1 d2

/-- Witness for C12: the fresh 180 KiB image with 128 inodes. -/
theorem C12_bitmaps_synced_witness :
    (∀ i, get_bit (inode_bitmap (built_image 180 128 0 0)) i = 1 ↔
      ((∃ s, s < 64 ∧ (root_dirent (built_image 180 128 0 0) s).inode_no = i + 1) ∧
        1 ≤ (image_inode (built_image 180 128 0 0) i).links)) ∧
    (∀ i, (∃ s, s < 64 ∧ (root_dirent (built_image 180 128 0 0) s).inode_no = i + 1) →
      i < (image_sb (built_image 180 128 0 0)).inode_count ∧
        1 ≤ (image_inode (built_image 180 128 0 0) i).links) ∧
    (∀ j, get_bit (data_bitmap (built_image 180 128 0 0)) j = 1 ↔
      ∃! i, (∃ s, s < 64 ∧ (root_dirent (built_image 180 128 0 0) s).inode_no = i + 1) ∧
        (image_sb (built_image 180 128 0 0)).data_region_start + j ∈
          (image_inode (built_image 180 128 0 0) i).direct) ∧
    (∀ i1 i2 j, i1 < (image_sb (built_image 180 128 0 0)).inode_count →
      i2 < (image_sb (built_image 180 128 0 0)).inode_count →
      (image_sb (built_image 180 128 0 0)).data_region_start + j ∈
        (image_inode (built_image 180 128 0 0) i1).direct →
      (image_sb (built_image 180 128 0 0)).data_region_start + j ∈
        (image_inode (built_image 180 128 0 0) i2).direct → i1 = i2) :=
  C12_bitmaps_synced (built_image 180 128 0 0)
    (Reachable.built ((180 : Nat) : Int) ((128 : Nat) : Int) 0 0 _
      (Mkfs_builder.main_eq_built 180 128 0 0 (by decide) (by decide) (by decide) (by decide)
        (by decide)))

/-- C13, the claim as stated fails: on the image reached from the fresh 284 KiB image with
128 inodes by 62 one-byte insertions, the next one-byte insertion ends with "no free dirent
slot"; the output holds the new file's inode record in slot 63 (a file with one link whose
`direct[0]` is block 70, the data block of index 63), but bit 63 of the on-disk inode bitmap
and bit 63 of the on-disk data bitmap are clear. -/
theorem C13_unlinked_counterexample :
    ∃ out,
      Mkfs_adder.main full_root_image [102] [7] 0 = ⟨.no_free_dirent_slot, some out⟩ ∧
      (image_inode out 63).mode = 0x8000 ∧
      (image_inode out 63).links = 1 ∧
      (image_inode out 63).direct.getD 0 0 = 70 ∧
      (image_sb out).data_region_start + 63 = 70 ∧
      get_bit (inode_bitmap out) 63 = 0 ∧
      get_bit (data_bitmap out) 63 = 0 := by
  obtain ⟨F, hic, hdb, hds⟩ := filled_full_root_image
  obtain ⟨c, out, hm, h⟩ := Mkfs_adder.unlinked_of_exit F.valid
    (full_root_image_no_slot [102] 0)
  have hc : c = 63 := by
    have h1 := h.pick
    rw [F.pick (by rw [hic]; decide)] at h1
    exact (Option.some.inj h1).symm
  subst hc
  have hch : Mkfs_adder.chosen_blocks full_root_image ([7] : List Nat).length = [63] :=
    F.chosen_blocks_one (by rw [hdb]; decide)
  have hdir := h.inode_direct
  rw [hch, hds] at hdir
  refine ⟨out, hm, ?_, ?_, ?_, ?_, ?_, ?_⟩
  · rw [h.inode_written]; rfl
  · rw [h.inode_written]; rfl
  · rw [h.inode_written, hdir]; rfl
  · rw [h.same_sb, hds]
  · rw [h.same_inode_bitmap]
    exact (F.inodes 63 (by rw [hic]; decide)).mpr (by decide)
  · rw [h.same_data_bitmap]
    exact (F.blocks 63 (by rw [hdb]; decide)).mpr (by decide)

/-- C13 (amended): when an insertion into a valid image fails at the directory-linking step
with "no free dirent slot", the destination image holds the new file's inode record in the
inode slot of the index taken `c` and the file's bytes in the data blocks that record names,
but the on-disk inode and data bitmaps are those of the input image, so the bit of the new
inode and the bits of its data blocks are still clear; the root inode and the root directory
block, all of whose slots are in use, are unchanged, so no directory entry was added. -/
theorem C13_failed_link_leaves_bitmaps (img file_name file : List Nat) (now : Nat)
    (V : ValidImage img)
    (hfail : (Mkfs_adder.main img file_name file now).exit = .no_free_dirent_slot) :
    ∃ out c, (Mkfs_adder.main img file_name file now).output = some out ∧
      (c < (image_sb img).inode_count ∧ get_bit (inode_bitmap img) c = 0 ∧
        ∀ i, i < c → get_bit (inode_bitmap img) i = 1) ∧
      (image_inode out c).mode = 0x8000 ∧
      (image_inode out c).links = 1 ∧
      (image_inode out c).size_bytes = file.length ∧
      (image_inode out c).direct =
        (((List.range (image_sb img).data_region_blocks).filter
          (fun j => get_bit (data_bitmap img) j = 0)).take ((file.length + 4095) / 4096)).map
            (fun j => (image_sb img).data_region_start + j) ++
          List.replicate (12 - (file.length + 4095) / 4096) 0 ∧
      ((((image_inode out c).direct.take ((file.length + 4095) / 4096)).map
        (image_block out)).flatten).take file.length = file ∧
      inode_bitmap out = inode_bitmap img ∧
      data_bitmap out = data_bitmap img ∧
      get_bit (inode_bitmap out) c = 0 ∧
      (∀ j ∈ ((List.range (image_sb img).data_region_blocks).filter
          (fun j => get_bit (data_bitmap img) j = 0)).take ((file.length + 4095) / 4096),
        get_bit (data_bitmap out) j = 0) ∧
      inode_slot out 0 = inode_slot img 0 ∧
      ∀ s, s < 64 → root_slot out s = root_slot img s ∧ (root_dirent out s).inode_no ≠ 0 := by
  obtain ⟨c, out, hm, h⟩ := Mkfs_adder.unlinked_of_exit V hfail
  obtain ⟨hc1, hc2, hc3⟩ := h.inode_pos
  obtain ⟨-, -, -, hc4⟩ := Mkfs_adder.pick_inode_eq_some h.pick
  obtain ⟨hk, hk12, hS⟩ := h.blocks_count
  have hch := Mkfs_adder.chosen_blocks_eq_take_filter img
    (show file.length < 2 ^ 63 by omega)
  refine ⟨out, c, by rw [hm], ⟨hc2, hc3, fun i hi => get_bit_ne_zero.mp (hc4 i (Nat.zero_le i) hi)⟩,
    ?_, ?_, ?_, ?_, ?_, h.same_inode_bitmap, h.same_data_bitmap, ?_, ?_, h.same_root_inode, ?_⟩
  · rw [h.inode_written]; rfl
  · rw [h.inode_written]; rfl
  · rw [h.inode_written]
    show file.length % 2 ^ 64 = file.length
    exact Nat.mod_eq_of_lt (by omega)
  · rw [h.inode_written, h.inode_direct, hk, hch]
  · rw [h.file_blocks]
    exact List.take_left' rfl
  · rw [h.same_inode_bitmap]; exact hc3
  · intro j hj
    rw [← hch] at hj
    rw [h.same_data_bitmap]
    exact (Mkfs_adder.mem_chosen_blocks V hj).2.2
  · intro s hs
    refine ⟨h.same_root_slot s, ?_⟩
    unfold root_dirent
    rw [h.same_root_slot s]
    exact h.slots_used s hs

/-- Witness for the amended C13: a one-byte file and the image whose root directory is
full. -/
theorem C13_failed_link_leaves_bitmaps_witness :
    (Mkfs_adder.main full_root_image [102] [7] 0).exit = .no_free_dirent_slot ∧
    ∃ out c, (Mkfs_adder.main full_root_image [102] [7] 0).output = some out ∧
      (c < (image_sb full_root_image).inode_count ∧
        get_bit (inode_bitmap full_root_image) c = 0 ∧
        ∀ i, i < c → get_bit (inode_bitmap full_root_image) i = 1) ∧
      (image_inode out c).mode = 0x8000 ∧
      (image_inode out c).links = 1 ∧
      (image_inode out c).size_bytes = ([7] : List Nat).length ∧
      (image_inode out c).direct =
        (((List.range (image_sb full_root_image).data_region_blocks).filter
          (fun j => get_bit (data_bitmap full_root_image) j = 0)).take
            ((([7] : List Nat).length + 4095) / 4096)).map
            (fun j => (image_sb full_root_image).data_region_start + j) ++
          List.replicate (12 - (([7] : List Nat).length + 4095) / 4096) 0 ∧
      ((((image_inode out c).direct.take ((([7] : List Nat).length + 4095) / 4096)).map
        (image_block out)).flatten).take ([7] : List Nat).length = [7] ∧
      inode_bitmap out = inode_bitmap full_root_image ∧
      data_bitmap out = data_bitmap full_root_image ∧
      get_bit (inode_bitmap out) c = 0 ∧
      (∀ j ∈ ((List.range (image_sb full_root_image).data_region_blocks).filter
          (fun j => get_bit (data_bitmap full_root_image) j = 0)).take
            ((([7] : List Nat).length + 4095) / 4096),
        get_bit (data_bitmap out) j = 0) ∧
      inode_slot out 0 = inode_slot full_root_image 0 ∧
      ∀ s, s < 64 → root_slot out s = root_slot full_root_image s ∧
        (root_dirent out s).inode_no ≠ 0 :=
  ⟨full_root_image_no_slot [102] 0,
    C13_failed_link_leaves_bitmaps full_root_image [102] [7] 0 filled_full_root_image.1.valid
      (full_root_image_no_slot [102] 0)⟩

/-- C14: for every superblock, inode and directory entry, finalizing an already finalized
record returns the same record, and finalizing changes no field other than the checksum
field (putting the old checksum back gives the record that was finalized). -/
theorem C14_finalize_idempotent (sb : superblock_t) (ino : inode_t) (d : dirent64_t) :
    superblock_crc_finalize (superblock_crc_finalize sb) = superblock_crc_finalize sb ∧
    inode_crc_finalize (inode_crc_finalize ino) = inode_crc_finalize ino ∧
    dirent_checksum_finalize (dirent_checksum_finalize d) = dirent_checksum_finalize d ∧
    { superblock_crc_finalize sb with checksum := sb.checksum } = sb ∧
    { inode_crc_finalize ino with inode_crc := ino.inode_crc } = ino ∧
    { dirent_checksum_finalize d with checksum := d.checksum } = d := by
  refine ⟨?_, ?_, ?_, rfl, rfl, rfl⟩
  · rfl
  · have l1 := inode_length_bytes ino
    have l2 := inode_length_bytes
      { ino with inode_crc := crc32 ((pwrite ino.bytes 120 (List.replicate 8 0)).take 120) }
    have t : ∀ b : List Nat, b.length = 128 →
        (pwrite b 120 (List.replicate 8 0)).take 120 = b.take 120 := by
      intro b hb
      rw [pwrite_eq_of_le (by omega), List.append_assoc, List.take_append_of_le_length
        (by rw [List.length_take]; omega), List.take_take]
      simp
    unfold inode_crc_finalize
    simp only [inode_t.mk.injEq, true_and, and_true]
    rw [t _ l2, t _ l1, inode_bytes_take]
  · unfold dirent_checksum_finalize
    simp only [dirent64_t.mk.injEq, true_and, and_true]
    rw [dirent_bytes_take]

/-- C15: for every byte sequence the table-driven `crc32` equals the standard reflected
CRC-32 computed bit by bit (polynomial 0xEDB88320, initial value 0xFFFFFFFF, final XOR
0xFFFFFFFF), the table holding for each byte value the result of eight bit steps; `crc32` of
the ASCII bytes "123456789" is 0xCBF43926 and `crc32` of the empty sequence is 0; the adder's
copy of `crc32` is the same function as the builder's. -/
theorem C15_crc32_standard (data : List Nat) (h : ∀ b ∈ data, b < 256) :
    crc32 data = spec_crc32 data ∧
    Mkfs_adder.crc32 data = crc32 data ∧
    CRC32_TAB.length = 256 ∧
    (∀ i, i < 256 → CRC32_TAB.getD i 0 = Nat.iterate spec_crc32_bit 8 i) ∧
    crc32 [49, 50, 51, 52, 53, 54, 55, 56, 57] = 0xCBF43926 ∧
    crc32 [] = 0 := by
  refine ⟨crc32_eq_spec data h, crc32_copies_eq data, length_CRC32_TAB, ?_, crc32_check_value,
    crc32_nil⟩
  intro i hi
  rw [CRC32_TAB_getD i hi, iterate_spec_crc32_bit]

/-- Witness for C15: the bytes of "123456789". -/
theorem C15_crc32_standard_witness :
    crc32 [49, 50, 51, 52, 53, 54, 55, 56, 57] = spec_crc32 [49, 50, 51, 52, 53, 54, 55, 56, 57] ∧
    Mkfs_adder.crc32 [49, 50, 51, 52, 53, 54, 55, 56, 57] =
      crc32 [49, 50, 51, 52, 53, 54, 55, 56, 57] ∧
    CRC32_TAB.length = 256 ∧
    (∀ i, i < 256 → CRC32_TAB.getD i 0 = Nat.iterate spec_crc32_bit 8 i) ∧
    crc32 [49, 50, 51, 52, 53, 54, 55, 56, 57] = 0xCBF43926 ∧
    crc32 [] = 0 :=
  C15_crc32_standard [49, 50, 51, 52, 53, 54, 55, 56, 57] (by decide)

/-- C16: a successful insertion into a valid image takes as the new inode index `c` the
lowest-indexed clear bit of the inode bitmap among the indices below `inode_count` (its bit
is set in the output and the new root entry names inode `c + 1`), and allocates exactly the
`required_blocks = ceil(S / 4096)` lowest-indexed clear bits of the data bitmap among the
indices below `data_region_blocks`, in ascending order: `direct[0]`, `direct[1]`, ... of the
new inode hold `data_region_start + index` in that order, the rest of `direct` is zero, the
used direct pointers are strictly increasing, and exactly these bits are added to the data
bitmap. -/
theorem C16_first_fit (img file_name file : List Nat) (now : Nat) (V : ValidImage img)
    (hok : (Mkfs_adder.main img file_name file now).exit = .ok) :
    ∃ out c slot, (Mkfs_adder.main img file_name file now).output = some out ∧
      c < (image_sb img).inode_count ∧ get_bit (inode_bitmap img) c = 0 ∧
      (∀ i, i < c → get_bit (inode_bitmap img) i = 1) ∧
      get_bit (inode_bitmap out) c = 1 ∧
      slot < 64 ∧ (root_dirent img slot).inode_no = 0 ∧ (root_dirent out slot).inode_no = c + 1 ∧
      (((List.range (image_sb img).data_region_blocks).filter
        (fun j => get_bit (data_bitmap img) j = 0)).take ((file.length + 4095) / 4096)).length =
        (file.length + 4095) / 4096 ∧
      (image_inode out c).direct =
        (((List.range (image_sb img).data_region_blocks).filter
          (fun j => get_bit (data_bitmap img) j = 0)).take ((file.length + 4095) / 4096)).map
            (fun j => (image_sb img).data_region_start + j) ++
          List.replicate (12 - (file.length + 4095) / 4096) 0 ∧
      ((image_inode out c).direct.take ((file.length + 4095) / 4096)).Pairwise (· < ·) ∧
      ∀ j, get_bit (data_bitmap out) j = 1 ↔
        (get_bit (data_bitmap img) j = 1 ∨
          j ∈ ((List.range (image_sb img).data_region_blocks).filter
            (fun j => get_bit (data_bitmap img) j = 0)).take ((file.length + 4095) / 4096)) := by
  obtain ⟨c, slot, out, ho, h⟩ := Mkfs_adder.inserted_of_ok V hok
  obtain ⟨hc1, hc2, hc3⟩ := h.chosen_pos
  obtain ⟨-, -, -, hc4⟩ := Mkfs_adder.pick_inode_eq_some h.pick
  obtain ⟨hk, hk12, hS⟩ := h.length_chosen
  have hic := V.inode_count_le
  have hsl := h.slot_lt
  have hd := h.root_dirent_out hsl
  rw [if_pos rfl] at hd
  have hch := Mkfs_adder.chosen_blocks_eq_take_filter img
    (show file.length < 2 ^ 63 by omega)
  refine ⟨out, c, slot, ho, hc2, hc3, fun i hi => get_bit_ne_zero.mp (hc4 i (Nat.zero_le i) hi),
    ?_, hsl, h.slot_free.1, ?_, ?_, ?_, ?_, ?_⟩
  · rw [h.inode_bitmap_out, get_bit_set_bit_self _ (by rw [length_inode_bitmap V]; omega)]
  · rw [hd]
    show (c + 1) % 2 ^ 32 = c + 1
    rw [BS_eq] at hic
    exact Nat.mod_eq_of_lt (by omega)
  · rw [← hch, hk]
  · rw [h.image_inode_out_new, h.final_direct, hk, hch]
  · rw [h.direct_take]
    exact List.Pairwise.map _ (fun a b hab => Nat.add_lt_add_left hab _)
      (Mkfs_adder.pairwise_chosen_blocks img file.length)
  · intro j
    rw [h.data_bitmap_out, get_bit_foldl_set_bit _ _ h.chosen_div, ← hch]
    by_cases hj : j ∈ Mkfs_adder.chosen_blocks img file.length
    · simp [hj]
    · simp [hj]

/-- Witness for C16: a 5000-byte file inserted into the fresh 180 KiB image with 128 inodes
gets inode index 1 (inode number 2) and the blocks 8 and 9. -/
theorem C16_first_fit_witness :
    ∃ out slot,
      (Mkfs_adder.main (built_image 180 128 0 0) [102] (List.replicate 5000 7) 0).output =
        some out ∧
      get_bit (inode_bitmap out) 1 = 1 ∧
      (root_dirent out slot).inode_no = 2 ∧
      (image_inode out 1).direct = [8, 9, 0, 0, 0, 0, 0, 0, 0, 0, 0, 0] := by
  obtain ⟨out, c, slot, ho, -, hc0, hcl, hco, -, -, hs1, -, hdir, -, -⟩ :=
    C16_first_fit (built_image 180 128 0 0) [102] (List.replicate 5000 7) 0
      (valid_built 180 128 0 0 (by decide) (by decide) (by decide) (by decide))
      (Mkfs_adder.built_insert_ok 180 128 0 0 (by decide) (by decide) (by decide) (by decide)
        [102] (List.replicate 5000 7) 0 (by rw [List.length_replicate]; decide))
  have hib := inode_bitmap_built 180 128 0 0 (by decide) (by decide) (by decide)
  have hdbm := data_bitmap_built 180 128 0 0 (by decide) (by decide) (by decide)
  have hsb := image_sb_built 180 128 0 0 (by decide) (by decide)
  have hdb : (image_sb (built_image 180 128 0 0)).data_region_blocks = 38 := by rw [hsb]; rfl
  have hds : (image_sb (built_image 180 128 0 0)).data_region_start = 7 := by rw [hsb]; rfl
  rw [hib, get_bit_cons_replicate] at hc0
  have c1 : c = 1 := by
    have hne : c ≠ 0 := by
      intro e
      rw [if_pos e] at hc0
      exact absurd hc0 (by decide)
    by_contra hne1
    have h1 := hcl 1 (by omega)
    rw [hib, get_bit_cons_replicate, if_neg (by decide)] at h1
    exact absurd h1 (by decide)
  subst c1
  refine ⟨out, slot, ho, hco, hs1, ?_⟩
  rw [hdir, hdbm, hdb, hds, List.length_replicate]
  simp only [get_bit_cons_replicate]
  decide

/-- C17: on a valid image (file size an `off_t`, below `2 ^ 63`) the insertion fails with
"not enough free data blocks" if and only if the image has a free inode, the file needs at
most 12 blocks and the data bitmap has fewer than `required_blocks = ceil(file_size / 4096)`
clear bits among the indices below `data_region_blocks`; after the allocation loop
`remaining > 0` holds exactly when fewer than `required_blocks` blocks were allocated; a
zero-byte file never fails this way. -/
theorem C17_not_enough_data_blocks (img file_name file : List Nat) (now : Nat)
    (V : ValidImage img) (hsz : file.length < 2 ^ 63) :
    ((Mkfs_adder.main img file_name file now).exit = .not_enough_data_blocks ↔
      (∃ i, i < (image_sb img).inode_count ∧ get_bit (inode_bitmap img) i = 0) ∧
      (file.length + 4095) / 4096 ≤ 12 ∧
      free_bits (data_bitmap img) (image_sb img).data_region_blocks <
        (file.length + 4095) / 4096) ∧
    (0 < (Mkfs_adder.alloc_loop (image_sb img) ((file.length + 4095) / 4096)
        (image_sb img).data_region_blocks 0
        { data_bm := data_bitmap img, newino := Mkfs_adder.new_inode file.length now,
          allocated := 0, remaining := file.length, fadd := file, fout := img }).remaining ↔
      (Mkfs_adder.alloc_loop (image_sb img) ((file.length + 4095) / 4096)
        (image_sb img).data_region_blocks 0
        { data_bm := data_bitmap img, newino := Mkfs_adder.new_inode file.length now,
          allocated := 0, remaining := file.length, fadd := file, fout := img }).allocated <
        (file.length + 4095) / 4096) ∧
    (file.length = 0 →
      (Mkfs_adder.main img file_name file now).exit ≠ .not_enough_data_blocks) := by
  have key := Mkfs_adder.exit_not_enough_iff V file_name file now hsz
  obtain ⟨ha, hr⟩ := Mkfs_adder.alloc_loop_result (image_sb img) (data_bitmap img) file
    (Mkfs_adder.new_inode file.length now) img ((file.length + 4095) / 4096)
    (image_sb img).data_region_blocks
  refine ⟨key, ?_, ?_⟩
  · rw [ha, hr, BS_eq]
    omega
  · intro h0 hex
    have := (key.mp hex).2.2
    rw [h0] at this
    omega

/-- Witness for C17: a one-byte file and the fresh 180 KiB image. -/
theorem C17_not_enough_data_blocks_witness :
    ((Mkfs_adder.main (built_image 180 128 0 0) [102] [7] 0).exit = .not_enough_data_blocks ↔
      (∃ i, i < (image_sb (built_image 180 128 0 0)).inode_count ∧
        get_bit (inode_bitmap (built_image 180 128 0 0)) i = 0) ∧
      (([7] : List Nat).length + 4095) / 4096 ≤ 12 ∧
      free_bits (data_bitmap (built_image 180 128 0 0))
          (image_sb (built_image 180 128 0 0)).data_region_blocks <
        (([7] : List Nat).length + 4095) / 4096) ∧
    (0 < (Mkfs_adder.alloc_loop (image_sb (built_image 180 128 0 0))
        ((([7] : List Nat).length + 4095) / 4096)
        (image_sb (built_image 180 128 0 0)).data_region_blocks 0
        { data_bm := data_bitmap (built_image 180 128 0 0),
          newino := Mkfs_adder.new_inode ([7] : List Nat).length 0,
          allocated := 0, remaining := ([7] : List Nat).length, fadd := [7],
          fout := built_image 180 128 0 0 }).remaining ↔
      (Mkfs_adder.alloc_loop (image_sb (built_image 180 128 0 0))
        ((([7] : List Nat).length + 4095) / 4096)
        (image_sb (built_image 180 128 0 0)).data_region_blocks 0
        { data_bm := data_bitmap (built_image 180 128 0 0),
          newino := Mkfs_adder.new_inode ([7] : List Nat).length 0,
          allocated := 0, remaining := ([7] : List Nat).length, fadd := [7],
          fout := built_image 180 128 0 0 }).allocated <
        (([7] : List Nat).length + 4095) / 4096) ∧
    (([7] : List Nat).length = 0 →
      (Mkfs_adder.main (built_image 180 128 0 0) [102] [7] 0).exit ≠
        .not_enough_data_blocks) :=
  C17_not_enough_data_blocks (built_image 180 128 0 0) [102] [7] 0
    (valid_built 180 128 0 0 (by decide) (by decide) (by decide) (by decide)) (by decide)

/-- C18: a successful insertion into a valid image changes only the two bitmap blocks, the
128-byte inode slot of the index taken `c`, the root inode's slot, the 64-byte root directory
slot `slot` of the new entry and the newly allocated data blocks: the length of the image
and every byte outside these regions are as in the input image; in particular block 0 (the
superblock), every other inode slot, every other root directory slot and every previously
allocated data block after the root directory block are unchanged. -/
theorem C18_insert_frame (img file_name file : List Nat) (now : Nat) (V : ValidImage img)
    (hok : (Mkfs_adder.main img file_name file now).exit = .ok) :
    ∃ out c slot, (Mkfs_adder.main img file_name file now).output = some out ∧
      (get_bit (inode_bitmap img) c = 0 ∧ ∀ i, i < c → get_bit (inode_bitmap img) i = 1) ∧
      (slot < 64 ∧ (root_dirent img slot).inode_no = 0 ∧
        ∀ s, s < slot → (root_dirent img s).inode_no ≠ 0) ∧
      out.length = img.length ∧
      (∀ p, ¬ (1 * 4096 ≤ p ∧ p < 3 * 4096) →
        ¬ (3 * 4096 + c * 128 ≤ p ∧ p < 3 * 4096 + c * 128 + 128) →
        ¬ (3 * 4096 ≤ p ∧ p < 3 * 4096 + 128) →
        ¬ ((image_sb img).data_region_start * 4096 + slot * 64 ≤ p ∧
          p < (image_sb img).data_region_start * 4096 + slot * 64 + 64) →
        (∀ j, get_bit (data_bitmap img) j = 0 → get_bit (data_bitmap out) j = 1 →
          ¬ (((image_sb img).data_region_start + j) * 4096 ≤ p ∧
            p < ((image_sb img).data_region_start + j) * 4096 + 4096)) →
        out[p]? = img[p]?) ∧
      image_block out 0 = image_block img 0 ∧
      (∀ i, i < (image_sb img).inode_count → i ≠ 0 → i ≠ c →
        inode_slot out i = inode_slot img i) ∧
      (∀ s, s < 64 → s ≠ slot → root_slot out s = root_slot img s) ∧
      (∀ j, 1 ≤ j → get_bit (data_bitmap img) j = 1 →
        image_block out ((image_sb img).data_region_start + j) =
          image_block img ((image_sb img).data_region_start + j)) := by
  obtain ⟨c, slot, out, ho, h⟩ := Mkfs_adder.inserted_of_ok V hok
  obtain ⟨hc1, hc2, hc3⟩ := h.chosen_pos
  obtain ⟨-, -, -, hc4⟩ := Mkfs_adder.pick_inode_eq_some h.pick
  have hsl := h.slot_lt
  refine ⟨out, c, slot, ho, ⟨hc3, fun i hi => get_bit_ne_zero.mp (hc4 i (Nat.zero_le i) hi)⟩,
    ⟨hsl, h.slot_free.1, h.slot_free.2⟩, h.length_out, ?_, ?_,
    fun i hi h0 hc => h.inode_slot_out_other hi h0 hc, ?_, ?_⟩
  · intro p h1 h2 h3 h4 h5
    apply h.getElem?_out p
    · rw [BS_eq]; omega
    · rw [BS_eq]; exact h2
    · rw [BS_eq]; exact h3
    · rw [BS_eq]; exact h4
    · intro j hj
      obtain ⟨b0, b1⟩ := (Mkfs_adder.mem_chosen_blocks_iff_bits h j).mp hj
      rw [BS_eq]
      exact h5 j b0 b1
  · unfold image_block
    apply h.slice_out_of_disjoint
    intro w hw
    have h3 := V.data_region_start
    rcases h.mem_all_writes hw with ⟨j, hj, e, l⟩ | ⟨e, l⟩ | ⟨e, l⟩ | ⟨e, l⟩ | ⟨e, l⟩ | ⟨e, l⟩ <;>
      rw [e] <;> rw [BS_eq] <;> omega
  · intro s hs hne
    rw [h.root_slot_out hs, if_neg hne]
  · intro j hj hbit
    apply h.block_out_other (by omega)
    intro j' hj' e
    have := (Mkfs_adder.mem_chosen_blocks V hj').2.2
    have e' : j = j' := by omega
    rw [e', this] at hbit
    exact absurd hbit (by decide)

/-- Witness for C18: a 5000-byte file inserted into the fresh 180 KiB image. -/
theorem C18_insert_frame_witness :
    (Mkfs_adder.main (built_image 180 128 0 0) [102] (List.replicate 5000 7) 0).exit = .ok ∧
    ∃ out c slot,
      (Mkfs_adder.main (built_image 180 128 0 0) [102] (List.replicate 5000 7) 0).output =
        some out ∧
      (get_bit (inode_bitmap (built_image 180 128 0 0)) c = 0 ∧
        ∀ i, i < c → get_bit (inode_bitmap (built_image 180 128 0 0)) i = 1) ∧
      (slot < 64 ∧ (root_dirent (built_image 180 128 0 0) slot).inode_no = 0 ∧
        ∀ s, s < slot → (root_dirent (built_image 180 128 0 0) s).inode_no ≠ 0) ∧
      out.length = (built_image 180 128 0 0).length ∧
      (∀ p, ¬ (1 * 4096 ≤ p ∧ p < 3 * 4096) →
        ¬ (3 * 4096 + c * 128 ≤ p ∧ p < 3 * 4096 + c * 128 + 128) →
        ¬ (3 * 4096 ≤ p ∧ p < 3 * 4096 + 128) →
        ¬ ((image_sb (built_image 180 128 0 0)).data_region_start * 4096 + slot * 64 ≤ p ∧
          p < (image_sb (built_image 180 128 0 0)).data_region_start * 4096 + slot * 64 + 64) →
        (∀ j, get_bit (data_bitmap (built_image 180 128 0 0)) j = 0 →
          get_bit (data_bitmap out) j = 1 →
          ¬ (((image_sb (built_image 180 128 0 0)).data_region_start + j) * 4096 ≤ p ∧
            p < ((image_sb (built_image 180 128 0 0)).data_region_start + j) * 4096 + 4096)) →
        out[p]? = (built_image 180 128 0 0)[p]?) ∧
      image_block out 0 = image_block (built_image 180 128 0 0) 0 ∧
      (∀ i, i < (image_sb (built_image 180 128 0 0)).inode_count → i ≠ 0 → i ≠ c →
        inode_slot out i = inode_slot (built_image 180 128 0 0) i) ∧
      (∀ s, s < 64 → s ≠ slot → root_slot out s = root_slot (built_image 180 128 0 0) s) ∧
      (∀ j, 1 ≤ j → get_bit (data_bitmap (built_image 180 128 0 0)) j = 1 →
        image_block out ((image_sb (built_image 180 128 0 0)).data_region_start + j) =
          image_block (built_image 180 128 0 0)
            ((image_sb (built_image 180 128 0 0)).data_region_start + j)) :=
  ⟨Mkfs_adder.built_insert_ok 180 128 0 0 (by decide) (by decide) (by decide) (by decide)
      [102] (List.replicate 5000 7) 0 (by rw [List.length_replicate]; decide),
    C18_insert_frame (built_image 180 128 0 0) [102] (List.replicate 5000 7) 0
      (valid_built 180 128 0 0 (by decide) (by decide) (by decide) (by decide))
      (Mkfs_adder.built_insert_ok 180 128 0 0 (by decide) (by decide) (by decide) (by decide)
        [102] (List.replicate 5000 7) 0 (by rw [List.length_replicate]; decide))⟩

/-- C20: for a bitmap buffer of bytes and an index `i` inside it: after `set_bit` at `i`,
`get_bit` returns 1 at `i` and the old value at every `j ≠ i`, where `get_bit` at `j` is bit
`j % 8` of byte `j / 8`; `set_bit` keeps the
buffer's length, leaves every byte other than byte `i / 8` as it was, and in byte `i / 8`
sets bit `i % 8` (counted from the least significant bit) and changes no other bit;
`set_bit` is idempotent. -/
theorem C20_bitmap_codec (bm : List Nat) (i j : Nat) (hb : ∀ b ∈ bm, b < 256)
    (hi : i < 8 * bm.length) :
    get_bit (set_bit bm i) i = 1 ∧
    (j ≠ i → get_bit (set_bit bm i) j = get_bit bm j) ∧
    get_bit bm j = ((bm.getD (j / 8) 0) / 2 ^ (j % 8)) % 2 ∧
    (set_bit bm i).length = bm.length ∧
    (∀ k, k ≠ i / 8 → (set_bit bm i)[k]? = bm[k]?) ∧
    (set_bit bm i).getD (i / 8) 0 = bm.getD (i / 8) 0 ||| 2 ^ (i % 8) ∧
    (∀ m, ((set_bit bm i).getD (i / 8) 0).testBit m =
      (decide (m = i % 8) || (bm.getD (i / 8) 0).testBit m)) ∧
    set_bit (set_bit bm i) i = set_bit bm i := by
  have hi8 : i / 8 < bm.length := by omega
  have hlt : bm.getD (i / 8) 0 < 256 := by
    rw [List.getD_eq_getElem?_getD, List.getElem?_eq_getElem hi8]
    exact hb _ (List.getElem_mem _)
  have hbyte : (set_bit bm i).getD (i / 8) 0 = bm.getD (i / 8) 0 ||| 2 ^ (i % 8) := by
    rw [getD_set_bit, if_pos ⟨rfl, hi8⟩]
    exact Nat.mod_eq_of_lt (or_pow_lt_256 hlt (Nat.mod_lt _ (by omega)))
  refine ⟨get_bit_set_bit_self bm hi8, fun h => get_bit_set_bit_ne bm (Ne.symm h), ?_,
    length_set_bit bm i, ?_, hbyte, ?_, set_bit_set_bit bm i⟩
  · unfold get_bit
    have e1 : j >>> 3 = j / 8 := by rw [Nat.shiftRight_eq_div_pow]
    have e2 : j &&& 7 = j % 8 := Nat.and_pow_two_sub_one_eq_mod j 3
    rw [e1, e2, Nat.and_one_is_mod, Nat.shiftRight_eq_div_pow]
  · intro k hk
    rw [set_bit_eq, List.getElem?_set_ne (Ne.symm hk)]
  · intro m
    rw [hbyte, Nat.testBit_or, Nat.testBit_two_pow, Bool.or_comm]
    congr 1
    by_cases h : m = i % 8 <;> simp [h, eq_comm]

/-- Witness for C20: bit 9 set in the two-byte buffer `[5, 0]`, read back with bit 3. -/
theorem C20_bitmap_codec_witness :
    get_bit (set_bit [5, 0] 9) 9 = 1 ∧
    ((3 : Nat) ≠ 9 → get_bit (set_bit [5, 0] 9) 3 = get_bit [5, 0] 3) ∧
    get_bit [5, 0] 3 = ((([5, 0] : List Nat).getD (3 / 8) 0) / 2 ^ (3 % 8)) % 2 ∧
    (set_bit [5, 0] 9).length = ([5, 0] : List Nat).length ∧
    (∀ k, k ≠ 9 / 8 → (set_bit [5, 0] 9)[k]? = ([5, 0] : List Nat)[k]?) ∧
    (set_bit [5, 0] 9).getD (9 / 8) 0 = ([5, 0] : List Nat).getD (9 / 8) 0 ||| 2 ^ (9 % 8) ∧
    (∀ m, ((set_bit [5, 0] 9).getD (9 / 8) 0).testBit m =
      (decide (m = 9 % 8) || (([5, 0] : List Nat).getD (9 / 8) 0).testBit m)) ∧
    set_bit (set_bit [5, 0] 9) 9 = set_bit [5, 0] 9 :=
  C20_bitmap_codec [5, 0] 9 3 (by decide) (by decide)

/-- C21: for every image obtained from a built image by `k` successful insertions, `k` is at
most 62, the set bits of the inode bitmap are exactly the indices `0..k`, the non-empty root
directory slots are exactly the slots `0..k+1`, slot `s ≥ 2` holds inode number `s`, the root
inode's `links` is `k + 2`, the number of non-empty slots (no 16-bit wrap), and its
`size_bytes` is `64 * (k + 2)`. -/
theorem C21_after_k_insertions (k : Nat) (img : List Nat) (h : ReachableIn k img) :
    k ≤ 62 ∧
    (∀ i, get_bit (inode_bitmap img) i = 1 ↔ i ≤ k) ∧
    (∀ s, s < 64 → ((root_dirent img s).inode_no ≠ 0 ↔ s ≤ k + 1)) ∧
    (∀ s, 2 ≤ s → s ≤ k + 1 → (root_dirent img s).inode_no = s) ∧
    (image_inode img 0).links = k + 2 ∧
    used_slots img = k + 2 ∧
    (image_inode img 0).size_bytes = 64 * (k + 2) := by
  have N := numbered_of_reachableIn h
  refine ⟨N.bound, N.inodes, N.slots, N.numbers, N.links, ?_, N.size⟩
  rw [← N.valid.root_links, N.links]

/-- Witness for C21: the image after 62 insertions into the fresh 284 KiB image, whose root
directory is full. -/
theorem C21_after_k_insertions_witness :
    62 ≤ 62 ∧
    (∀ i, get_bit (inode_bitmap full_root_image) i = 1 ↔ i ≤ 62) ∧
    (∀ s, s < 64 → ((root_dirent full_root_image s).inode_no ≠ 0 ↔ s ≤ 62 + 1)) ∧
    (∀ s, 2 ≤ s → s ≤ 62 + 1 → (root_dirent full_root_image s).inode_no = s) ∧
    (image_inode full_root_image 0).links = 62 + 2 ∧
    used_slots full_root_image = 62 + 2 ∧
    (image_inode full_root_image 0).size_bytes = 64 * (62 + 2) :=
  C21_after_k_insertions 62 full_root_image reachableIn_full_root_image

/-- C22: for every `size_kib` in [180, 4096] that is a multiple of 4 and every inode count in
[128, 512], `total_blocks ≥ 45` and `inode_table_blocks ≤ 16` (as `main` computes them), hence
`total_blocks ≥ 3 + inode_table_blocks + 1`: neither capacity test of `main` holds, the
subtraction `total_blocks - 3 - inode_table_blocks` does not underflow, `main` ends with
neither "File system too small" nor "No space for data blocks" and writes an image whose
data region has that many blocks. -/
theorem C22_capacity_checks_never_fire (size_kib inodes : Int) (t_sb t_ino : Nat)
    (hs : 180 ≤ size_kib) (hs' : size_kib ≤ 4096) (h4 : size_kib % 4 = 0)
    (hn : 128 ≤ inodes) (hn' : inodes ≤ 512) :
    45 ≤ size_kib.toNat * 1024 % 2 ^ 64 / BS ∧
    (inodes.toNat * INODE_SIZE + BS - 1) % 2 ^ 32 / BS ≤ 16 ∧
    3 + (inodes.toNat * INODE_SIZE + BS - 1) % 2 ^ 32 / BS + 1 ≤
      size_kib.toNat * 1024 % 2 ^ 64 / BS ∧
    ¬ (3 + (inodes.toNat * INODE_SIZE + BS - 1) % 2 ^ 32 / BS >
      size_kib.toNat * 1024 % 2 ^ 64 / BS) ∧
    ¬ (size_kib.toNat * 1024 % 2 ^ 64 / BS - 3 -
      (inodes.toNat * INODE_SIZE + BS - 1) % 2 ^ 32 / BS < 1) ∧
    ((size_kib.toNat * 1024 % 2 ^ 64 / BS - 3 -
        (inodes.toNat * INODE_SIZE + BS - 1) % 2 ^ 32 / BS : Nat) : Int) =
      ((size_kib.toNat * 1024 % 2 ^ 64 / BS : Nat) : Int) - 3 -
        (((inodes.toNat * INODE_SIZE + BS - 1) % 2 ^ 32 / BS : Nat) : Int) ∧
    Mkfs_builder.main size_kib inodes t_sb t_ino ≠ .error .too_small_for_inodes ∧
    Mkfs_builder.main size_kib inodes t_sb t_ino ≠ .error .no_space_for_data_blocks ∧
    ∃ img, Mkfs_builder.main size_kib inodes t_sb t_ino = .ok img ∧
      (image_sb img).total_blocks = size_kib.toNat * 1024 % 2 ^ 64 / BS ∧
      (image_sb img).inode_table_blocks = (inodes.toNat * INODE_SIZE + BS - 1) % 2 ^ 32 / BS ∧
      (image_sb img).data_region_blocks = size_kib.toNat * 1024 % 2 ^ 64 / BS - 3 -
        (inodes.toNat * INODE_SIZE + BS - 1) % 2 ^ 32 / BS := by
  have e1 : ((size_kib.toNat : Nat) : Int) = size_kib := Int.toNat_of_nonneg (by omega)
  have e2 : ((inodes.toNat : Nat) : Int) = inodes := Int.toNat_of_nonneg (by omega)
  have hb := Mkfs_builder.main_eq_built size_kib.toNat inodes.toNat t_sb t_ino (by omega)
    (by omega) (by omega) (by omega) (by omega)
  rw [e1, e2] at hb
  have hsb := image_sb_built size_kib.toNat inodes.toNat t_sb t_ino (by omega) (by omega)
  rw [BS_eq, INODE_SIZE_eq]
  have g1 : size_kib.toNat * 1024 % 2 ^ 64 / 4096 = size_kib.toNat / 4 := by omega
  have g2 : (inodes.toNat * 128 + 4096 - 1) % 2 ^ 32 / 4096 =
      (inodes.toNat * 128 + 4095) / 4096 := by omega
  rw [g1, g2]
  refine ⟨by omega, by omega, by omega, by omega, by omega, by omega, ?_, ?_, ?_⟩
  · intro h
    rcases Mkfs_builder.main_error_cases _ _ _ _ _ h with e | e <;> cases e
  · intro h
    rcases Mkfs_builder.main_error_cases _ _ _ _ _ h with e | e <;> cases e
  · refine ⟨_, hb, ?_, ?_, ?_⟩ <;> rw [hsb] <;> rfl

/-- Witness for C22: 180 KiB and 128 inodes. -/
theorem C22_capacity_checks_never_fire_witness :
    45 ≤ (180 : Int).toNat * 1024 % 2 ^ 64 / BS ∧
    ((128 : Int).toNat * INODE_SIZE + BS - 1) % 2 ^ 32 / BS ≤ 16 ∧
    3 + ((128 : Int).toNat * INODE_SIZE + BS - 1) % 2 ^ 32 / BS + 1 ≤
      (180 : Int).toNat * 1024 % 2 ^ 64 / BS ∧
    ¬ (3 + ((128 : Int).toNat * INODE_SIZE + BS - 1) % 2 ^ 32 / BS >
      (180 : Int).toNat * 1024 % 2 ^ 64 / BS) ∧
    ¬ ((180 : Int).toNat * 1024 % 2 ^ 64 / BS - 3 -
      ((128 : Int).toNat * INODE_SIZE + BS - 1) % 2 ^ 32 / BS < 1) ∧
    (((180 : Int).toNat * 1024 % 2 ^ 64 / BS - 3 -
        ((128 : Int).toNat * INODE_SIZE + BS - 1) % 2 ^ 32 / BS : Nat) : Int) =
      (((180 : Int).toNat * 1024 % 2 ^ 64 / BS : Nat) : Int) - 3 -
        ((((128 : Int).toNat * INODE_SIZE + BS - 1) % 2 ^ 32 / BS : Nat) : Int) ∧
    Mkfs_builder.main 180 128 0 0 ≠ .error .too_small_for_inodes ∧
    Mkfs_builder.main 180 128 0 0 ≠ .error .no_space_for_data_blocks ∧
    ∃ img, Mkfs_builder.main 180 128 0 0 = .ok img ∧
      (image_sb img).total_blocks = (180 : Int).toNat * 1024 % 2 ^ 64 / BS ∧
      (image_sb img).inode_table_blocks =
        ((128 : Int).toNat * INODE_SIZE + BS - 1) % 2 ^ 32 / BS ∧
      (image_sb img).data_region_blocks = (180 : Int).toNat * 1024 % 2 ^ 64 / BS - 3 -
        ((128 : Int).toNat * INODE_SIZE + BS - 1) % 2 ^ 32 / BS :=
  C22_capacity_checks_never_fire 180 128 0 0 (by decide) (by decide) (by decide) (by decide)
    (by decide)

end MiniVSFS
